import Mathlib

/-!
# vuepress-plugin-fetch-remote-images: a shallow embedding of `src/index.mjs`

Texts are lists of characters.  The regular expressions of the plugin are
values of `Re`, run by a backtracking matcher with the priorities of the
ECMAScript engine (greedy quantifiers, left alternative first), and the
`/g` loops of `RegExp.prototype.exec` and `String.prototype.replace` are
scans over the text.  The `i` flag is the engine's `Canonicalize`, a
parameter `canon` of every definition that runs an `i` pattern; patterns
without the flag run with `id`.
-/

namespace FetchRemoteImages

/-- Text of a document, a URL, a path. -/
abbrev Str := List Char

/-! ## Regular expressions -/

/-- The pattern forms that occur in the plugin. -/
inductive Re where
  | lit (s : Str)
  | star (neg : Bool) (cs : List Char)
  | plus (neg : Bool) (cs : List Char)
  | cls (neg : Bool) (cs : List Char)
  | seq (a b : Re)
  | alt (a b : Re)
  | group (i : Nat) (r : Re)
  | backref (i : Nat)

/-- Sequence of patterns, `r1 r2 ... rn`. -/
def Re.cat : List Re → Re
  | [] => .lit []
  | [r] => r
  | r :: rs => .seq r (Re.cat rs)

/-- Captures of a match in progress: group number and captured text, the
latest first. -/
abbrev Caps := List (Nat × Str)

/-- Text of group `i`, empty when the group did not take part. -/
def capture (c : Caps) (i : Nat) : Str := (c.lookup i).getD []

/-- Does `ch` belong to the class `[cs]` (`neg = false`) or `[^cs]`
(`neg = true`), compared through `canon`. -/
def classMatch (canon : Char → Char) (neg : Bool) (cs : List Char) (ch : Char) : Bool :=
  (cs.any fun a => canon a == canon ch) != neg

/-- Match the characters of `s` one by one at the head of the input; the
rest of the input on success. -/
def litMatch (canon : Char → Char) : Str → Str → Option Str
  | [], inp => some inp
  | _ :: _, [] => none
  | a :: s, ch :: inp => if canon a = canon ch then litMatch canon s inp else none

/-- Greedy `class*` followed by the continuation `k`: the longest run is
tried first, then shorter ones. -/
def starGo {α : Type} (p : Char → Bool) : Str → (Str → Option α) → Option α
  | [], k => k []
  | ch :: t, k =>
    if p ch then
      match starGo p t k with
      | some r => some r
      | none => k (ch :: t)
    else k (ch :: t)

/-- Backtracking matcher in continuation-passing style: `k` receives the
rest of the input and the captures. -/
def Re.run {α : Type} (canon : Char → Char) :
    Re → Str → Caps → (Str → Caps → Option α) → Option α
  | .lit s, inp, c, k =>
    match litMatch canon s inp with
    | some rest => k rest c
    | none => none
  | .star neg cs, inp, c, k => starGo (classMatch canon neg cs) inp (fun rest => k rest c)
  | .plus neg cs, inp, c, k =>
    match inp with
    | [] => none
    | ch :: t =>
      if classMatch canon neg cs ch then starGo (classMatch canon neg cs) t (fun rest => k rest c)
      else none
  | .cls neg cs, inp, c, k =>
    match inp with
    | [] => none
    | ch :: t => if classMatch canon neg cs ch then k t c else none
  | .seq a b, inp, c, k => a.run canon inp c (fun rest c1 => b.run canon rest c1 k)
  | .alt a b, inp, c, k =>
    match a.run canon inp c k with
    | some r => some r
    | none => b.run canon inp c k
  | .group i r, inp, c, k =>
    r.run canon inp c (fun rest c1 => k rest ((i, inp.take (inp.length - rest.length)) :: c1))
  | .backref i, inp, c, k =>
    match litMatch canon (capture c i) inp with
    | some rest => k rest c
    | none => none

/-- One match attempt at the head of the input: the rest of the input
after the match and the captures. -/
def Re.matchAt (canon : Char → Char) (r : Re) (inp : Str) : Option (Str × Caps) :=
  r.run canon inp [] (fun rest c => some (rest, c))

/-- The loop `while ((match = regex.exec(content)))` of a `/g` pattern: the
captures of every match, left to right, the search resuming where the last
match ended.  `skip` counts the characters still covered by the last
match.  (The patterns here do not match the empty text.) -/
def execAll (canon : Char → Char) (r : Re) : Str → Nat → List Caps
  | [], _ => []
  | _ :: t, skip + 1 => execAll canon r t skip
  | ch :: t, 0 =>
    match r.matchAt canon (ch :: t) with
    | some (rest, c) => c :: execAll canon r t (t.length - rest.length)
    | none => execAll canon r t 0

/-! ## Replacement templates -/

/-- Value of a decimal digit. -/
def digitVal (ch : Char) : Option Nat :=
  if 48 ≤ ch.toNat ∧ ch.toNat ≤ 57 then some (ch.toNat - 48) else none

/-- The character U+0060. -/
def graveChar : Char := Char.ofNat 96

/-- The character U+0027. -/
def aposChar : Char := Char.ofNat 39

/-- Where the reading of a replacement string stands: in plain text, just
after a `$`, or after `$` and one digit. -/
inductive SubstState where
  | plain
  | dollar
  | digit (d : Char) (n : Nat)

/-- The replacement for `$n` with a single digit: the capture when the
pattern has a group `n`, the two characters themselves otherwise. -/
def oneDigitRef (c : Caps) (m : Nat) (d : Char) (n : Nat) : Str :=
  if 1 ≤ n ∧ n ≤ m then capture c n else ['$', d]

/-- The abstract operation GetSubstitution of a replacement string: `$$`,
`$&`, the text before and after the match, and `$n` or `$nn` for a pattern
with `m` groups and no named group; any other `$` stands for itself. -/
def getSubstitution (matched before after : Str) (c : Caps) (m : Nat) :
    SubstState → Str → Str
  | .plain, [] => []
  | .dollar, [] => ['$']
  | .digit d n, [] => oneDigitRef c m d n
  | .plain, ch :: t =>
    if ch = '$' then getSubstitution matched before after c m .dollar t
    else ch :: getSubstitution matched before after c m .plain t
  | .dollar, ch :: t =>
    if ch = '$' then '$' :: getSubstitution matched before after c m .plain t
    else if ch = '&' then matched ++ getSubstitution matched before after c m .plain t
    else if ch = graveChar then before ++ getSubstitution matched before after c m .plain t
    else if ch = aposChar then after ++ getSubstitution matched before after c m .plain t
    else
      match digitVal ch with
      | some n => getSubstitution matched before after c m (.digit ch n) t
      | none => '$' :: ch :: getSubstitution matched before after c m .plain t
  | .digit d n, ch :: t =>
    match digitVal ch with
    | some n2 =>
      if 10 * n + n2 ≤ m then
        if 1 ≤ 10 * n + n2 then
          capture c (10 * n + n2) ++ getSubstitution matched before after c m .plain t
        else '$' :: d :: ch :: getSubstitution matched before after c m .plain t
      else oneDigitRef c m d n ++ ch :: getSubstitution matched before after c m .plain t
    | none =>
      if ch = '$' then oneDigitRef c m d n ++ getSubstitution matched before after c m .dollar t
      else oneDigitRef c m d n ++ ch :: getSubstitution matched before after c m .plain t

/-- The scan of `String.prototype.replace` with a `/g` pattern of `m`
groups and the replacement string `tmpl`.  `before` is the text already
passed, reversed; `skip` counts the characters still covered by the last
match. -/
def replaceGo (canon : Char → Char) (r : Re) (m : Nat) (tmpl : Str) : Str → Str → Nat → Str
  | _, [], _ => []
  | before, ch :: t, skip + 1 => replaceGo canon r m tmpl (ch :: before) t skip
  | before, ch :: t, 0 =>
    match r.matchAt canon (ch :: t) with
    | some (rest, c) =>
      if rest.length ≤ t.length then
        getSubstitution ((ch :: t).take ((ch :: t).length - rest.length)) before.reverse rest c m .plain tmpl
          ++ replaceGo canon r m tmpl (ch :: before) t (t.length - rest.length)
      else
        getSubstitution [] before.reverse rest c m .plain tmpl
          ++ ch :: replaceGo canon r m tmpl (ch :: before) t 0
    | none => ch :: replaceGo canon r m tmpl (ch :: before) t 0

/-- The call `text.replace(regex, tmpl)` for a `/g` pattern. -/
def replaceAll (canon : Char → Char) (r : Re) (m : Nat) (tmpl : Str) (text : Str) : Str :=
  replaceGo canon r m tmpl [] text 0

/-! ## Helpers of the plugin -/

/-- The method `String.prototype.startsWith`. -/
def startsWith (s p : Str) : Bool := p.isPrefixOf s

/-- The method `String.prototype.endsWith`. -/
def endsWith (s p : Str) : Bool := p.isSuffixOf s

/-- The test `url.startsWith('http://') || url.startsWith('https://')`. -/
def isHttpUrl (url : Str) : Bool :=
  startsWith url "http://".toList || startsWith url "https://".toList

/-- Decode basic HTML entities: five `/g` replacements in the source's
order. -/
def decodeHtmlEntities (text : Str) : Str :=
  let t1 := replaceAll id (.lit "&amp;".toList) 0 "&".toList text
  let t2 := replaceAll id (.lit "&lt;".toList) 0 "<".toList t1
  let t3 := replaceAll id (.lit "&gt;".toList) 0 ">".toList t2
  let t4 := replaceAll id (.lit "&quot;".toList) 0 "\"".toList t3
  replaceAll id (.lit "&#039;".toList) 0 [aposChar] t4

/-- The pattern `/!\[[^\]]*\]\(([^)]+)\)/g`. -/
def markdownRegex : Re :=
  Re.cat [.lit "![".toList, .star true [']'], .lit "](".toList,
    .group 1 (.plus true [')']), .lit ")".toList]

/-- The pattern `/<img[^>]+src="([^"]+)"[^>]*>/g`. -/
def htmlRegex : Re :=
  Re.cat [.lit "<img".toList, .plus true ['>'], .lit "src=\"".toList,
    .group 1 (.plus true ['"']), .lit "\"".toList, .star true ['>'], .lit ">".toList]

/-- The pattern `/(?::src|v-bind:src)="([^"]+)"/g`. -/
def vueBindingRegex : Re :=
  Re.cat [.alt (.lit ":src".toList) (.lit "v-bind:src".toList), .lit "=\"".toList,
    .group 1 (.plus true ['"']), .lit "\"".toList]

/-- The method `Set.prototype.add` on a set kept in insertion order. -/
def setAdd (s : List Str) (x : Str) : List Str := if x ∈ s then s else s ++ [x]

/-- Body of the `while` loop of `extractImageUrls` for one match. -/
def addMatchUrl (urls : List Str) (c : Caps) : List Str :=
  let url := capture c 1
  if url ≠ [] ∧ isHttpUrl url = true then setAdd urls (decodeHtmlEntities url) else urls

/-- Extract image URLs from content. -/
def extractImageUrls (content : Str) : List Str :=
  [markdownRegex, htmlRegex, vueBindingRegex].foldl
    (fun urls regex => (execAll id regex content 0).foldl addMatchUrl urls) []

/-! ## Parsed headers -/

/-- A value of a parsed header, as `JSON.parse(JSON.stringify(...))`
returns it. -/
inductive JVal where
  | null
  | bool (b : Bool)
  | num (n : Int)
  | str (s : Str)
  | arr (items : List JVal)
  | obj (fields : List (Str × JVal))

/-- A parsed header: its properties in order. -/
abbrev Header := List (Str × JVal)

/-- The property name `url`. -/
def urlField : Str := "url".toList

/-- The URL a list entry of a header contributes to discovery: the entry
itself when it is an http(s) string, its `url` property when the entry is
an object whose `url` is an http(s) string. -/
def itemUrl : JVal → Option Str
  | .str s => if isHttpUrl s then some s else none
  | .obj fields =>
    match fields.lookup urlField with
    | some (.str s) => if isHttpUrl s then some s else none
    | _ => none
  | _ => none

/-- Body of the loop over `keys` of `extractUrlsFromFrontmatter`. -/
def addKeyUrls (frontmatter : Header) (urls : List Str) (key : Str) : List Str :=
  match frontmatter.lookup key with
  | some (.str value) => if isHttpUrl value then setAdd urls (decodeHtmlEntities value) else urls
  | some (.arr value) =>
    value.foldl (fun urls item =>
      match itemUrl item with
      | some u => setAdd urls (decodeHtmlEntities u)
      | none => urls) urls
  | _ => urls

/-- Extract remote URLs from the recognised keys of a parsed header;
`none` is a missing header. -/
def extractUrlsFromFrontmatter (frontmatter : Option Header) (keys : List Str) : List Str :=
  match frontmatter with
  | none => []
  | some fm => keys.foldl (addKeyUrls fm) []

/-! ## The mapping from URL to public path -/

/-- The map `urlToLocalPathMap`: its entries in insertion order. -/
abbrev UrlMap := List (Str × Str)

/-- The method `Map.prototype.has`. -/
def mapHas (m : UrlMap) (k : Str) : Bool := (m.lookup k).isSome

/-- The method `Map.prototype.set`: the value of a present key is replaced
where it stands, a new key is appended. -/
def mapSet : UrlMap → Str → Str → UrlMap
  | [], k, v => [(k, v)]
  | (k1, v1) :: m, k, v => if k1 = k then (k, v) :: m else (k1, v1) :: mapSet m k v

/-! ## Stage 3: rewriting a source file -/

/-- The callback of `newFrontmatter[key].map(...)` for one entry of a list:
the new entry and whether it set `frontmatterChanged`. -/
def updateFmItem (urlToLocalPathMap : UrlMap) : JVal → JVal × Bool
  | .str s =>
    match urlToLocalPathMap.lookup s with
    | some p => (.str p, true)
    | none => (.str s, false)
  | .obj fields =>
    match fields.lookup urlField with
    | some (.str s) =>
      match urlToLocalPathMap.lookup s with
      | some p =>
        (.obj (fields.map fun f => if f.1 = urlField then (f.1, JVal.str p) else f), true)
      | none => (.obj fields, false)
    | _ => (.obj fields, false)
  | v => (v, false)

/-- The new value under a recognised key, `updateFmValue` for a value that
is not a list and the `map` over the entries for a list, with whether
`frontmatterChanged` was set. -/
def updateFmValue (urlToLocalPathMap : UrlMap) : JVal → JVal × Bool
  | .str s =>
    match urlToLocalPathMap.lookup s with
    | some p => (.str p, true)
    | none => (.str s, false)
  | .arr items =>
    (.arr (items.map fun item => (updateFmItem urlToLocalPathMap item).1),
      items.any fun item => (updateFmItem urlToLocalPathMap item).2)
  | v => (v, false)

/-- The assignment `newFrontmatter[key] = f(newFrontmatter[key])` on an own
property `key`. -/
def modifyProp (fm : Header) (key : Str) (f : JVal → JVal) : Header :=
  fm.map fun p => if p.1 = key then (p.1, f p.2) else p

/-- Body of the loop `for (const key of pluginOptions.frontmatterKeys)`,
on the pair of `newFrontmatter` and `frontmatterChanged`. -/
def updateFmKey (urlToLocalPathMap : UrlMap) (acc : Header × Bool) (key : Str) : Header × Bool :=
  match acc.1.lookup key with
  | some v =>
    (modifyProp acc.1 key fun w => (updateFmValue urlToLocalPathMap w).1,
      acc.2 || (updateFmValue urlToLocalPathMap v).2)
  | none => acc

/-- Step 1 of the rewrite, "Update Frontmatter": `newFrontmatter` and
`frontmatterChanged`. -/
def updateFrontmatter (frontmatter : Header) (keys : List Str) (urlToLocalPathMap : UrlMap) :
    Header × Bool :=
  keys.foldl (updateFmKey urlToLocalPathMap) (frontmatter, false)

/-- The characters of the class `[.*+?^${}()|[\]\\]`. -/
def regexSpecialChars : List Char :=
  ['.', '*', '+', '?', '^', '$', Char.ofNat 123, Char.ofNat 125, '(', ')', '|', '[', ']',
    Char.ofNat 92]

/-- The escape `remoteUrl.replace(/[.*+?^${}()|[\]\\]/g, '\\$&')`. -/
def escapeRegExp (remoteUrl : Str) : Str :=
  replaceAll id (.cls false regexSpecialChars) 0 [Char.ofNat 92, '$', '&'] remoteUrl

/-- The pattern characters that `new RegExp` reads from an escaped URL: a
backslash and the character after it stand for that character.  `esc`
tells that the last character read was the backslash. -/
def patternChars : Bool → Str → Str
  | _, [] => []
  | true, ch :: t => ch :: patternChars false t
  | false, ch :: t => if ch = Char.ofNat 92 then patternChars true t else ch :: patternChars false t

/-- The pattern `!\[([^\]]*)\]\(URL\)`, flag `g`. -/
def markdownImgRegex (escapedRemoteUrl : Str) : Re :=
  Re.cat [.lit "![".toList, .group 1 (.star true [']']), .lit "](".toList,
    .lit (patternChars false escapedRemoteUrl), .lit ")".toList]

/-- The pattern `(<img[^>]*src=)(["'])URL\2([^>]*>)`, flags `gi`. -/
def htmlImgRegex (escapedRemoteUrl : Str) : Re :=
  Re.cat [.group 1 (Re.cat [.lit "<img".toList, .star true ['>'], .lit "src=".toList]),
    .group 2 (.cls false ['"', aposChar]), .lit (patternChars false escapedRemoteUrl),
    .backref 2, .group 3 (Re.cat [.star true ['>'], .lit ">".toList])]

/-- The pattern `((?::src|v-bind:src)=)(["'])URL\2`, flags `gi`. -/
def vueBindingImgRegex (escapedRemoteUrl : Str) : Re :=
  Re.cat [.group 1 (Re.cat [.alt (.lit ":src".toList) (.lit "v-bind:src".toList),
      .lit "=".toList]),
    .group 2 (.cls false ['"', aposChar]), .lit (patternChars false escapedRemoteUrl),
    .backref 2]

/-- The three replacements of one map entry, `tempBody` at the end of the
loop body. -/
def rewriteEntry (canon : Char → Char) (newBodyContent remoteUrl localPath : Str) : Str :=
  let escapedRemoteUrl := escapeRegExp remoteUrl
  let t1 := replaceAll id (markdownImgRegex escapedRemoteUrl) 1
    ("![$1](".toList ++ localPath ++ ")".toList) newBodyContent
  let t2 := replaceAll canon (htmlImgRegex escapedRemoteUrl) 3
    ("$1$2".toList ++ localPath ++ "$2$3".toList) t1
  replaceAll canon (vueBindingImgRegex escapedRemoteUrl) 2
    ("$1$2".toList ++ localPath ++ "$2".toList) t2

/-- Body of the loop over `urlToLocalPathMap.entries()`, on the pair of
`newBodyContent` and `bodyChanged`. -/
def rewriteStep (canon : Char → Char) (acc : Str × Bool) (entry : Str × Str) : Str × Bool :=
  let tempBody := rewriteEntry canon acc.1 entry.1 entry.2
  if tempBody ≠ acc.1 then (tempBody, true) else acc

/-- Step 2 of the rewrite, "Update Body Content": `newBodyContent` and
`bodyChanged`. -/
def updateBody (canon : Char → Char) (bodyContent : Str) (urlToLocalPathMap : UrlMap) :
    Str × Bool :=
  urlToLocalPathMap.foldl (rewriteStep canon) (bodyContent, false)

/-- What the rewrite of one source file computes before it decides to
write. -/
structure RewriteResult where
  newFrontmatter : Header
  newBodyContent : Str
  fileModifiedInThisPass : Bool

/-- The rewrite of one source file from its parsed header and body. -/
def rewriteFile (canon : Char → Char) (frontmatter : Header) (bodyContent : Str)
    (keys : List Str) (urlToLocalPathMap : UrlMap) : RewriteResult :=
  let fm := updateFrontmatter frontmatter keys urlToLocalPathMap
  let body := updateBody canon bodyContent urlToLocalPathMap
  { newFrontmatter := fm.1, newBodyContent := body.1, fileModifiedInThisPass := fm.2 || body.2 }

/-- Canonicalize restricted to the letters `a` to `z`. -/
def asciiUpper (ch : Char) : Char :=
  if 97 ≤ ch.toNat ∧ ch.toNat ≤ 122 then Char.ofNat (ch.toNat - 32) else ch

/-! ## Initialisation -/

/-- The value `publicBaseImagePath` that `onInitialized` computes from
`app.options.base` (`none` when unset) and the option `imageSubDirName`. -/
def publicBaseImagePath (optionsBase : Option Str) (imageSubDirName : Str) : Str :=
  let base := match optionsBase with
    | none => "/".toList
    | some b => if b = [] then "/".toList else b
  let tempBase := if startsWith base "/".toList then base else "/".toList ++ base
  let tempBase := if endsWith tempBase "/".toList then tempBase else tempBase ++ "/".toList
  let tempImageSubDir :=
    if startsWith imageSubDirName "/".toList then imageSubDirName.drop 1 else imageSubDirName
  let tempImageSubDir :=
    if endsWith tempImageSubDir "/".toList then tempImageSubDir.dropLast else tempImageSubDir
  replaceAll id (.lit "//".toList) 0 "/".toList (tempBase ++ tempImageSubDir ++ "/".toList)

/-! ## Stage 2: the fetch pass -/

/-- The library functions the fetch pass calls. -/
structure Host where
  /-- The digest `crypto.createHash('md5').update(url).digest('hex')`. -/
  md5Hex : Str → Str
  /-- The value `path.extname(new URL(url).pathname)`, `none` when the
  constructor throws. -/
  urlPathExtname : Str → Option Str
  /-- The method `String.prototype.toLowerCase`. -/
  toLowerCase : Str → Str
  /-- The function `path.join` of two segments. -/
  pathJoin : Str → Str → Str
  /-- The function `path.extname`. -/
  pathExtname : Str → Str

/-- The options and paths a fetch pass reads. -/
structure PassEnv where
  isDev : Bool
  convertToWebP : Bool
  outputDirAbsPath : Str
  publicBaseImagePath : Str

/-- The state of a plugin instance that outlives a call of `onPrepared`. -/
structure PluginState where
  urlToLocalPathMap : UrlMap
  processedUrlsInDev : List Str

/-- The variable `originalFileExt` for a URL. -/
def originalFileExt (h : Host) (remoteUrl : Str) : Str :=
  match h.urlPathExtname remoteUrl with
  | none => ".jpg".toList
  | some e =>
    if h.toLowerCase e = [] ∨ h.toLowerCase e = ".".toList then ".jpg".toList
    else h.toLowerCase e

/-- The variable `localFileName` for a URL. -/
def localFileName (h : Host) (env : PassEnv) (remoteUrl : Str) : Str :=
  h.md5Hex remoteUrl ++
    (if env.convertToWebP then ".webp".toList else originalFileExt h remoteUrl)

/-- The variable `localFileAbsPath` for a URL. -/
def localFileAbsPath (h : Host) (env : PassEnv) (remoteUrl : Str) : Str :=
  h.pathJoin env.outputDirAbsPath (localFileName h env remoteUrl)

/-- The variable `publicImageUrl` for a URL. -/
def publicImageUrl (h : Host) (env : PassEnv) (remoteUrl : Str) : Str :=
  env.publicBaseImagePath ++ localFileName h env remoteUrl

/-- The call `text.replace(pattern, tmpl)` with a string pattern: the
first occurrence is replaced. -/
def replaceFirst (pattern tmpl : Str) : Str → Str → Str
  | before, [] =>
    if pattern = [] then getSubstitution [] before.reverse [] [] 0 .plain tmpl else []
  | before, ch :: t =>
    if pattern.isPrefixOf (ch :: t) then
      getSubstitution pattern before.reverse ((ch :: t).drop pattern.length) [] 0 .plain tmpl
        ++ (ch :: t).drop pattern.length
    else ch :: replaceFirst pattern tmpl (ch :: before) t

/-- The path `downloadAndProcessImage` writes the image to. -/
def targetPath (h : Host) (convertToWebP : Bool) (localFileAbsPath originalFileExt : Str) : Str :=
  if convertToWebP then localFileAbsPath
  else if endsWith localFileAbsPath originalFileExt then localFileAbsPath
  else replaceFirst (h.pathExtname localFileAbsPath) originalFileExt [] localFileAbsPath

/-- The function `downloadAndProcessImage` on the set of existing paths:
`ok` tells that the response was ok and nothing threw; the result is the
returned boolean and the paths that exist afterwards. -/
def downloadAndProcessImage (h : Host) (ok : Bool) (localFileAbsPath : Str)
    (convertToWebP : Bool) (originalFileExt : Str) (disk : List Str) : Bool × List Str :=
  if ok then (true, targetPath h convertToWebP localFileAbsPath originalFileExt :: disk)
  else (false, disk)

/-- The variables of one call of `onPrepared` during its fetch pass. -/
structure PassState where
  st : PluginState
  disk : List Str
  successfulDownloads : Nat
  existingImagesSkipped : Nat
  downloadPromises : List Str

/-- Body of the loop `for (const remoteUrl of allRemoteUrls)`: the URL is
skipped, mapped to its existing file, or a download is launched. -/
def scheduleUrl (h : Host) (env : PassEnv) (s : PassState) (remoteUrl : Str) : PassState :=
  if env.isDev && s.st.processedUrlsInDev.contains remoteUrl
      && mapHas s.st.urlToLocalPathMap remoteUrl then
    { s with existingImagesSkipped := s.existingImagesSkipped + 1 }
  else if s.disk.contains (localFileAbsPath h env remoteUrl) then
    { s with
      st := {
        urlToLocalPathMap :=
          mapSet s.st.urlToLocalPathMap remoteUrl (publicImageUrl h env remoteUrl)
        processedUrlsInDev :=
          if env.isDev then setAdd s.st.processedUrlsInDev remoteUrl
          else s.st.processedUrlsInDev }
      existingImagesSkipped := s.existingImagesSkipped + 1 }
  else { s with downloadPromises := s.downloadPromises ++ [remoteUrl] }

/-- The loop over `allRemoteUrls`, which runs to its end before any
download settles. -/
def schedule (h : Host) (env : PassEnv) (st : PluginState) (disk : List Str)
    (allRemoteUrls : List Str) : PassState :=
  allRemoteUrls.foldl (scheduleUrl h env)
    { st := st, disk := disk, successfulDownloads := 0, existingImagesSkipped := 0,
      downloadPromises := [] }

/-- One launched download settles: `downloadAndProcessImage` and its
`then` callback. -/
def settleUrl (h : Host) (env : PassEnv) (ok : Str → Bool) (s : PassState) (remoteUrl : Str) :
    PassState :=
  let r := downloadAndProcessImage h (ok remoteUrl) (localFileAbsPath h env remoteUrl)
    env.convertToWebP (originalFileExt h remoteUrl) s.disk
  if r.1 then
    { s with
      st := {
        urlToLocalPathMap :=
          mapSet s.st.urlToLocalPathMap remoteUrl (publicImageUrl h env remoteUrl)
        processedUrlsInDev :=
          if env.isDev then setAdd s.st.processedUrlsInDev remoteUrl
          else s.st.processedUrlsInDev }
      disk := r.2
      successfulDownloads := s.successfulDownloads + 1 }
  else { s with disk := r.2 }

/-- The fetch pass up to the point where `Promise.all` has joined:
`settled` lists the launched downloads in the order in which they
settle. -/
def fetchPass (h : Host) (env : PassEnv) (ok : Str → Bool) (st : PluginState) (disk : List Str)
    (allRemoteUrls settled : List Str) : PassState :=
  settled.foldl (settleUrl h env ok) (schedule h env st disk allRemoteUrls)

/-- The condition under which the pass prints "Not all remote URLs were
successfully mapped". -/
def warningEmitted (s : PassState) (allRemoteUrls : List Str) : Bool :=
  s.st.urlToLocalPathMap.length != allRemoteUrls.length
    && decide (s.successfulDownloads + s.existingImagesSkipped < allRemoteUrls.length)

/-! ## Header rewriting as the specification words it -/

/-- Reference function after the words of the specification (4.4, header
rewriting): a list entry that is a string present in the mapping becomes
its mapped path, an object entry whose `url` is present in the mapping
becomes a copy with that field substituted, every other entry is
unchanged. -/
def specItem (m : UrlMap) : JVal → JVal
  | .str s =>
    match m.lookup s with
    | some p => .str p
    | none => .str s
  | .obj fields =>
    match fields.lookup urlField with
    | some (.str s) =>
      match m.lookup s with
      | some p => .obj (fields.map fun f => if f.1 = urlField then (f.1, JVal.str p) else f)
      | none => .obj fields
    | _ => .obj fields
  | v => v

/-- Reference function after the words of the specification: is the list entry one
at which a substitution is made. -/
def specItemSubst (m : UrlMap) : JVal → Bool
  | .str s => (m.lookup s).isSome
  | .obj fields =>
    match fields.lookup urlField with
    | some (.str s) => (m.lookup s).isSome
    | _ => false
  | _ => false

/-- Reference function after the words of the specification: the value under a
recognised key, a plain string present in the mapping replaced by its
mapped path, a list mapped over its entries, any other value unchanged. -/
def specValue (m : UrlMap) : JVal → JVal
  | .str s =>
    match m.lookup s with
    | some p => .str p
    | none => .str s
  | .arr items => .arr (items.map (specItem m))
  | v => v

/-- Reference function after the words of the specification: is a substitution made
in the value under a recognised key. -/
def specValueSubst (m : UrlMap) : JVal → Bool
  | .str s => (m.lookup s).isSome
  | .arr items => items.any (specItemSubst m)
  | _ => false

/-- Reference function after the words of the specification: the rewritten header,
the value of every property named by a recognised key rewritten, every
other property unchanged. -/
def specHeader (fm : Header) (keys : List Str) (m : UrlMap) : Header :=
  fm.map fun p => if p.1 ∈ keys then (p.1, specValue m p.2) else p

/-- Reference function after the words of the specification: at least one
substitution was made under a recognised key present in the header. -/
def specChanged (fm : Header) (keys : List Str) (m : UrlMap) : Bool :=
  keys.any fun key =>
    match fm.lookup key with
    | some v => specValueSubst m v
    | none => false

/-- No mapped path is itself a key of the mapping. -/
def NoChain (m : UrlMap) : Prop := ∀ k v, m.lookup k = some v → m.lookup v = none

/-- The URL needs no download in state `s`: the dev-mode shortcut of the
scheduling loop applies to it, or it is mapped to its public path and its
file exists. -/
def Resolved (h : Host) (env : PassEnv) (s : PassState) (u : Str) : Prop :=
  (env.isDev = true ∧ u ∈ s.st.processedUrlsInDev ∧ mapHas s.st.urlToLocalPathMap u = true)
    ∨ (s.st.urlToLocalPathMap.lookup u = some (publicImageUrl h env u)
        ∧ localFileAbsPath h env u ∈ s.disk)

/-- The reference forms of discovery: `![alt](u)`, `<img src="u">`,
`:src="u"` and `v-bind:src="u"`. -/
inductive RefSyntax where
  | markdown (alt : Str)
  | img
  | colonSrc
  | vBindSrc

/-- The text of a reference to `u`. -/
def RefSyntax.text (u : Str) : RefSyntax → Str
  | .markdown alt => "![".toList ++ (alt ++ ("](".toList ++ (u ++ ")".toList)))
  | .img => "<img src=\"".toList ++ (u ++ "\">".toList)
  | .colonSrc => ":src=\"".toList ++ (u ++ "\"".toList)
  | .vBindSrc => "v-bind:src=\"".toList ++ (u ++ "\"".toList)

/-- The discovery pattern of a reference form. -/
def RefSyntax.regex : RefSyntax → Re
  | .markdown _ => markdownRegex
  | .img => htmlRegex
  | .colonSrc => vueBindingRegex
  | .vBindSrc => vueBindingRegex

/-- A reference is well formed: no `]` in the alt text and no `)` in the
URL of the markdown form, no `"` in the URL of the other forms. -/
def RefSyntax.WellFormed (u : Str) : RefSyntax → Prop
  | .markdown alt => ']' ∉ alt ∧ ')' ∉ u
  | .img => '"' ∉ u
  | .colonSrc => '"' ∉ u
  | .vBindSrc => '"' ∉ u

/-- A match attempt of `r` at the head of `t ++ rest` fails or ends before
`rest` begins. -/
def endsBefore (r : Re) (t rest : Str) : Bool :=
  match r.matchAt id (t ++ rest) with
  | some (after, _) => decide (rest.length ≤ after.length)
  | none => true

/-- A host for examples: the digest keeps the letters and digits of the
URL, every URL has the extension `.PNG`, and `path.join` puts a slash
between its two segments. -/
def demoHost : Host where
  md5Hex := fun u => u.filter Char.isAlphanum
  urlPathExtname := fun _ => some ".PNG".toList
  toLowerCase := fun s => s.map Char.toLower
  pathJoin := fun d n => d ++ "/".toList ++ n
  pathExtname := fun _ => ".png".toList

/-- A build-mode pass that keeps the original format. -/
def demoEnv : PassEnv where
  isDev := false
  convertToWebP := false
  outputDirAbsPath := "/site/public/fetched-images".toList
  publicBaseImagePath := "/fetched-images/".toList

/-! ## References as the rewrite accepts them -/

/-- The text `t` begins with a markdown image whose target is `u`:
`![alt](u)` with no `]` in `alt`. -/
def MarkdownRefAt (u t : Str) : Prop :=
  ∃ alt rest, ']' ∉ alt
    ∧ t = "![".toList ++ alt ++ "](".toList ++ u ++ ")".toList ++ rest

/-- The character `q`, as Canonicalize returns it, is one of the two
quotes. -/
def IsQuote (canon : Char → Char) (q : Char) : Prop := q = canon '"' ∨ q = canon aposChar

/-- Read through Canonicalize, the text `t` begins with an `<img` tag
that holds `u` as a quoted `src`: `<img`, text without `>`, `src=`, a
quote, `u`, the same quote, and a `>` further on. -/
def ImgTagRefAt (canon : Char → Char) (u t : Str) : Prop :=
  ∃ a q rest, canon '>' ∉ a ∧ IsQuote canon q ∧ canon '>' ∈ rest
    ∧ t.map canon
        = "<img".toList.map canon ++ a ++ "src=".toList.map canon ++ [q] ++ u.map canon ++ [q]
          ++ rest

/-- Read through Canonicalize, the text `t` begins with a bound `src`
that holds `u`: `:src=` or `v-bind:src=`, a quote, `u`, the same quote. -/
def BoundSrcRefAt (canon : Char → Char) (u t : Str) : Prop :=
  ∃ name q rest, (name = ":src=".toList ∨ name = "v-bind:src=".toList) ∧ IsQuote canon q
    ∧ t.map canon = name.map canon ++ [q] ++ u.map canon ++ [q] ++ rest

/-- Somewhere in the body stands a reference to `u` in one of the three
forms that the rewrite replaces. -/
def RefersTo (canon : Char → Char) (body u : Str) : Prop :=
  ∃ t, t <:+ body ∧ (MarkdownRefAt u t ∨ ImgTagRefAt canon u t ∨ BoundSrcRefAt canon u t)

/-- Decision of `MarkdownRefAt` past `![`: the alt text ends at the first
`]`, where `](u)` has to stand. -/
def altThenTarget (u : Str) : Str → Bool
  | [] => false
  | c :: r =>
    if c = ']' then ("](".toList ++ u ++ ")".toList).isPrefixOf (c :: r)
    else altThenTarget u r

/-- Decision of `MarkdownRefAt`. -/
def markdownRefAtB (u t : Str) : Bool :=
  "![".toList.isPrefixOf t && altThenTarget u (t.drop 2)

/-- A quote, `u` and the same quote at the head of a text already read
through Canonicalize: the text after them. -/
def quotedTarget (canon : Char → Char) (u : Str) : Str → Option Str
  | [] => none
  | q :: r =>
    if q = canon '"' ∨ q = canon aposChar then
      if (u.map canon ++ [q]).isPrefixOf r then some (r.drop (u.length + 1)) else none
    else none

/-- Decision of `ImgTagRefAt` past `<img`: `src=` with the quoted `u` and a
later `>`, at a place reached without passing a `>`. -/
def imgAttrFrom (canon : Char → Char) (u : Str) : Str → Bool
  | [] => false
  | c :: r =>
    (("src=".toList.map canon).isPrefixOf (c :: r)
        && match quotedTarget canon u ((c :: r).drop 4) with
          | some rest => decide (canon '>' ∈ rest)
          | none => false)
      || (c != canon '>' && imgAttrFrom canon u r)

/-- Decision of `ImgTagRefAt`. -/
def imgTagRefAtB (canon : Char → Char) (u t : Str) : Bool :=
  ("<img".toList.map canon).isPrefixOf (t.map canon)
    && imgAttrFrom canon u ((t.map canon).drop 4)

/-- Decision of `BoundSrcRefAt`. -/
def boundSrcRefAtB (canon : Char → Char) (u t : Str) : Bool :=
  [":src=".toList, "v-bind:src=".toList].any fun name =>
    (name.map canon).isPrefixOf (t.map canon)
      && (quotedTarget canon u ((t.map canon).drop name.length)).isSome

/-- Decision of `RefersTo`. -/
def refersToB (canon : Char → Char) (body u : Str) : Bool :=
  body.tails.any fun t => markdownRefAtB u t || imgTagRefAtB canon u t || boundSrcRefAtB canon u t

/-! ## Marked texts

A device of the proof that the replacements of two entries commute, not a
part of the plugin: a text in which the URLs found by a replacement are
marked as sites, so that the same marked text can be read with the URL or
with its path at each site. -/

/-- The characters that delimit a URL in the three reference forms. -/
def markupChars : List Char := ['[', ']', '(', ')', '<', '>', '"', aposChar]

/-- The characters that stand right before a URL in a reference. -/
def openChars : List Char := ['(', '"', aposChar]

/-- The characters that stand right after a URL in a reference. -/
def closeChars : List Char := [')', '"', aposChar]

/-- Canonicalize keeps the markup characters and the slash apart from
every other character. -/
def CanonSep (canon : Char → Char) : Prop :=
  ∀ d ∈ '/' :: markupChars, ∀ c, canon c = canon d → c = d

/-- A text with marked sites: a character, or the site of entry `k` of a
pair of map entries, holding the text `x` found there. -/
inductive Item where
  | ch (c : Char)
  | slot (k : Bool) (x : Str)

/-- The text of a marked text when the site of entry `k` holding `x` is
written as `f k x`. -/
def proj (f : Bool → Str → Str) : List Item → Str
  | [] => []
  | .ch c :: m => c :: proj f m
  | .slot k x :: m => f k x ++ proj f m

/-- A text without sites. -/
def plainItems (s : Str) : List Item := s.map Item.ch

/-- The pattern text `src=`. -/
def srcEq : Str := "src=".toList

/-- A word that may fill a site: not empty, free of markup characters, and
without `src=` in any letter case. -/
def WordOk (cn : Char → Char) (w : Str) : Prop :=
  w ≠ [] ∧ (∀ c ∈ w, c ∉ markupChars) ∧ ¬ srcEq.map cn <:+: w.map cn

/-- The sites of a marked text, written through `f`, are words that differ
from the key `u`, each right after an opening and right before a closing
character.  The flag tells whether the character before the text is an
opening one. -/
def WF (f : Bool → Str → Str) (cn : Char → Char) (u : Str) : Bool → List Item → Prop
  | _, [] => True
  | _, .ch c :: m => WF f cn u (decide (c ∈ openChars)) m
  | b, .slot k x :: m =>
    b = true ∧ WordOk cn (f k x) ∧ (f k x).map cn ≠ u.map cn
      ∧ (∃ d m1, m = .ch d :: m1 ∧ d ∈ closeChars) ∧ WF f cn u false m

/-- Does the marked text begin with a site. -/
def slotHead : List Item → Bool
  | .slot _ _ :: _ => true
  | _ => false

/-- Match a literal against the leading characters of a marked text; a
site stops it. -/
def stripLit (cn : Char → Char) : Str → List Item → Option (List Item)
  | [], m => some m
  | a :: l, .ch c :: m => if cn a = cn c then stripLit cn l m else none
  | _ :: _, _ => none

/-- No character of the literal but the last is an opening character. -/
def SlotSafe : Str → Prop
  | [] => True
  | [_] => True
  | a :: l => a ∉ openChars ∧ SlotSafe l

/-- Split a marked text at its first character `d`. -/
def splitAtChar (d : Char) : List Item → Option (List Item × List Item)
  | [] => none
  | .ch c :: m =>
    if c = d then some ([], m)
    else
      match splitAtChar d m with
      | some r => some (.ch c :: r.1, r.2)
      | none => none
  | .slot k x :: m =>
    match splitAtChar d m with
    | some r => some (.slot k x :: r.1, r.2)
    | none => none

/-- Greedy `class*` on a marked text: the continuation is tried at
characters only, the longest run first; sites are passed as a whole. -/
def starItems {α : Type} (p : Char → Bool) : List Item → (List Item → Option α) → Option α
  | [], k => k []
  | .ch c :: t, k =>
    if p c then
      match starItems p t k with
      | some r => some r
      | none => k (.ch c :: t)
    else k (.ch c :: t)
  | .slot _ _ :: t, k => starItems p t k

/-- A match on a marked text: the matched text before and after the URL,
the URL text found, the captured groups, and the unread text. -/
structure Site where
  pre : List Item
  url : Str
  post : List Item
  groups : List (Nat × List Item)
  rest : List Item

/-- The captures of a match on a marked text, written through `f`. -/
def Site.caps (f : Bool → Str → Str) (s : Site) : Caps :=
  s.groups.map fun g => (g.1, proj f g.2)

/-- The match of `markdownImgRegex` for the URL `u` at the head of a marked
text. -/
def siteMd (u : Str) (m : List Item) : Option Site :=
  match stripLit id "![".toList m with
  | none => none
  | some m1 =>
    match splitAtChar ']' m1 with
    | none => none
    | some r =>
      match stripLit id "(".toList r.2 with
      | none => none
      | some m3 =>
        match stripLit id u m3 with
        | none => none
        | some m4 =>
          match stripLit id ")".toList m4 with
          | none => none
          | some m5 =>
            some { pre := .ch '!' :: .ch '[' :: (r.1 ++ [.ch ']', .ch '(']), url := u,
                   post := [.ch ')'], groups := [(1, r.1)], rest := m5 }

/-- The scan of a `/g` replacement on a marked text: every site found by
`site` has its URL turned into a site mark of kind `own`.  `skip` counts
the items still covered by the last match. -/
def markGo (site : List Item → Option Site) (own : Bool) : List Item → Nat → List Item
  | [], _ => []
  | _ :: t, skip + 1 => markGo site own t skip
  | .slot k x :: t, 0 => .slot k x :: markGo site own t 0
  | .ch c :: t, 0 =>
    match site (.ch c :: t) with
    | some s =>
      s.pre ++ .slot own s.url :: (s.post ++ markGo site own t (t.length - s.rest.length))
    | none => .ch c :: markGo site own t 0

/-- No site of kind `own` is marked in the text. -/
def NoKind (own : Bool) (m : List Item) : Prop := ∀ x, Item.slot own x ∉ m

/-- The matcher `site` on marked texts describes the pattern `R` with the
replacement string `tmpl` for the key `u` and the path `p`. -/
structure SiteSpec (cn : Char → Char) (R : Re) (n : Nat) (tmpl : Str)
    (site : List Item → Option Site) (u p : Str) : Prop where
  lift : ∀ (f : Bool → Str → Str) (m : List Item) (b : Bool), WF f cn u b m →
    slotHead m = false →
    R.matchAt cn (proj f m) = (site m).map (fun s => (proj f s.rest, s.caps f))
  subst : ∀ (f : Bool → Str → Str) (m : List Item) (s : Site) (ma be af : Str),
    site m = some s →
    getSubstitution ma be af (s.caps f) n .plain tmpl = proj f s.pre ++ (p ++ proj f s.post)
  inslot : ∀ (w1 w2 z : Str) (d : Char), w2 ≠ [] → WordOk cn (w1 ++ w2) → d ∈ closeChars →
    R.matchAt cn (w2 ++ d :: z) = none
  shape : ∀ (m : List Item) (s : Site), site m = some s →
    m = s.pre ++ (plainItems s.url ++ (s.post ++ s.rest)) ∧ s.url.map cn = u.map cn
      ∧ (∃ l o, s.pre = l ++ [.ch o] ∧ o ∈ openChars)
      ∧ (∃ d l, s.post = .ch d :: l ∧ d ∈ closeChars)

/-- The replacement `F` of a text is, on marked texts, the marking `mark`
of the sites of the key `u` as sites of kind `own`, read with the path `p`
in the place of each such site. -/
structure Lifted (cn : Char → Char) (own : Bool) (u p : Str) (F : Str → Str)
    (mark : List Item → List Item) : Prop where
  run : ∀ (f : Bool → Str → Str) (m : List Item) (b : Bool), (∀ x, f own x = p) →
    WF f cn u b m → F (proj f m) = proj f (mark m)
  orig : ∀ (g : Bool → Str → Str) (m : List Item), (∀ x, g own x = x) →
    proj g (mark m) = proj g m
  mem : ∀ (it : Item) (m : List Item), it ∈ mark m →
    it ∈ m ∨ ∃ x, it = .slot own x ∧ x.map cn = u.map cn
  wf : ∀ (f : Bool → Str → Str) (cn2 : Char → Char) (u2 : Str) (w : Str) (b : Bool),
    (∀ x, x.map cn = u.map cn → WordOk cn2 (f own x) ∧ (f own x).map cn2 ≠ u2.map cn2) →
    WF f cn2 u2 b (mark (plainItems w))

/-- Reading of the sites: a site of the first kind holds `pa` when given,
its own text otherwise; likewise the second kind with `pb`. -/
def fill (pa pb : Option Str) (k : Bool) (x : Str) : Str :=
  match k with
  | true => pa.getD x
  | false => pb.getD x

/-- Every site of the marked text holds a text as long as its key, not
beginning with `/`. -/
def Shaped (a b : Str) (m : List Item) : Prop :=
  ∀ k x, Item.slot k x ∈ m →
    x.length = (if k then a else b).length ∧ ∃ c t, x = c :: t ∧ c ≠ '/'

/-- The comparison `c` tells apart whatever `cn` tells apart. -/
def Refines (c cn : Char → Char) : Prop := ∀ x y : Char, c x = c y → cn x = cn y

/-- What is asked of one entry of the mapping: the key begins with `h`,
the path with `/`, neither holds a bracket, a quote or `src=`, and the path
holds no `$`. -/
structure EntryOk (cn : Char → Char) (u p : Str) : Prop where
  key : WordOk cn u
  path : WordOk cn p
  keyHead : ∃ t, u = 'h' :: t
  pathHead : ∃ t, p = '/' :: t
  noDollar : '$' ∉ p

/-- The quoted URL at the head of a marked text, `(["'])URL\2`: the quote,
the URL text found and the unread text. -/
def quotedItems (cn : Char → Char) (u : Str) : List Item → Option (Char × Str × List Item)
  | .ch q :: m3 =>
    if q = '"' ∨ q = aposChar then
      match stripLit cn u m3 with
      | none => none
      | some m4 =>
        match stripLit cn [q] m4 with
        | none => none
        | some m5 => some (q, proj (fun _ x => x) (m3.take (m3.length - m4.length)), m5)
    else none
  | _ => none

/-- The rest of a match of `vueBindingImgRegex` once the attribute name and
`=` are read: `m2` is what follows them in `m`. -/
def tailVue (cn : Char → Char) (u : Str) (m m2 : List Item) : Option Site :=
  match quotedItems cn u m2 with
  | none => none
  | some t =>
    some { pre := m.take (m.length - m2.length) ++ [.ch t.1], url := t.2.1,
           post := [.ch t.1],
           groups := [(2, [.ch t.1]), (1, m.take (m.length - m2.length))], rest := t.2.2 }

/-- The match of `vueBindingImgRegex` for the URL `u` at the head of a
marked text. -/
def siteVue (cn : Char → Char) (u : Str) (m : List Item) : Option Site :=
  match (match stripLit cn ":src=".toList m with
    | some m2 => tailVue cn u m m2
    | none => none) with
  | some s => some s
  | none =>
    match stripLit cn "v-bind:src=".toList m with
    | some m2 => tailVue cn u m m2
    | none => none

/-- The rest of a match of `htmlImgRegex` once `<img ... src=` is read:
`m3` is what follows it in `m`. -/
def tailHtml (cn : Char → Char) (u : Str) (m m3 : List Item) : Option Site :=
  match quotedItems cn u m3 with
  | none => none
  | some t =>
    match splitAtChar '>' t.2.2 with
    | none => none
    | some r =>
      some { pre := m.take (m.length - m3.length) ++ [.ch t.1], url := t.2.1,
             post := .ch t.1 :: (r.1 ++ [.ch '>']),
             groups := [(3, r.1 ++ [.ch '>']), (2, [.ch t.1]),
               (1, m.take (m.length - m3.length))],
             rest := r.2 }

/-- The match of `htmlImgRegex` for the URL `u` at the head of a marked
text. -/
def siteHtml (cn : Char → Char) (u : Str) (m : List Item) : Option Site :=
  match stripLit cn "<img".toList m with
  | none => none
  | some m1 =>
    starItems (classMatch cn true ['>']) m1 fun m2 =>
      match stripLit cn "src=".toList m2 with
      | some m3 => tailHtml cn u m m3
      | none => none

/-- What the amended order-independence asks of one entry of the mapping:
the key is an http(s) URL, the path begins with `/`, neither holds one of
the characters `[ ] ( ) < > " '` nor `src=` in any letter case, and the
path holds no `$`. -/
def PlainEntry (canon : Char → Char) (e : Str × Str) : Prop :=
  isHttpUrl e.1 = true ∧ startsWith e.2 "/".toList = true
    ∧ (∀ c ∈ e.1 ++ e.2, c ∉ markupChars)
    ∧ ¬ srcEq.map canon <:+: e.1.map canon ∧ ¬ srcEq.map canon <:+: e.2.map canon
    ∧ '$' ∉ e.2

instance (canon : Char → Char) (e : Str × Str) : Decidable (PlainEntry canon e) := by
  unfold PlainEntry
  infer_instance

/-! # Theorems -/

/-! ## Discovery returns http(s) URLs only -/

theorem matchAt_lit_cons_ne (a ch : Char) (pat t : Str) (h : ch ≠ a) :
    (Re.lit (a :: pat)).matchAt id (ch :: t) = none := by
  simp [Re.matchAt, Re.run, litMatch, Ne.symm h]

theorem replaceGo_lit_head (a : Char) (pat : Str) (m : Nat) (tmpl : Str) :
    ∀ (p before s : Str), (∀ c ∈ p, c ≠ a) →
      replaceGo id (.lit (a :: pat)) m tmpl before (p ++ s) 0
        = p ++ replaceGo id (.lit (a :: pat)) m tmpl (p.reverse ++ before) s 0
  | [], before, s, _ => by simp
  | ch :: p, before, s, hp => by
    have hch : ch ≠ a := hp ch (List.mem_cons_self _ _)
    have ih := replaceGo_lit_head a pat m tmpl p (ch :: before) s
      (fun c hc => hp c (List.mem_cons_of_mem _ hc))
    rw [List.cons_append, replaceGo, matchAt_lit_cons_ne a ch pat (p ++ s) hch, ih]
    simp

theorem replaceAll_lit_head (a : Char) (pat : Str) (m : Nat) (tmpl p s : Str)
    (hp : ∀ c ∈ p, c ≠ a) (h : p <+: s) :
    p <+: replaceAll id (.lit (a :: pat)) m tmpl s := by
  obtain ⟨t, rfl⟩ := h
  rw [replaceAll, replaceGo_lit_head a pat m tmpl p [] t hp]
  exact List.prefix_append _ _

theorem isHttpUrl_iff (s : Str) :
    isHttpUrl s = true ↔ "http://".toList <+: s ∨ "https://".toList <+: s := by
  simp [isHttpUrl, startsWith, List.isPrefixOf_iff_prefix]

theorem isHttpUrl_replaceAll (pat : Str) (m : Nat) (tmpl s : Str) (h : isHttpUrl s = true) :
    isHttpUrl (replaceAll id (.lit ('&' :: pat)) m tmpl s) = true := by
  rw [isHttpUrl_iff] at h ⊢
  rcases h with h | h
  · exact Or.inl (replaceAll_lit_head '&' pat m tmpl _ s (by decide) h)
  · exact Or.inr (replaceAll_lit_head '&' pat m tmpl _ s (by decide) h)

theorem isHttpUrl_decodeHtmlEntities (s : Str) (h : isHttpUrl s = true) :
    isHttpUrl (decodeHtmlEntities s) = true := by
  unfold decodeHtmlEntities
  exact isHttpUrl_replaceAll _ _ _ _ (isHttpUrl_replaceAll _ _ _ _ (isHttpUrl_replaceAll _ _ _ _
    (isHttpUrl_replaceAll _ _ _ _ (isHttpUrl_replaceAll _ _ _ _ h))))

theorem all_setAdd (p : Str → Bool) (l : List Str) (x : Str) (hl : l.all p = true)
    (hx : p x = true) : (setAdd l x).all p = true := by
  unfold setAdd
  split
  · exact hl
  · simp only [List.all_append, hl, List.all_cons, hx, List.all_nil, Bool.and_self]

theorem all_addMatchUrl (l : List Str) (c : Caps) (hl : l.all isHttpUrl = true) :
    (addMatchUrl l c).all isHttpUrl = true := by
  simp only [addMatchUrl]
  split
  · next h => exact all_setAdd _ _ _ hl (isHttpUrl_decodeHtmlEntities _ h.2)
  · exact hl

theorem all_foldl {β : Type} (f : List Str → β → List Str)
    (hf : ∀ l b, l.all isHttpUrl = true → (f l b).all isHttpUrl = true) :
    ∀ (bs : List β) (l : List Str), l.all isHttpUrl = true →
      (bs.foldl f l).all isHttpUrl = true
  | [], _, hl => hl
  | b :: bs, l, hl => all_foldl f hf bs (f l b) (hf l b hl)

theorem all_addKeyUrls (fm : Header) (l : List Str) (key : Str) (hl : l.all isHttpUrl = true) :
    (addKeyUrls fm l key).all isHttpUrl = true := by
  unfold addKeyUrls
  split
  · split
    · next h => exact all_setAdd _ _ _ hl (isHttpUrl_decodeHtmlEntities _ h)
    · exact hl
  · refine all_foldl _ ?_ _ _ hl
    intro l item hl
    cases hu : itemUrl item with
    | none => exact hl
    | some u =>
      refine all_setAdd _ _ _ hl (isHttpUrl_decodeHtmlEntities _ ?_)
      cases item with
      | str s =>
        simp only [itemUrl] at hu
        split at hu
        · next h => cases hu; exact h
        · cases hu
      | obj fields =>
        simp only [itemUrl] at hu
        split at hu
        · split at hu
          · next h => cases hu; exact h
          · cases hu
        · cases hu
      | _ => simp [itemUrl] at hu
  · exact hl

/-- C4: every string returned by `extractImageUrls` and every string
returned by `extractUrlsFromFrontmatter` begins with `http://` or
`https://`; the test made on the raw capture still holds for the decoded
value that is returned. -/
theorem extracted_urls_are_http (content : Str) (frontmatter : Option Header) (keys : List Str) :
    (extractImageUrls content).all isHttpUrl = true
      ∧ (extractUrlsFromFrontmatter frontmatter keys).all isHttpUrl = true := by
  constructor
  · unfold extractImageUrls
    refine all_foldl _ ?_ _ _ rfl
    intro l regex hl
    exact all_foldl _ all_addMatchUrl _ _ hl
  · unfold extractUrlsFromFrontmatter
    cases frontmatter with
    | none => rfl
    | some fm => exact all_foldl _ (all_addKeyUrls fm) _ _ rfl

/-! ## Header rewriting -/

theorem updateFmItem_eq (m : UrlMap) (v : JVal) :
    updateFmItem m v = (specItem m v, specItemSubst m v) := by
  cases v with
  | str s => simp only [updateFmItem, specItem, specItemSubst]; cases m.lookup s <;> rfl
  | obj fields =>
    simp only [updateFmItem, specItem, specItemSubst]
    cases hf : fields.lookup urlField with
    | none => rfl
    | some w =>
      cases w with
      | str s => simp only; cases m.lookup s <;> rfl
      | _ => rfl
  | _ => rfl

theorem updateFmValue_eq (m : UrlMap) (v : JVal) :
    updateFmValue m v = (specValue m v, specValueSubst m v) := by
  cases v with
  | str s => simp only [updateFmValue, specValue, specValueSubst]; cases m.lookup s <;> rfl
  | arr items => simp only [updateFmValue, specValue, specValueSubst, updateFmItem_eq]
  | _ => rfl

theorem lookup_cons_self {β : Type} (k : Str) (v : β) (l : List (Str × β)) :
    List.lookup k ((k, v) :: l) = some v := by
  simp [List.lookup]

theorem lookup_cons_ne {β : Type} (k k1 : Str) (v : β) (l : List (Str × β)) (h : k ≠ k1) :
    List.lookup k ((k1, v) :: l) = List.lookup k l := by
  have hb : (k == k1) = false := by simpa using h
  simp [List.lookup, hb]

theorem lookup_map_set (k : Str) (w : JVal) :
    ∀ (fields : List (Str × JVal)) (v : JVal), fields.lookup k = some v →
      (fields.map fun f => if f.1 = k then (f.1, w) else f).lookup k = some w
  | [], _, h => by simp at h
  | (k1, v1) :: fields, v, h => by
    by_cases hk : k = k1
    · subst hk
      rw [List.map_cons, if_pos rfl]
      exact lookup_cons_self _ _ _
    · rw [lookup_cons_ne _ _ _ _ hk] at h
      rw [List.map_cons, if_neg (fun e => hk e.symm), lookup_cons_ne _ _ _ _ hk]
      exact lookup_map_set k w fields v h

theorem specItem_idem (m : UrlMap) (hm : NoChain m) (v : JVal) :
    specItem m (specItem m v) = specItem m v ∧ specItemSubst m (specItem m v) = false := by
  cases v with
  | str s =>
    simp only [specItem]
    cases hs : m.lookup s with
    | none => simp [specItem, specItemSubst, hs]
    | some p => simp [specItem, specItemSubst, hm s p hs]
  | obj fields =>
    simp only [specItem]
    cases hf : fields.lookup urlField with
    | none => simp [specItem, specItemSubst, hf]
    | some w =>
      cases w with
      | str s =>
        simp only
        cases hs : m.lookup s with
        | none => simp [specItem, specItemSubst, hf, hs]
        | some p =>
          have h1 := lookup_map_set urlField (JVal.str p) fields _ hf
          simp only [specItem, specItemSubst, h1, hm s p hs]
          simp
      | _ => simp [specItem, specItemSubst, hf]
  | _ => simp [specItem, specItemSubst]

theorem specValue_idem (m : UrlMap) (hm : NoChain m) (v : JVal) :
    specValue m (specValue m v) = specValue m v ∧ specValueSubst m (specValue m v) = false := by
  cases v with
  | str s =>
    simp only [specValue]
    cases hs : m.lookup s with
    | none => simp [specValue, specValueSubst, hs]
    | some p => simp [specValue, specValueSubst, hm s p hs]
  | arr items =>
    simp only [specValue, specValueSubst, List.map_map, List.any_map]
    constructor
    · congr 1
      apply List.map_congr_left
      intro x _
      exact (specItem_idem m hm x).1
    · rw [List.any_eq_false]
      intro x _
      simp [(specItem_idem m hm x).2]
  | _ => simp [specValue, specValueSubst]

theorem modifyProp_of_lookup_none (f : JVal → JVal) (key : Str) :
    ∀ (fm : Header), fm.lookup key = none → modifyProp fm key f = fm
  | [], _ => rfl
  | (k1, v1) :: fm, h => by
    by_cases hk : key = k1
    · subst hk
      rw [lookup_cons_self] at h
      cases h
    · rw [lookup_cons_ne _ _ _ _ hk] at h
      have ih := modifyProp_of_lookup_none f key fm h
      unfold modifyProp at ih ⊢
      rw [List.map_cons, if_neg (fun e => hk e.symm), ih]

theorem lookup_modifyProp (f : JVal → JVal) (key k : Str) :
    ∀ (fm : Header), (modifyProp fm key f).lookup k
      = if k = key then (fm.lookup k).map f else fm.lookup k
  | [] => by simp [modifyProp]
  | (k1, v1) :: fm => by
    have ih := lookup_modifyProp f key k fm
    unfold modifyProp at ih ⊢
    rw [List.map_cons]
    by_cases h1 : k1 = key
    · subst h1
      rw [if_pos rfl]
      by_cases h2 : k = k1
      · subst h2
        simp [lookup_cons_self]
      · rw [lookup_cons_ne _ _ _ _ h2, lookup_cons_ne _ _ _ _ h2, ih]
    · rw [if_neg h1]
      by_cases h2 : k = k1
      · subst h2
        have h3 : ¬ k = key := h1
        simp [lookup_cons_self, h3]
      · rw [lookup_cons_ne _ _ _ _ h2, lookup_cons_ne _ _ _ _ h2, ih]

theorem specItem_of_not_subst (m : UrlMap) (v : JVal) (h : specItemSubst m v = false) :
    specItem m v = v := by
  cases v with
  | str s =>
    simp only [specItemSubst] at h
    simp only [specItem]
    cases hs : m.lookup s with
    | none => rfl
    | some p => simp [hs] at h
  | obj fields =>
    simp only [specItemSubst] at h
    simp only [specItem]
    cases hf : fields.lookup urlField with
    | none => rfl
    | some w =>
      cases w with
      | str s =>
        simp only [hf] at h
        simp only
        cases hs : m.lookup s with
        | none => rfl
        | some p => simp [hs] at h
      | _ => rfl
  | _ => rfl

theorem specValue_of_not_subst (m : UrlMap) (v : JVal) (h : specValueSubst m v = false) :
    specValue m v = v := by
  cases v with
  | str s =>
    simp only [specValueSubst] at h
    simp only [specValue]
    cases hs : m.lookup s with
    | none => rfl
    | some p => simp [hs] at h
  | arr items =>
    simp only [specValueSubst, List.any_eq_false] at h
    simp only [specValue]
    congr 1
    conv_rhs => rw [← List.map_id items]
    apply List.map_congr_left
    intro x hx
    exact specItem_of_not_subst m x (by simpa using h x hx)
  | _ => rfl

theorem updateFmKey_eq (m : UrlMap) (fm : Header) (b : Bool) (key : Str) :
    updateFmKey m (fm, b) key
      = (modifyProp fm key (specValue m),
          b || (match fm.lookup key with
            | some v => specValueSubst m v
            | none => false)) := by
  simp only [updateFmKey, updateFmValue_eq]
  cases h : fm.lookup key with
  | none => simp [modifyProp_of_lookup_none _ _ _ h]
  | some v => rfl

theorem updateFrontmatter_fold (m : UrlMap) :
    ∀ (keys : List Str) (fm : Header) (b : Bool), (keys.Nodup ∨ NoChain m) →
      keys.foldl (updateFmKey m) (fm, b) = (specHeader fm keys m, b || specChanged fm keys m)
  | [], fm, b, _ => by simp [specHeader, specChanged]
  | key :: keys, fm, b, h => by
    have h1 : keys.Nodup ∨ NoChain m := h.imp (fun hn => (List.nodup_cons.mp hn).2) id
    have h2 : key ∈ keys → NoChain m := fun hk =>
      h.elim (fun hn => absurd hk (List.nodup_cons.mp hn).1) id
    rw [List.foldl_cons, updateFmKey_eq, updateFrontmatter_fold m keys _ _ h1]
    refine Prod.ext ?_ ?_
    · simp only [specHeader, modifyProp, List.map_map]
      apply List.map_congr_left
      intro p _
      simp only [Function.comp]
      by_cases hp : p.1 = key
      · by_cases hk : key ∈ keys
        · simp [hp, hk, (specValue_idem m (h2 hk) p.2).1]
        · simp [hp, hk]
      · simp [hp]
    · simp only [specChanged, List.any_cons, Bool.or_assoc]
      congr 1
      cases hv : fm.lookup key with
      | none =>
        simp only [Bool.false_or]
        congr 1
        funext k
        rw [lookup_modifyProp]
        by_cases hk : k = key
        · subst hk; simp [hv]
        · simp [hk]
      | some v =>
        simp only
        cases hs : specValueSubst m v with
        | true => simp
        | false =>
          simp only [Bool.false_or]
          congr 1
          funext k
          rw [lookup_modifyProp]
          by_cases hk : k = key
          · subst hk
            simp [hv, specValue_of_not_subst m v hs]
          · simp [hk]

/-! ## The fetch pass -/

theorem lookup_mapSet (k v k1 : Str) :
    ∀ (m : UrlMap), (mapSet m k v).lookup k1 = if k1 = k then some v else m.lookup k1
  | [] => by
    by_cases h : k1 = k
    · subst h; simp [mapSet, lookup_cons_self]
    · simp [mapSet, lookup_cons_ne _ _ _ _ h, h]
  | (k2, v2) :: m => by
    have ih := lookup_mapSet k v k1 m
    unfold mapSet
    by_cases h2 : k2 = k
    · subst h2
      rw [if_pos rfl]
      by_cases h : k1 = k2
      · subst h; simp [lookup_cons_self]
      · simp [lookup_cons_ne _ _ _ _ h, h]
    · rw [if_neg h2]
      by_cases h : k1 = k2
      · subst h
        have h3 : ¬ k1 = k := h2
        simp [lookup_cons_self, h3]
      · rw [lookup_cons_ne _ _ _ _ h, lookup_cons_ne _ _ _ _ h, ih]

theorem mapSet_eq_self (k v : Str) :
    ∀ (m : UrlMap), m.lookup k = some v → mapSet m k v = m
  | [], h => by simp at h
  | (k2, v2) :: m, h => by
    unfold mapSet
    by_cases h2 : k2 = k
    · subst h2
      rw [lookup_cons_self] at h
      cases h
      rw [if_pos rfl]
    · rw [lookup_cons_ne _ _ _ _ (fun e => h2 e.symm)] at h
      rw [if_neg h2, mapSet_eq_self k v m h]

theorem mapHas_mapSet (m : UrlMap) (k v k1 : Str) (h : mapHas m k1 = true) :
    mapHas (mapSet m k v) k1 = true := by
  unfold mapHas at h ⊢
  rw [lookup_mapSet]
  split
  · rfl
  · exact h

theorem mem_setAdd (l : List Str) (x y : Str) : y ∈ setAdd l x ↔ y ∈ l ∨ y = x := by
  unfold setAdd
  split
  · next h =>
    constructor
    · exact Or.inl
    · rintro (h1 | h1)
      · exact h1
      · exact h1 ▸ h
  · simp

theorem resolved_of_step (h : Host) (env : PassEnv) (s t : PassState) (u k : Str)
    (hmap : t.st.urlToLocalPathMap = s.st.urlToLocalPathMap
      ∨ t.st.urlToLocalPathMap = mapSet s.st.urlToLocalPathMap k (publicImageUrl h env k))
    (hproc : ∀ x ∈ s.st.processedUrlsInDev, x ∈ t.st.processedUrlsInDev)
    (hdisk : ∀ x ∈ s.disk, x ∈ t.disk) (hu : Resolved h env s u) : Resolved h env t u := by
  rcases hu with ⟨h1, h2, h3⟩ | ⟨h1, h2⟩
  · refine Or.inl ⟨h1, hproc u h2, ?_⟩
    rcases hmap with e | e
    · rw [e]; exact h3
    · rw [e]; exact mapHas_mapSet _ _ _ _ h3
  · refine Or.inr ⟨?_, hdisk _ h2⟩
    rcases hmap with e | e
    · rw [e]; exact h1
    · rw [e, lookup_mapSet]
      split
      · next hk => rw [hk]
      · exact h1

theorem scheduleUrl_cases (h : Host) (env : PassEnv) (s : PassState) (u : Str) :
    (scheduleUrl h env s u).disk = s.disk
      ∧ (∀ x ∈ s.st.processedUrlsInDev, x ∈ (scheduleUrl h env s u).st.processedUrlsInDev)
      ∧ ((scheduleUrl h env s u).st.urlToLocalPathMap = s.st.urlToLocalPathMap
          ∨ (scheduleUrl h env s u).st.urlToLocalPathMap
              = mapSet s.st.urlToLocalPathMap u (publicImageUrl h env u))
      ∧ (∀ x ∈ s.downloadPromises, x ∈ (scheduleUrl h env s u).downloadPromises) := by
  unfold scheduleUrl
  split
  · exact ⟨rfl, fun _ hx => hx, Or.inl rfl, fun _ hx => hx⟩
  · split
    · refine ⟨rfl, ?_, Or.inr rfl, fun _ hx => hx⟩
      intro x hx
      simp only
      split
      · exact (mem_setAdd _ _ _).2 (Or.inl hx)
      · exact hx
    · exact ⟨rfl, fun _ hx => hx, Or.inl rfl, fun x hx => List.mem_append_left _ hx⟩

theorem resolved_scheduleUrl (h : Host) (env : PassEnv) (s : PassState) (u k : Str)
    (hu : Resolved h env s u) : Resolved h env (scheduleUrl h env s k) u := by
  obtain ⟨h1, h2, h3, _⟩ := scheduleUrl_cases h env s k
  exact resolved_of_step h env s _ u k h3 h2 (fun x hx => h1 ▸ hx) hu

theorem scheduleUrl_self (h : Host) (env : PassEnv) (s : PassState) (u : Str) :
    Resolved h env (scheduleUrl h env s u) u ∨ u ∈ (scheduleUrl h env s u).downloadPromises := by
  unfold scheduleUrl
  split
  · next hc =>
    simp only [Bool.and_eq_true] at hc
    exact Or.inl (Or.inl ⟨hc.1.1, by simpa using hc.1.2, hc.2⟩)
  · split
    · next hd =>
      refine Or.inl (Or.inr ⟨?_, ?_⟩)
      · simp [lookup_mapSet]
      · simpa using hd
    · exact Or.inr (by simp)

theorem schedule_fold_mono (h : Host) (env : PassEnv) (u : Str) :
    ∀ (urls : List Str) (s : PassState),
      (Resolved h env s u ∨ u ∈ s.downloadPromises) →
      (Resolved h env (urls.foldl (scheduleUrl h env) s) u
        ∨ u ∈ (urls.foldl (scheduleUrl h env) s).downloadPromises)
  | [], _, hs => hs
  | k :: urls, s, hs => by
    refine schedule_fold_mono h env u urls _ ?_
    rcases hs with hs | hs
    · exact Or.inl (resolved_scheduleUrl h env s u k hs)
    · exact Or.inr ((scheduleUrl_cases h env s k).2.2.2 u hs)

theorem schedule_fold_covers (h : Host) (env : PassEnv) (u : Str) :
    ∀ (urls : List Str) (s : PassState), u ∈ urls →
      (Resolved h env (urls.foldl (scheduleUrl h env) s) u
        ∨ u ∈ (urls.foldl (scheduleUrl h env) s).downloadPromises)
  | [], _, hu => by simp at hu
  | k :: urls, s, hu => by
    rcases List.mem_cons.mp hu with e | e
    · subst e
      exact schedule_fold_mono h env u urls _ (scheduleUrl_self h env s u)
    · exact schedule_fold_covers h env u urls _ e

theorem schedule_fold_promises (h : Host) (env : PassEnv) (u : Str) :
    ∀ (urls : List Str) (s : PassState),
      u ∈ (urls.foldl (scheduleUrl h env) s).downloadPromises → u ∈ s.downloadPromises ∨ u ∈ urls
  | [], _, hu => Or.inl hu
  | k :: urls, s, hu => by
    rcases schedule_fold_promises h env u urls _ hu with h1 | h1
    · unfold scheduleUrl at h1
      split at h1
      · exact Or.inl h1
      · split at h1
        · exact Or.inl h1
        · rcases List.mem_append.mp h1 with h2 | h2
          · exact Or.inl h2
          · exact Or.inr (by simp at h2; simp [h2])
    · exact Or.inr (List.mem_cons_of_mem _ h1)

theorem targetPath_eq (h : Host) (env : PassEnv) (u : Str)
    (hjoin : localFileName h env u <:+ localFileAbsPath h env u) :
    targetPath h env.convertToWebP (localFileAbsPath h env u) (originalFileExt h u)
      = localFileAbsPath h env u := by
  unfold targetPath
  split
  · rfl
  · next hw =>
    have hs : originalFileExt h u <:+ localFileAbsPath h env u := by
      refine List.IsSuffix.trans ?_ hjoin
      unfold localFileName
      rw [if_neg hw]
      exact List.suffix_append _ _
    have he : endsWith (localFileAbsPath h env u) (originalFileExt h u) = true := by
      unfold endsWith
      exact List.isSuffixOf_iff_suffix.mpr hs
    rw [if_pos he]

theorem settleUrl_cases (h : Host) (env : PassEnv) (ok : Str → Bool) (s : PassState) (u : Str) :
    (∀ x ∈ s.disk, x ∈ (settleUrl h env ok s u).disk)
      ∧ (∀ x ∈ s.st.processedUrlsInDev, x ∈ (settleUrl h env ok s u).st.processedUrlsInDev)
      ∧ ((settleUrl h env ok s u).st.urlToLocalPathMap = s.st.urlToLocalPathMap
          ∨ (settleUrl h env ok s u).st.urlToLocalPathMap
              = mapSet s.st.urlToLocalPathMap u (publicImageUrl h env u)) := by
  unfold settleUrl downloadAndProcessImage
  cases ok u with
  | false => exact ⟨fun _ hx => hx, fun _ hx => hx, Or.inl rfl⟩
  | true =>
    refine ⟨fun x hx => List.mem_cons_of_mem _ hx, ?_, Or.inr rfl⟩
    intro x hx
    simp only [if_true]
    split
    · exact (mem_setAdd _ _ _).2 (Or.inl hx)
    · exact hx

theorem resolved_settleUrl (h : Host) (env : PassEnv) (ok : Str → Bool) (s : PassState)
    (u k : Str) (hu : Resolved h env s u) : Resolved h env (settleUrl h env ok s k) u := by
  obtain ⟨h1, h2, h3⟩ := settleUrl_cases h env ok s k
  exact resolved_of_step h env s _ u k h3 h2 h1 hu

theorem settleUrl_self (h : Host) (env : PassEnv) (ok : Str → Bool) (s : PassState) (u : Str)
    (hok : ok u = true) (hjoin : localFileName h env u <:+ localFileAbsPath h env u) :
    Resolved h env (settleUrl h env ok s u) u := by
  unfold settleUrl downloadAndProcessImage
  rw [hok, targetPath_eq h env u hjoin]
  refine Or.inr ⟨?_, ?_⟩
  · simp [lookup_mapSet]
  · simp

theorem settle_fold_mono (h : Host) (env : PassEnv) (ok : Str → Bool) (u : Str) :
    ∀ (settled : List Str) (s : PassState), Resolved h env s u →
      Resolved h env (settled.foldl (settleUrl h env ok) s) u
  | [], _, hs => hs
  | k :: settled, s, hs =>
    settle_fold_mono h env ok u settled _ (resolved_settleUrl h env ok s u k hs)

theorem settle_fold_covers (h : Host) (env : PassEnv) (ok : Str → Bool) (u : Str) :
    ∀ (settled : List Str) (s : PassState), u ∈ settled →
      (∀ x ∈ settled, ok x = true ∧ localFileName h env x <:+ localFileAbsPath h env x) →
      Resolved h env (settled.foldl (settleUrl h env ok) s) u
  | [], _, hu, _ => by simp at hu
  | k :: settled, s, hu, hall => by
    rcases List.mem_cons.mp hu with e | e
    · subst e
      have hk := hall u (List.mem_cons_self _ _)
      exact settle_fold_mono h env ok u settled _ (settleUrl_self h env ok s u hk.1 hk.2)
    · exact settle_fold_covers h env ok u settled _ e
        (fun x hx => hall x (List.mem_cons_of_mem _ hx))

theorem schedule_all_resolved (h : Host) (env : PassEnv) (M : UrlMap) (D : List Str) :
    ∀ (urls : List Str) (s : PassState),
      s.st.urlToLocalPathMap = M → s.disk = D → s.downloadPromises = [] →
      (∀ u ∈ urls, Resolved h env s u) →
      (urls.foldl (scheduleUrl h env) s).st.urlToLocalPathMap = M
        ∧ (urls.foldl (scheduleUrl h env) s).disk = D
        ∧ (urls.foldl (scheduleUrl h env) s).downloadPromises = []
        ∧ (urls.foldl (scheduleUrl h env) s).existingImagesSkipped
            = s.existingImagesSkipped + urls.length
  | [], s, hM, hD, hP, _ => ⟨hM, hD, hP, rfl⟩
  | k :: urls, s, hM, hD, hP, hall => by
    have hk := hall k (List.mem_cons_self _ _)
    have hrest : ∀ u ∈ urls, Resolved h env (scheduleUrl h env s k) u := fun u hu =>
      resolved_scheduleUrl h env s u k (hall u (List.mem_cons_of_mem _ hu))
    have key : (scheduleUrl h env s k).st.urlToLocalPathMap = M
        ∧ (scheduleUrl h env s k).disk = D
        ∧ (scheduleUrl h env s k).downloadPromises = []
        ∧ (scheduleUrl h env s k).existingImagesSkipped = s.existingImagesSkipped + 1 := by
      unfold scheduleUrl
      split
      · exact ⟨hM, hD, hP, rfl⟩
      · next hc =>
        rcases hk with ⟨h1, h2, h3⟩ | ⟨h1, h2⟩
        · exact absurd (by simp [h1, h2, h3]) hc
        · have hd : s.disk.contains (localFileAbsPath h env k) = true := by simpa using h2
          rw [if_pos hd]
          exact ⟨by simp only; rw [mapSet_eq_self _ _ _ h1]; exact hM, hD, hP, rfl⟩
    obtain ⟨k1, k2, k3, k4⟩ := key
    obtain ⟨r1, r2, r3, r4⟩ := schedule_all_resolved h env M D urls _ k1 k2 k3 hrest
    refine ⟨r1, r2, r3, ?_⟩
    rw [List.foldl_cons, r4, k4, List.length_cons]
    omega

/-! ## Literals, escaping, and a replacement without a match -/

theorem run_seq {α : Type} (canon : Char → Char) (a b : Re) (inp : Str) (c : Caps)
    (k : Str → Caps → Option α) :
    (Re.seq a b).run canon inp c k = a.run canon inp c (fun rest c1 => b.run canon rest c1 k) :=
  rfl

theorem litMatch_some (canon : Char → Char) :
    ∀ (s inp rest : Str), litMatch canon s inp = some rest →
      ∃ w, inp = w ++ rest ∧ w.map canon = s.map canon
  | [], inp, rest, h => by
    simp only [litMatch, Option.some.injEq] at h
    exact ⟨[], by simp [h], rfl⟩
  | _ :: _, [], rest, h => by simp [litMatch] at h
  | a :: s, ch :: inp, rest, h => by
    simp only [litMatch] at h
    split at h
    · next hc =>
      obtain ⟨w, h1, h2⟩ := litMatch_some canon s inp rest h
      exact ⟨ch :: w, by simp [h1], by simp [h2, hc]⟩
    · cases h

theorem getSubstitution_escape (ch : Char) (before after : Str) :
    getSubstitution [ch] before after [] 0 .plain [Char.ofNat 92, '$', '&']
      = [Char.ofNat 92, ch] := by
  have h1 : (Char.ofNat 92 = '$') = False := by decide
  have h2 : ('&' = '$') = False := by decide
  simp [getSubstitution, h1, h2]

theorem matchAt_cls (canon : Char → Char) (neg : Bool) (cs : List Char) (ch : Char) (t : Str) :
    (Re.cls neg cs).matchAt canon (ch :: t)
      = if classMatch canon neg cs ch then some (t, []) else none := by
  simp [Re.matchAt, Re.run]

theorem patternChars_escape_go :
    ∀ (t before : Str),
      patternChars false
        (replaceGo id (.cls false regexSpecialChars) 0 [Char.ofNat 92, '$', '&'] before t 0) = t
  | [], _ => by simp [replaceGo, patternChars]
  | ch :: t, before => by
    have ih := patternChars_escape_go t (ch :: before)
    rw [replaceGo, matchAt_cls]
    by_cases hc : classMatch id false regexSpecialChars ch = true
    · rw [if_pos hc]
      simp only [le_refl, if_true, List.length_cons, Nat.add_sub_cancel_left, Nat.sub_self]
      have ht : List.take 1 (ch :: t) = [ch] := rfl
      rw [ht, getSubstitution_escape]
      show patternChars false (Char.ofNat 92 :: ch :: replaceGo id (.cls false regexSpecialChars) 0
        [Char.ofNat 92, '$', '&'] (ch :: before) t 0) = ch :: t
      simp only [patternChars, if_true, ih]
    · rw [if_neg hc]
      have hne : ch ≠ Char.ofNat 92 := by
        intro e
        apply hc
        rw [e]
        decide
      simp only [patternChars, hne, if_false, ih]

theorem patternChars_escapeRegExp (u : Str) : patternChars false (escapeRegExp u) = u :=
  patternChars_escape_go u []

theorem replaceGo_of_no_match (canon : Char → Char) (r : Re) (m : Nat) (tmpl : Str) :
    ∀ (text before : Str), (∀ t, t <:+ text → r.matchAt canon t = none) →
      replaceGo canon r m tmpl before text 0 = text
  | [], _, _ => rfl
  | ch :: t, before, h => by
    rw [replaceGo, h (ch :: t) (List.suffix_refl _)]
    simp only
    rw [replaceGo_of_no_match canon r m tmpl t (ch :: before)
      (fun t1 ht1 => h t1 (ht1.trans (List.suffix_cons _ _)))]

theorem updateFrontmatter_of_no_subst (m : UrlMap) (fm : Header) :
    ∀ (keys : List Str) (b : Bool),
      (∀ p ∈ fm, p.1 ∈ keys → specValueSubst m p.2 = false) →
      keys.foldl (updateFmKey m) (fm, b) = (fm, b)
  | [], _, _ => rfl
  | key :: keys, b, h => by
    have hmod : modifyProp fm key (specValue m) = fm := by
      unfold modifyProp
      conv_rhs => rw [← List.map_id fm]
      apply List.map_congr_left
      intro p hp
      by_cases hk : p.1 = key
      · rw [if_pos hk, specValue_of_not_subst m p.2 (h p hp (by simp [hk]))]
        rfl
      · rw [if_neg hk]; rfl
    have hflag : (match fm.lookup key with
        | some v => specValueSubst m v
        | none => false) = false := by
      cases hv : fm.lookup key with
      | none => rfl
      | some v =>
        have hmem : (key, v) ∈ fm := by
          clear hmod h
          induction fm with
          | nil => simp at hv
          | cons q fm ih =>
            obtain ⟨k1, v1⟩ := q
            by_cases hk : key = k1
            · subst hk
              rw [lookup_cons_self] at hv
              cases hv
              exact List.mem_cons_self _ _
            · rw [lookup_cons_ne _ _ _ _ hk] at hv
              exact List.mem_cons_of_mem _ (ih hv)
        exact h (key, v) hmem (List.mem_cons_self _ _)
    rw [List.foldl_cons, updateFmKey_eq, hmod, hflag, Bool.or_false]
    exact updateFrontmatter_of_no_subst m fm keys b
      (fun p hp hk => h p hp (List.mem_cons_of_mem _ hk))

/-! ## The rewrite stage -/

set_option maxRecDepth 100000 in
/-- C1: the body rewrite changes a body that contains no mapping key.  With
the key `https://x/y.png` mapped to `/img/a.webp`, the body
`<img src="HTTPS://X/Y.PNG">` does not contain the key as a substring, yet
the `i` flag of `htmlImgRegex` lets the upper-case URL match and the body
becomes `<img src="/img/a.webp">` with `bodyChanged` set. -/
theorem body_rewrite_matches_url_ignoring_case :
    ¬ "https://x/y.png".toList <:+: "<img src=\"HTTPS://X/Y.PNG\">".toList
      ∧ updateBody asciiUpper "<img src=\"HTTPS://X/Y.PNG\">".toList
          [("https://x/y.png".toList, "/img/a.webp".toList)]
        = ("<img src=\"/img/a.webp\">".toList, true) := by
  decide

set_option maxRecDepth 100000 in
/-- C2, as stated, fails: in the body
`![a](https://x/fail.png) <img src='https://x/ok.png'>` discovery finds only
`https://x/fail.png`, which is not a key of the mapping, but the rewrite
also accepts single quotes and replaces the mapped `https://x/ok.png`, so
the body changes and `fileModifiedInThisPass` is true. -/
theorem rewrite_changes_file_with_no_discovered_key :
    (∀ u ∈ extractImageUrls "![a](https://x/fail.png) <img src='https://x/ok.png'>".toList
          ++ extractUrlsFromFrontmatter (some []) ["cover".toList],
        mapHas [("https://x/ok.png".toList, "/img/ok.webp".toList)] u = false)
      ∧ (rewriteFile asciiUpper [] "![a](https://x/fail.png) <img src='https://x/ok.png'>".toList
          ["cover".toList] [("https://x/ok.png".toList, "/img/ok.webp".toList)]).newBodyContent
        = "![a](https://x/fail.png) <img src='/img/ok.webp'>".toList
      ∧ (rewriteFile asciiUpper [] "![a](https://x/fail.png) <img src='https://x/ok.png'>".toList
          ["cover".toList] [("https://x/ok.png".toList, "/img/ok.webp".toList)]).fileModifiedInThisPass
        = true := by
  decide

/-! ## A file without a reference to a mapped URL is not rewritten -/

theorem isPrefixOf_append_self : ∀ (x y : Str), x.isPrefixOf (x ++ y) = true
  | [], _ => by simp [List.isPrefixOf]
  | a :: x, y => by
    rw [List.cons_append, List.isPrefixOf, isPrefixOf_append_self x y]
    simp

theorem altThenTarget_of_form (u rest : Str) :
    ∀ (alt : Str), ']' ∉ alt →
      altThenTarget u (alt ++ "](".toList ++ u ++ ")".toList ++ rest) = true
  | [], _ => by
    have e : ([] : Str) ++ "](".toList ++ u ++ ")".toList ++ rest
        = ']' :: ('(' :: (u ++ ")".toList ++ rest)) := by simp
    rw [e, altThenTarget, if_pos rfl]
    have e2 : ']' :: ('(' :: (u ++ ")".toList ++ rest))
        = ("](".toList ++ u ++ ")".toList) ++ rest := by simp
    rw [e2]
    exact isPrefixOf_append_self _ _
  | c :: alt, h => by
    have hc : c ≠ ']' := fun e => h (e ▸ List.mem_cons_self _ _)
    have e : (c :: alt) ++ "](".toList ++ u ++ ")".toList ++ rest
        = c :: (alt ++ "](".toList ++ u ++ ")".toList ++ rest) := by simp
    rw [e, altThenTarget, if_neg hc]
    exact altThenTarget_of_form u rest alt (fun hm => h (List.mem_cons_of_mem _ hm))

theorem markdownRefAtB_of_form (u t : Str) (h : MarkdownRefAt u t) : markdownRefAtB u t = true := by
  obtain ⟨alt, rest, halt, rfl⟩ := h
  unfold markdownRefAtB
  have e : "![".toList ++ alt ++ "](".toList ++ u ++ ")".toList ++ rest
      = "![".toList ++ (alt ++ "](".toList ++ u ++ ")".toList ++ rest) := by simp
  rw [e, isPrefixOf_append_self, Bool.true_and]
  have e2 : ("![".toList ++ (alt ++ "](".toList ++ u ++ ")".toList ++ rest)).drop 2
      = alt ++ "](".toList ++ u ++ ")".toList ++ rest := rfl
  rw [e2]
  exact altThenTarget_of_form u rest alt halt

theorem quotedTarget_of_form (canon : Char → Char) (u : Str) (q : Char) (rest : Str)
    (hq : IsQuote canon q) :
    quotedTarget canon u ([q] ++ u.map canon ++ [q] ++ rest) = some rest := by
  have e : [q] ++ u.map canon ++ [q] ++ rest = q :: ((u.map canon ++ [q]) ++ rest) := by simp
  have hq2 : q = canon '"' ∨ q = canon aposChar := hq
  rw [e, quotedTarget, if_pos hq2, isPrefixOf_append_self, if_pos rfl]
  congr 1
  have : u.length + 1 = (u.map canon ++ [q]).length := by simp
  rw [this, List.drop_left]

theorem imgAttrFrom_of_form (canon : Char → Char) (u : Str) (q : Char) (rest : Str)
    (hq : IsQuote canon q) (hr : canon '>' ∈ rest) :
    ∀ (a : Str), canon '>' ∉ a →
      imgAttrFrom canon u (a ++ "src=".toList.map canon ++ [q] ++ u.map canon ++ [q] ++ rest) = true
  | [], _ => by
    have e : ([] : Str) ++ "src=".toList.map canon ++ [q] ++ u.map canon ++ [q] ++ rest
        = canon 's' :: (canon 'r' :: canon 'c' :: canon '=' :: ([q] ++ u.map canon ++ [q] ++ rest)) := by
      simp
    rw [e, imgAttrFrom]
    have e2 : (canon 's' :: (canon 'r' :: canon 'c' :: canon '=' ::
        ([q] ++ u.map canon ++ [q] ++ rest))).drop 4 = [q] ++ u.map canon ++ [q] ++ rest := rfl
    have e3 : ("src=".toList.map canon).isPrefixOf (canon 's' :: (canon 'r' :: canon 'c' ::
        canon '=' :: ([q] ++ u.map canon ++ [q] ++ rest))) = true := by
      have := isPrefixOf_append_self ("src=".toList.map canon) ([q] ++ u.map canon ++ [q] ++ rest)
      simp at this ⊢
    rw [e2, e3, quotedTarget_of_form canon u q rest hq]
    simp [hr]
  | c :: a, h => by
    have hc : c ≠ canon '>' := fun e => h (e ▸ List.mem_cons_self _ _)
    have e : (c :: a) ++ "src=".toList.map canon ++ [q] ++ u.map canon ++ [q] ++ rest
        = c :: (a ++ "src=".toList.map canon ++ [q] ++ u.map canon ++ [q] ++ rest) := by simp
    rw [e, imgAttrFrom,
      imgAttrFrom_of_form canon u q rest hq hr a (fun hm => h (List.mem_cons_of_mem _ hm))]
    simp [hc]

theorem imgTagRefAtB_of_form (canon : Char → Char) (u t : Str) (h : ImgTagRefAt canon u t) :
    imgTagRefAtB canon u t = true := by
  obtain ⟨a, q, rest, ha, hq, hr, e⟩ := h
  unfold imgTagRefAtB
  have e1 : t.map canon = "<img".toList.map canon
      ++ (a ++ "src=".toList.map canon ++ [q] ++ u.map canon ++ [q] ++ rest) := by
    rw [e]; simp
  rw [e1, isPrefixOf_append_self, Bool.true_and]
  have e2 : ("<img".toList.map canon
      ++ (a ++ "src=".toList.map canon ++ [q] ++ u.map canon ++ [q] ++ rest)).drop 4
      = a ++ "src=".toList.map canon ++ [q] ++ u.map canon ++ [q] ++ rest := rfl
  rw [e2]
  exact imgAttrFrom_of_form canon u q rest hq hr a ha

theorem boundSrcRefAtB_of_form (canon : Char → Char) (u t : Str) (h : BoundSrcRefAt canon u t) :
    boundSrcRefAtB canon u t = true := by
  obtain ⟨name, q, rest, hn, hq, e⟩ := h
  unfold boundSrcRefAtB
  have e1 : t.map canon = name.map canon ++ ([q] ++ u.map canon ++ [q] ++ rest) := by
    rw [e]; simp
  have key : ((name.map canon).isPrefixOf (t.map canon)
      && (quotedTarget canon u ((t.map canon).drop name.length)).isSome) = true := by
    rw [e1, isPrefixOf_append_self, Bool.true_and]
    have : name.length = (name.map canon).length := by simp
    rw [this, List.drop_left, quotedTarget_of_form canon u q rest hq]
    rfl
  rcases hn with rfl | rfl
  · simp only [List.any_cons, key, Bool.true_or]
  · simp only [List.any_cons, key, Bool.true_or, Bool.or_true]

theorem refersToB_of_refersTo (canon : Char → Char) (body u : Str) (h : RefersTo canon body u) :
    refersToB canon body u = true := by
  obtain ⟨t, ht, hf⟩ := h
  unfold refersToB
  rw [List.any_eq_true]
  refine ⟨t, (List.mem_tails _ _).mpr ht, ?_⟩
  rcases hf with hf | hf | hf
  · simp [markdownRefAtB_of_form u t hf]
  · simp [imgTagRefAtB_of_form canon u t hf]
  · simp [boundSrcRefAtB_of_form canon u t hf]

/-! ### What a match of a rewrite pattern has read -/

theorem run_lit_inv {α : Type} (canon : Char → Char) (s inp : Str) (c : Caps)
    (k : Str → Caps → Option α) (x : α) (h : (Re.lit s).run canon inp c k = some x) :
    ∃ w rest, inp = w ++ rest ∧ w.map canon = s.map canon ∧ k rest c = some x := by
  rw [Re.run] at h
  cases hl : litMatch canon s inp with
  | none => rw [hl] at h; cases h
  | some rest =>
    rw [hl] at h
    obtain ⟨w, e, hw⟩ := litMatch_some canon s inp rest hl
    exact ⟨w, rest, e, hw, h⟩

theorem starGo_inv {α : Type} (p : Char → Bool) (k : Str → Option α) (x : α) :
    ∀ (inp : Str), starGo p inp k = some x →
      ∃ a rest, inp = a ++ rest ∧ (∀ ch ∈ a, p ch = true) ∧ k rest = some x
  | [], h => ⟨[], [], rfl, by simp, h⟩
  | ch :: t, h => by
    rw [starGo] at h
    by_cases hp : p ch = true
    · rw [if_pos hp] at h
      cases hs : starGo p t k with
      | some r =>
        rw [hs] at h
        simp only [Option.some.injEq] at h
        subst h
        obtain ⟨a, rest, e, ha, hk⟩ := starGo_inv p k r t hs
        refine ⟨ch :: a, rest, by rw [e]; rfl, ?_, hk⟩
        intro c hc
        rcases List.mem_cons.mp hc with rfl | hc
        · exact hp
        · exact ha c hc
      | none =>
        rw [hs] at h
        exact ⟨[], ch :: t, rfl, by simp, h⟩
    · rw [if_neg hp] at h
      exact ⟨[], ch :: t, rfl, by simp, h⟩

theorem run_star_inv {α : Type} (canon : Char → Char) (neg : Bool) (cs : List Char) (inp : Str)
    (c : Caps) (k : Str → Caps → Option α) (x : α)
    (h : (Re.star neg cs).run canon inp c k = some x) :
    ∃ a rest, inp = a ++ rest ∧ (∀ ch ∈ a, classMatch canon neg cs ch = true)
      ∧ k rest c = some x := by
  rw [Re.run] at h
  exact starGo_inv _ _ x inp h

theorem run_cls_inv {α : Type} (canon : Char → Char) (neg : Bool) (cs : List Char) (inp : Str)
    (c : Caps) (k : Str → Caps → Option α) (x : α)
    (h : (Re.cls neg cs).run canon inp c k = some x) :
    ∃ ch rest, inp = ch :: rest ∧ classMatch canon neg cs ch = true ∧ k rest c = some x := by
  cases inp with
  | nil => rw [Re.run] at h; cases h
  | cons ch t =>
    rw [Re.run] at h
    by_cases hp : classMatch canon neg cs ch = true
    · rw [if_pos hp] at h
      exact ⟨ch, t, rfl, hp, h⟩
    · rw [if_neg hp] at h
      cases h

theorem run_backref_inv {α : Type} (canon : Char → Char) (i : Nat) (inp : Str) (c : Caps)
    (k : Str → Caps → Option α) (x : α) (h : (Re.backref i).run canon inp c k = some x) :
    ∃ w rest, inp = w ++ rest ∧ w.map canon = (capture c i).map canon ∧ k rest c = some x := by
  rw [Re.run] at h
  cases hl : litMatch canon (capture c i) inp with
  | none => rw [hl] at h; cases h
  | some rest =>
    rw [hl] at h
    obtain ⟨w, e, hw⟩ := litMatch_some canon _ inp rest hl
    exact ⟨w, rest, e, hw, h⟩

theorem run_alt_inv {α : Type} (canon : Char → Char) (a b : Re) (inp : Str) (c : Caps)
    (k : Str → Caps → Option α) (x : α) (h : (Re.alt a b).run canon inp c k = some x) :
    a.run canon inp c k = some x ∨ b.run canon inp c k = some x := by
  rw [Re.run] at h
  cases ha : a.run canon inp c k with
  | some r =>
    rw [ha] at h
    exact Or.inl h
  | none =>
    rw [ha] at h
    exact Or.inr h

theorem run_group_eq {α : Type} (canon : Char → Char) (i : Nat) (r : Re) (inp : Str) (c : Caps)
    (k : Str → Caps → Option α) :
    (Re.group i r).run canon inp c k
      = r.run canon inp c
          (fun rest c1 => k rest ((i, inp.take (inp.length - rest.length)) :: c1)) := by
  rw [Re.run]

theorem not_mem_of_negClass (canon : Char → Char) (d : Char) (a : Str)
    (h : ∀ ch ∈ a, classMatch canon true [d] ch = true) : canon d ∉ a.map canon := by
  intro hm
  obtain ⟨ch, hch, e⟩ := List.mem_map.mp hm
  have := h ch hch
  simp [classMatch, e] at this

theorem map_id_eq_self (x y : Str) (h : x.map id = y.map id) : x = y := by
  simpa using h

theorem markdownRefAt_of_match (u t : Str) (x : Str × Caps)
    (h : (markdownImgRegex (escapeRegExp u)).matchAt id t = some x) : MarkdownRefAt u t := by
  simp only [markdownImgRegex, Re.cat, patternChars_escapeRegExp, Re.matchAt] at h
  rw [run_seq] at h
  obtain ⟨w1, r1, e1, k1, h⟩ := run_lit_inv _ _ _ _ _ _ h
  rw [run_seq, run_group_eq] at h
  obtain ⟨alt, r2, e2, ha, h⟩ := run_star_inv _ _ _ _ _ _ _ h
  rw [run_seq] at h
  obtain ⟨w3, r3, e3, k3, h⟩ := run_lit_inv _ _ _ _ _ _ h
  rw [run_seq] at h
  obtain ⟨w4, r4, e4, k4, h⟩ := run_lit_inv _ _ _ _ _ _ h
  obtain ⟨w5, r5, e5, k5, h⟩ := run_lit_inv _ _ _ _ _ _ h
  refine ⟨alt, r5, ?_, ?_⟩
  · have := not_mem_of_negClass id ']' alt ha
    simpa using this
  · rw [e1, e2, e3, e4, e5, map_id_eq_self _ _ k1, map_id_eq_self _ _ k3,
      map_id_eq_self _ _ k4, map_id_eq_self _ _ k5]
    simp

theorem quote_of_class (canon : Char → Char) (q : Char)
    (h : classMatch canon false ['"', aposChar] q = true) : IsQuote canon (canon q) := by
  simp only [classMatch, List.any_cons, List.any_nil, Bool.or_false, bne_iff_ne, ne_eq,
    Bool.not_eq_false, Bool.or_eq_true, beq_iff_eq] at h
  rcases h with h | h
  · exact Or.inl h.symm
  · exact Or.inr h.symm

theorem take_head_capture (q : Char) (r : Str) :
    (q :: r).take ((q :: r).length - r.length) = [q] := by
  have : (q :: r).length - r.length = 1 := by simp
  rw [this]
  rfl

theorem single_of_map_eq (canon : Char → Char) (w : Str) (q : Char)
    (h : w.map canon = [q].map canon) : ∃ q1, w = [q1] ∧ canon q1 = canon q := by
  cases w with
  | nil => simp at h
  | cons q1 w1 =>
    cases w1 with
    | nil => exact ⟨q1, rfl, by simpa using h⟩
    | cons _ _ => simp at h

theorem imgTagRefAt_of_match (canon : Char → Char) (u t : Str) (x : Str × Caps)
    (h : (htmlImgRegex (escapeRegExp u)).matchAt canon t = some x) : ImgTagRefAt canon u t := by
  simp only [htmlImgRegex, Re.cat, patternChars_escapeRegExp, Re.matchAt] at h
  rw [run_seq, run_group_eq, run_seq] at h
  obtain ⟨w1, r1, e1, k1, h⟩ := run_lit_inv _ _ _ _ _ _ h
  rw [run_seq] at h
  obtain ⟨a, r2, e2, ha, h⟩ := run_star_inv _ _ _ _ _ _ _ h
  obtain ⟨w3, r3, e3, k3, h⟩ := run_lit_inv _ _ _ _ _ _ h
  rw [run_seq, run_group_eq] at h
  obtain ⟨q, r4, e4, hq, h⟩ := run_cls_inv _ _ _ _ _ _ _ h
  rw [run_seq] at h
  obtain ⟨w5, r5, e5, k5, h⟩ := run_lit_inv _ _ _ _ _ _ h
  rw [run_seq] at h
  obtain ⟨w6, r6, e6, k6, h⟩ := run_backref_inv _ _ _ _ _ _ h
  rw [run_group_eq, run_seq] at h
  obtain ⟨b, r7, e7, hb, h⟩ := run_star_inv _ _ _ _ _ _ _ h
  obtain ⟨w8, r8, e8, k8, h⟩ := run_lit_inv _ _ _ _ _ _ h
  have hcap : capture [(2, (r3).take (r3.length - r4.length)),
      (1, t.take (t.length - r3.length))] 2 = [q] := by
    rw [e4]
    simp [capture, List.lookup]
  rw [hcap] at k6
  obtain ⟨q1, rfl, hq1⟩ := single_of_map_eq canon w6 q k6
  refine ⟨a.map canon, canon q, b.map canon ++ w8.map canon ++ r8.map canon,
    not_mem_of_negClass canon '>' a ha, quote_of_class canon q hq, ?_, ?_⟩
  · rw [k8]
    simp
  · rw [e1, e2, e3, e4, e5, e6, e7, e8]
    simp only [List.map_append, List.map_cons, List.map_nil, k1, k3, k5, hq1]
    simp

theorem boundSrcRefAt_of_match (canon : Char → Char) (u t : Str) (x : Str × Caps)
    (h : (vueBindingImgRegex (escapeRegExp u)).matchAt canon t = some x) :
    BoundSrcRefAt canon u t := by
  simp only [vueBindingImgRegex, Re.cat, patternChars_escapeRegExp, Re.matchAt] at h
  rw [run_seq, run_group_eq, run_seq] at h
  have tail : ∀ (name : Str) (w1 r1 : Str), t = w1 ++ r1 → w1.map canon = name.map canon →
      (Re.lit "=".toList).run canon r1 []
        (fun rest c1 =>
          (fun rest c1 => (Re.seq (.group 2 (.cls false ['"', aposChar]))
              (.seq (.lit u) (.backref 2))).run canon rest c1 (fun rest c => some (rest, c)))
            rest ((1, t.take (t.length - rest.length)) :: c1)) = some x →
      ∃ q rest, IsQuote canon q
        ∧ t.map canon = (name ++ "=".toList).map canon ++ [q] ++ u.map canon ++ [q] ++ rest := by
    intro name w1 r1 e1 k1 h
    obtain ⟨w2, r2, e2, k2, h⟩ := run_lit_inv _ _ _ _ _ _ h
    simp only at h
    rw [run_seq, run_group_eq] at h
    obtain ⟨q, r4, e4, hq, h⟩ := run_cls_inv _ _ _ _ _ _ _ h
    rw [run_seq] at h
    obtain ⟨w5, r5, e5, k5, h⟩ := run_lit_inv _ _ _ _ _ _ h
    obtain ⟨w6, r6, e6, k6, h⟩ := run_backref_inv _ _ _ _ _ _ h
    have hcap : capture [(2, (r2).take (r2.length - r4.length)),
        (1, t.take (t.length - r2.length))] 2 = [q] := by
      rw [e4]
      simp [capture, List.lookup]
    rw [hcap] at k6
    obtain ⟨q1, rfl, hq1⟩ := single_of_map_eq canon w6 q k6
    refine ⟨canon q, r6.map canon, quote_of_class canon q hq, ?_⟩
    rw [e1, e2, e4, e5, e6]
    simp only [List.map_append, List.map_cons, List.map_nil, k1, k2, k5, hq1]
    simp
  rcases run_alt_inv _ _ _ _ _ _ _ h with h | h
  · obtain ⟨w1, r1, e1, k1, h⟩ := run_lit_inv _ _ _ _ _ _ h
    obtain ⟨q, rest, hq, e⟩ := tail ":src".toList w1 r1 e1 k1 h
    exact ⟨":src=".toList, q, rest, Or.inl rfl, hq, e⟩
  · obtain ⟨w1, r1, e1, k1, h⟩ := run_lit_inv _ _ _ _ _ _ h
    obtain ⟨q, rest, hq, e⟩ := tail "v-bind:src".toList w1 r1 e1 k1 h
    exact ⟨"v-bind:src=".toList, q, rest, Or.inr rfl, hq, e⟩

theorem rewriteEntry_of_no_ref (canon : Char → Char) (body u p : Str)
    (h : ¬ RefersTo canon body u) : rewriteEntry canon body u p = body := by
  have hmd : replaceAll id (markdownImgRegex (escapeRegExp u)) 1
      ("![$1](".toList ++ p ++ ")".toList) body = body := by
    refine replaceGo_of_no_match id _ 1 _ body [] (fun t ht => ?_)
    cases hm : (markdownImgRegex (escapeRegExp u)).matchAt id t with
    | none => rfl
    | some x => exact absurd ⟨t, ht, Or.inl (markdownRefAt_of_match u t x hm)⟩ h
  have hhtml : replaceAll canon (htmlImgRegex (escapeRegExp u)) 3
      ("$1$2".toList ++ p ++ "$2$3".toList) body = body := by
    refine replaceGo_of_no_match canon _ 3 _ body [] (fun t ht => ?_)
    cases hm : (htmlImgRegex (escapeRegExp u)).matchAt canon t with
    | none => rfl
    | some x => exact absurd ⟨t, ht, Or.inr (Or.inl (imgTagRefAt_of_match canon u t x hm))⟩ h
  have hvue : replaceAll canon (vueBindingImgRegex (escapeRegExp u)) 2
      ("$1$2".toList ++ p ++ "$2".toList) body = body := by
    refine replaceGo_of_no_match canon _ 2 _ body [] (fun t ht => ?_)
    cases hm : (vueBindingImgRegex (escapeRegExp u)).matchAt canon t with
    | none => rfl
    | some x => exact absurd ⟨t, ht, Or.inr (Or.inr (boundSrcRefAt_of_match canon u t x hm))⟩ h
  unfold rewriteEntry
  simp only
  rw [hmd, hhtml, hvue]

theorem updateBody_of_no_ref (canon : Char → Char) (body : Str) :
    ∀ (m : UrlMap) (b : Bool), (∀ e ∈ m, ¬ RefersTo canon body e.1) →
      m.foldl (rewriteStep canon) (body, b) = (body, b)
  | [], _, _ => rfl
  | e :: m, b, h => by
    rw [List.foldl_cons]
    have h1 : rewriteStep canon (body, b) e = (body, b) := by
      unfold rewriteStep
      simp only [rewriteEntry_of_no_ref canon body e.1 e.2 (h e (List.mem_cons_self _ _))]
      simp
    rw [h1]
    exact updateBody_of_no_ref canon body m b (fun e1 he1 => h e1 (List.mem_cons_of_mem _ he1))

/-- C2 (amended): if the body holds no reference to a key of the mapping in
one of the forms that the rewrite replaces -- `![alt](key)`; an `<img` tag
with `src=`, a quote, the key and the same quote; `:src=` or `v-bind:src=`
with a quote, the key and the same quote; the last two read ignoring case
and with either quote -- and no substitution is due in a value under a
recognised key of the header, then the rewrite leaves header and body as
they were and `fileModifiedInThisPass` is false. -/
theorem rewrite_unchanged_without_reference (canon : Char → Char) (frontmatter : Header)
    (bodyContent : Str) (keys : List Str) (urlToLocalPathMap : UrlMap)
    (hbody : ∀ e ∈ urlToLocalPathMap, ¬ RefersTo canon bodyContent e.1)
    (hfm : ∀ p ∈ frontmatter, p.1 ∈ keys → specValueSubst urlToLocalPathMap p.2 = false) :
    (rewriteFile canon frontmatter bodyContent keys urlToLocalPathMap).newFrontmatter = frontmatter
      ∧ (rewriteFile canon frontmatter bodyContent keys urlToLocalPathMap).newBodyContent
          = bodyContent
      ∧ (rewriteFile canon frontmatter bodyContent keys urlToLocalPathMap).fileModifiedInThisPass
          = false := by
  unfold rewriteFile updateFrontmatter updateBody
  rw [updateFrontmatter_of_no_subst urlToLocalPathMap frontmatter keys false hfm,
    updateBody_of_no_ref canon bodyContent urlToLocalPathMap false hbody]
  exact ⟨rfl, rfl, rfl⟩

set_option maxRecDepth 100000 in
/-- The amended C2 at a document that names the mapped URL in its prose and
refers to another URL, which failed to fetch, in its header and in an
image. -/
theorem rewrite_unchanged_without_reference_witness :
    (rewriteFile asciiUpper [("cover".toList, JVal.str "https://x/fail.png".toList)]
        "see https://x/ok.png and ![b](https://x/ok.png?v=2)".toList ["cover".toList]
        [("https://x/ok.png".toList, "/img/ok.webp".toList)]).newFrontmatter
        = [("cover".toList, JVal.str "https://x/fail.png".toList)]
      ∧ (rewriteFile asciiUpper [("cover".toList, JVal.str "https://x/fail.png".toList)]
        "see https://x/ok.png and ![b](https://x/ok.png?v=2)".toList ["cover".toList]
        [("https://x/ok.png".toList, "/img/ok.webp".toList)]).newBodyContent
        = "see https://x/ok.png and ![b](https://x/ok.png?v=2)".toList
      ∧ (rewriteFile asciiUpper [("cover".toList, JVal.str "https://x/fail.png".toList)]
        "see https://x/ok.png and ![b](https://x/ok.png?v=2)".toList ["cover".toList]
        [("https://x/ok.png".toList, "/img/ok.webp".toList)]).fileModifiedInThisPass = false :=
  rewrite_unchanged_without_reference asciiUpper _ _ _ _
    (fun e he hr => absurd (refersToB_of_refersTo _ _ _ hr)
      ((by decide : ∀ e ∈ [("https://x/ok.png".toList, "/img/ok.webp".toList)],
          ¬ refersToB asciiUpper "see https://x/ok.png and ![b](https://x/ok.png?v=2)".toList e.1
            = true) e he))
    (by decide)

set_option maxRecDepth 100000 in
/-- C3: a discovered and mapped URL is still referenced after the rewrite.
In the body `![a](https://x/y.png?a=1&amp;b=2)` discovery returns the
decoded `https://x/y.png?a=1&b=2`; with that URL mapped to
`/img/h.webp` the rewrite looks for the decoded text, finds nothing, and
leaves the body as it was, so discovery on the rewritten body returns the
URL again. -/
theorem entity_encoded_reference_is_not_rewritten :
    "https://x/y.png?a=1&b=2".toList
        ∈ extractImageUrls "![a](https://x/y.png?a=1&amp;b=2)".toList
      ∧ (updateBody asciiUpper "![a](https://x/y.png?a=1&amp;b=2)".toList
          [("https://x/y.png?a=1&b=2".toList, "/img/h.webp".toList)])
        = ("![a](https://x/y.png?a=1&amp;b=2)".toList, false)
      ∧ "https://x/y.png?a=1&b=2".toList
        ∈ extractImageUrls (updateBody asciiUpper "![a](https://x/y.png?a=1&amp;b=2)".toList
            [("https://x/y.png?a=1&b=2".toList, "/img/h.webp".toList)]).1 := by
  decide

/-! ## Header rewriting against its reference function -/

theorem mem_of_lookup {β : Type} :
    ∀ (l : List (Str × β)) (k : Str) (v : β), l.lookup k = some v → (k, v) ∈ l
  | [], _, _, h => by simp [List.lookup] at h
  | (k1, v1) :: l, k, v, h => by
    by_cases hk : k = k1
    · subst hk
      rw [lookup_cons_self] at h
      simp only [Option.some.injEq] at h
      subst h
      exact List.mem_cons_self _ _
    · rw [lookup_cons_ne _ _ _ _ hk] at h
      exact List.mem_cons_of_mem _ (mem_of_lookup l k v h)

theorem noChain_of_url_keys (m : UrlMap) (hkeys : ∀ e ∈ m, isHttpUrl e.1 = true)
    (hpaths : ∀ e ∈ m, isHttpUrl e.2 = false) : NoChain m := by
  intro k v hkv
  cases hv : m.lookup v with
  | none => rfl
  | some w =>
    exfalso
    have h1 := hpaths _ (mem_of_lookup m k v hkv)
    have h2 := hkeys _ (mem_of_lookup m v w hv)
    simp only at h1 h2
    rw [h1] at h2
    cases h2

/-- C6: for every parsed header, every recognised-key list and every
mapping of http(s) URLs to paths that are not http(s) URLs (the plugin
stores `publicBaseImagePath` followed by a hash and an extension), header
rewriting equals the reference function: under each recognised key a
string value that is a mapping key becomes its mapped path, in a list
value a string entry that is a mapping key becomes its mapped path and an
object entry whose `url` is a mapping key becomes the same object with
only `url` replaced, all else is unchanged, and `frontmatterChanged` is
true exactly when such a substitution was made. -/
theorem header_rewrite_equals_reference (frontmatter : Header) (keys : List Str)
    (urlToLocalPathMap : UrlMap)
    (hkeys : ∀ e ∈ urlToLocalPathMap, isHttpUrl e.1 = true)
    (hpaths : ∀ e ∈ urlToLocalPathMap, isHttpUrl e.2 = false) :
    updateFrontmatter frontmatter keys urlToLocalPathMap
      = (specHeader frontmatter keys urlToLocalPathMap,
          specChanged frontmatter keys urlToLocalPathMap) := by
  unfold updateFrontmatter
  rw [updateFrontmatter_fold urlToLocalPathMap keys frontmatter false
    (Or.inr (noChain_of_url_keys urlToLocalPathMap hkeys hpaths)), Bool.false_or]

/-- C6 at the header `cover: "https://x/c.png"`, `images: [{url:
"https://x/a.jpg", alt: "A"}, "https://x/b.jpg"]` with `images` listed
twice among the keys and two of the three URLs mapped: only the mapped
`url` and the mapped `cover` are replaced, `alt` and the unmapped entry
are kept. -/
theorem header_rewrite_equals_reference_witness :
    (∀ e ∈ [("https://x/a.jpg".toList, "/fetched-images/h1.jpg".toList),
          ("https://x/c.png".toList, "/fetched-images/h2.webp".toList)],
        isHttpUrl e.1 = true)
      ∧ (∀ e ∈ [("https://x/a.jpg".toList, "/fetched-images/h1.jpg".toList),
          ("https://x/c.png".toList, "/fetched-images/h2.webp".toList)],
        isHttpUrl e.2 = false)
      ∧ updateFrontmatter
          [("cover".toList, JVal.str "https://x/c.png".toList),
            ("images".toList, JVal.arr [JVal.obj [("url".toList, JVal.str "https://x/a.jpg".toList),
              ("alt".toList, JVal.str "A".toList)], JVal.str "https://x/b.jpg".toList])]
          ["images".toList, "cover".toList, "images".toList]
          [("https://x/a.jpg".toList, "/fetched-images/h1.jpg".toList),
            ("https://x/c.png".toList, "/fetched-images/h2.webp".toList)]
        = (specHeader
            [("cover".toList, JVal.str "https://x/c.png".toList),
              ("images".toList, JVal.arr [JVal.obj [("url".toList, JVal.str "https://x/a.jpg".toList),
                ("alt".toList, JVal.str "A".toList)], JVal.str "https://x/b.jpg".toList])]
            ["images".toList, "cover".toList, "images".toList]
            [("https://x/a.jpg".toList, "/fetched-images/h1.jpg".toList),
              ("https://x/c.png".toList, "/fetched-images/h2.webp".toList)],
          specChanged
            [("cover".toList, JVal.str "https://x/c.png".toList),
              ("images".toList, JVal.arr [JVal.obj [("url".toList, JVal.str "https://x/a.jpg".toList),
                ("alt".toList, JVal.str "A".toList)], JVal.str "https://x/b.jpg".toList])]
            ["images".toList, "cover".toList, "images".toList]
            [("https://x/a.jpg".toList, "/fetched-images/h1.jpg".toList),
              ("https://x/c.png".toList, "/fetched-images/h2.webp".toList)])
      ∧ specHeader
          [("cover".toList, JVal.str "https://x/c.png".toList),
            ("images".toList, JVal.arr [JVal.obj [("url".toList, JVal.str "https://x/a.jpg".toList),
              ("alt".toList, JVal.str "A".toList)], JVal.str "https://x/b.jpg".toList])]
          ["images".toList, "cover".toList, "images".toList]
          [("https://x/a.jpg".toList, "/fetched-images/h1.jpg".toList),
            ("https://x/c.png".toList, "/fetched-images/h2.webp".toList)]
        = [("cover".toList, JVal.str "/fetched-images/h2.webp".toList),
            ("images".toList, JVal.arr [JVal.obj
              [("url".toList, JVal.str "/fetched-images/h1.jpg".toList),
                ("alt".toList, JVal.str "A".toList)], JVal.str "https://x/b.jpg".toList])] :=
  ⟨by decide, by decide,
    header_rewrite_equals_reference _ _ _ (by decide) (by decide), by rfl⟩

/-! ## The fetch pass: idempotence and the warning -/

/-- C7: after a fetch pass in which every launched download succeeds, a
second pass over the same URLs launches no download, counts every URL as
reused and leaves the mapping as the first pass built it, for every
option setting, every carried-over plugin state and every set of existing
files, provided `path.join` keeps the file name at the end of the joined
path (so that the path written is the path whose existence is checked). -/
theorem second_fetch_pass_reuses_everything (h : Host) (env : PassEnv) (ok : Str → Bool)
    (st : PluginState) (disk : List Str) (allRemoteUrls settled : List Str)
    (hjoin : ∀ u ∈ allRemoteUrls, localFileName h env u <:+ localFileAbsPath h env u)
    (hsettled : settled.Perm (schedule h env st disk allRemoteUrls).downloadPromises)
    (hok : ∀ u ∈ settled, ok u = true) :
    (schedule h env (fetchPass h env ok st disk allRemoteUrls settled).st
        (fetchPass h env ok st disk allRemoteUrls settled).disk allRemoteUrls).downloadPromises = []
      ∧ (schedule h env (fetchPass h env ok st disk allRemoteUrls settled).st
          (fetchPass h env ok st disk allRemoteUrls settled).disk
          allRemoteUrls).existingImagesSkipped = allRemoteUrls.length
      ∧ (schedule h env (fetchPass h env ok st disk allRemoteUrls settled).st
          (fetchPass h env ok st disk allRemoteUrls settled).disk
          allRemoteUrls).st.urlToLocalPathMap
        = (fetchPass h env ok st disk allRemoteUrls settled).st.urlToLocalPathMap := by
  have hsub : ∀ x ∈ settled, x ∈ allRemoteUrls := by
    intro x hx
    have h1 := (hsettled.mem_iff).1 hx
    rcases schedule_fold_promises h env x allRemoteUrls _ h1 with h2 | h2
    · simp at h2
    · exact h2
  have hres : ∀ u ∈ allRemoteUrls,
      Resolved h env (fetchPass h env ok st disk allRemoteUrls settled) u := by
    intro u hu
    unfold fetchPass
    rcases schedule_fold_covers h env u allRemoteUrls
      { st := st, disk := disk, successfulDownloads := 0, existingImagesSkipped := 0,
        downloadPromises := [] } hu with h1 | h1
    · exact settle_fold_mono h env ok u settled _ h1
    · exact settle_fold_covers h env ok u settled _ ((hsettled.mem_iff).2 h1)
        (fun x hx => ⟨hok x hx, hjoin x (hsub x hx)⟩)
  obtain ⟨r1, _, r3, r4⟩ := schedule_all_resolved h env
    (fetchPass h env ok st disk allRemoteUrls settled).st.urlToLocalPathMap
    (fetchPass h env ok st disk allRemoteUrls settled).disk allRemoteUrls
    { st := (fetchPass h env ok st disk allRemoteUrls settled).st,
      disk := (fetchPass h env ok st disk allRemoteUrls settled).disk,
      successfulDownloads := 0, existingImagesSkipped := 0, downloadPromises := [] }
    rfl rfl rfl (fun u hu => hres u hu)
  refine ⟨r3, ?_, r1⟩
  unfold schedule
  rw [r4]
  simp

set_option maxRecDepth 100000 in
/-- C7 at a pass over two URLs, one whose file exists and one that is
downloaded. -/
theorem second_fetch_pass_reuses_everything_witness :
    (schedule demoHost demoEnv
        (fetchPass demoHost demoEnv (fun _ => true) ⟨[], []⟩
          ["/site/public/fetched-images/httpsxapng.png".toList]
          ["https://x/a.png".toList, "https://x/b.png".toList] ["https://x/b.png".toList]).st
        (fetchPass demoHost demoEnv (fun _ => true) ⟨[], []⟩
          ["/site/public/fetched-images/httpsxapng.png".toList]
          ["https://x/a.png".toList, "https://x/b.png".toList] ["https://x/b.png".toList]).disk
        ["https://x/a.png".toList, "https://x/b.png".toList]).downloadPromises = []
      ∧ (schedule demoHost demoEnv
        (fetchPass demoHost demoEnv (fun _ => true) ⟨[], []⟩
          ["/site/public/fetched-images/httpsxapng.png".toList]
          ["https://x/a.png".toList, "https://x/b.png".toList] ["https://x/b.png".toList]).st
        (fetchPass demoHost demoEnv (fun _ => true) ⟨[], []⟩
          ["/site/public/fetched-images/httpsxapng.png".toList]
          ["https://x/a.png".toList, "https://x/b.png".toList] ["https://x/b.png".toList]).disk
        ["https://x/a.png".toList, "https://x/b.png".toList]).existingImagesSkipped
        = ["https://x/a.png".toList, "https://x/b.png".toList].length
      ∧ (schedule demoHost demoEnv
        (fetchPass demoHost demoEnv (fun _ => true) ⟨[], []⟩
          ["/site/public/fetched-images/httpsxapng.png".toList]
          ["https://x/a.png".toList, "https://x/b.png".toList] ["https://x/b.png".toList]).st
        (fetchPass demoHost demoEnv (fun _ => true) ⟨[], []⟩
          ["/site/public/fetched-images/httpsxapng.png".toList]
          ["https://x/a.png".toList, "https://x/b.png".toList] ["https://x/b.png".toList]).disk
        ["https://x/a.png".toList, "https://x/b.png".toList]).st.urlToLocalPathMap
        = (fetchPass demoHost demoEnv (fun _ => true) ⟨[], []⟩
          ["/site/public/fetched-images/httpsxapng.png".toList]
          ["https://x/a.png".toList, "https://x/b.png".toList]
          ["https://x/b.png".toList]).st.urlToLocalPathMap :=
  second_fetch_pass_reuses_everything demoHost demoEnv (fun _ => true) ⟨[], []⟩
    ["/site/public/fetched-images/httpsxapng.png".toList]
    ["https://x/a.png".toList, "https://x/b.png".toList] ["https://x/b.png".toList]
    (by decide) (by decide) (by decide)

/-- C9: no warning although a discovered URL is unmapped.  The plugin
instance still maps `https://x/a.png` from an earlier call of `onPrepared`;
this pass discovers only `https://x/b.png`, no file exists for it and its
download fails.  The map then has one entry and the URL set one member, so
the size test of the warning is false and no warning is printed, whatever
the host functions and options. -/
theorem stale_map_entry_hides_unmapped_url (h : Host) (env : PassEnv) :
    mapHas (fetchPass h env (fun _ => false)
        { urlToLocalPathMap := [("https://x/a.png".toList, "/fetched-images/a.webp".toList)],
          processedUrlsInDev := ["https://x/a.png".toList] }
        [] ["https://x/b.png".toList] ["https://x/b.png".toList]).st.urlToLocalPathMap
        "https://x/b.png".toList = false
      ∧ warningEmitted (fetchPass h env (fun _ => false)
          { urlToLocalPathMap := [("https://x/a.png".toList, "/fetched-images/a.webp".toList)],
            processedUrlsInDev := ["https://x/a.png".toList] }
          [] ["https://x/b.png".toList] ["https://x/b.png".toList])
          ["https://x/b.png".toList] = false := by
  simp [fetchPass, schedule, scheduleUrl, settleUrl, downloadAndProcessImage, warningEmitted,
    mapHas]

/-! ## The public base path -/

set_option maxRecDepth 100000 in
/-- C8: the public base path can contain a doubled slash.  With base `/`
and `imageSubDirName` `img///cache` the single pass of
`replace(/\/\//g, '/')` turns the three slashes into two, and
`publicBaseImagePath` is `/img//cache/`. -/
theorem public_base_path_keeps_doubled_slash :
    publicBaseImagePath (some "/".toList) "img///cache".toList = "/img//cache/".toList
      ∧ "//".toList <:+: publicBaseImagePath (some "/".toList) "img///cache".toList := by
  decide

/-! ## Discovery of a well-formed reference -/

theorem litMatch_append (s rest : Str) : litMatch id s (s ++ rest) = some rest := by
  induction s with
  | nil => rfl
  | cons a s ih => simp [litMatch, ih]

theorem run_lit_append {α : Type} (s rest : Str) (c : Caps) (k : Str → Caps → Option α) :
    (Re.lit s).run id (s ++ rest) c k = k rest c := by
  simp [Re.run, litMatch_append]

theorem starGo_run {α : Type} (p : Char → Bool) (k : Str → Option α) (v : α) (rest : Str)
    (hrest : ∀ y r, rest = y :: r → p y = false) (hk : k rest = some v) :
    ∀ (xs : Str), (∀ c ∈ xs, p c = true) → starGo p (xs ++ rest) k = some v
  | [], _ => by
    cases rest with
    | nil => exact hk
    | cons y r => simp [starGo, hrest y r rfl, hk]
  | x :: xs, h => by
    have ih := starGo_run p k v rest hrest hk xs (fun c hc => h c (List.mem_cons_of_mem _ hc))
    simp [starGo, h x (List.mem_cons_self _ _), ih]

theorem classMatch_neg_single (a ch : Char) :
    classMatch id true [a] ch = true ↔ ch ≠ a := by
  by_cases h : a = ch
  · subst h; simp [classMatch]
  · have h1 : ch ≠ a := fun e => h e.symm
    simp [classMatch, h, h1]

theorem run_star_run {α : Type} (a : Char) (xs rest : Str) (c : Caps)
    (k : Str → Caps → Option α) (v : α) (hxs : a ∉ xs)
    (hrest : ∀ y r, rest = y :: r → y = a) (hk : k rest c = some v) :
    (Re.star true [a]).run id (xs ++ rest) c k = some v := by
  rw [Re.run]
  refine starGo_run _ _ v rest ?_ hk xs ?_
  · intro y r e
    have := hrest y r e
    subst this
    simp [classMatch]
  · intro ch hch
    rw [classMatch_neg_single]
    rintro rfl
    exact hxs hch

theorem run_plus_run {α : Type} (a : Char) (xs rest : Str) (c : Caps)
    (k : Str → Caps → Option α) (v : α) (hne : xs ≠ []) (hxs : a ∉ xs)
    (hrest : ∀ y r, rest = y :: r → y = a) (hk : k rest c = some v) :
    (Re.plus true [a]).run id (xs ++ rest) c k = some v := by
  cases xs with
  | nil => exact absurd rfl hne
  | cons x xs =>
    have hx : classMatch id true [a] x = true := by
      rw [classMatch_neg_single]
      rintro rfl
      exact hxs (List.mem_cons_self _ _)
    rw [List.cons_append, Re.run]
    simp only [hx, if_true]
    refine starGo_run _ _ v rest ?_ hk xs ?_
    · intro y r e
      have := hrest y r e
      subst this
      simp [classMatch]
    · intro ch hch
      rw [classMatch_neg_single]
      rintro rfl
      exact hxs (List.mem_cons_of_mem _ hch)

theorem run_group_plus_run {α : Type} (i : Nat) (a : Char) (xs rest : Str) (c : Caps)
    (k : Str → Caps → Option α) (v : α) (hne : xs ≠ []) (hxs : a ∉ xs)
    (hrest : ∀ y r, rest = y :: r → y = a) (hk : k rest ((i, xs) :: c) = some v) :
    (Re.group i (.plus true [a])).run id (xs ++ rest) c k = some v := by
  rw [Re.run]
  refine run_plus_run a xs rest c _ v hne hxs hrest ?_
  have ht : (xs ++ rest).take ((xs ++ rest).length - rest.length) = xs := by
    rw [List.length_append, Nat.add_sub_cancel, List.take_left]
  show k rest ((i, (xs ++ rest).take ((xs ++ rest).length - rest.length)) :: c) = some v
  rw [ht]
  exact hk

theorem matchAt_markdownRegex (alt u post : Str) (halt : ']' ∉ alt) (hu : ')' ∉ u)
    (hne : u ≠ []) :
    markdownRegex.matchAt id ("![".toList ++ (alt ++ ("](".toList ++ (u ++ (")".toList ++ post)))))
      = some (post, [(1, u)]) := by
  unfold markdownRegex Re.matchAt
  simp only [Re.cat]
  rw [run_seq, run_lit_append, run_seq]
  refine run_star_run ']' alt _ _ _ _ halt (fun y r e => ?_) ?_
  · simp at e; exact e.1.symm
  · rw [run_seq, run_lit_append, run_seq]
    refine run_group_plus_run 1 ')' u _ _ _ _ hne hu (fun y r e => ?_) ?_
    · simp at e; exact e.1.symm
    · rw [run_lit_append]

theorem matchAt_vueBindingRegex_colon (u post : Str) (hu : '"' ∉ u) (hne : u ≠ []) :
    vueBindingRegex.matchAt id (":src".toList ++ ("=\"".toList ++ (u ++ ("\"".toList ++ post))))
      = some (post, [(1, u)]) := by
  have key : ∀ (c : Caps), (Re.seq (.lit "=\"".toList)
      (.seq (.group 1 (.plus true ['"'])) (.lit "\"".toList))).run id
      ("=\"".toList ++ (u ++ ("\"".toList ++ post))) c (fun rest c1 => some (rest, c1))
      = some (post, (1, u) :: c) := by
    intro c
    rw [run_seq, run_lit_append, run_seq]
    refine run_group_plus_run 1 '"' u _ _ _ _ hne hu (fun y r e => ?_) ?_
    · simp at e; exact e.1.symm
    · rw [run_lit_append]
  unfold vueBindingRegex Re.matchAt
  simp only [Re.cat]
  rw [run_seq, Re.run, run_lit_append, key]

theorem matchAt_vueBindingRegex_vbind (u post : Str) (hu : '"' ∉ u) (hne : u ≠ []) :
    vueBindingRegex.matchAt id
        ("v-bind:src".toList ++ ("=\"".toList ++ (u ++ ("\"".toList ++ post))))
      = some (post, [(1, u)]) := by
  have key : ∀ (c : Caps), (Re.seq (.lit "=\"".toList)
      (.seq (.group 1 (.plus true ['"'])) (.lit "\"".toList))).run id
      ("=\"".toList ++ (u ++ ("\"".toList ++ post))) c (fun rest c1 => some (rest, c1))
      = some (post, (1, u) :: c) := by
    intro c
    rw [run_seq, run_lit_append, run_seq]
    refine run_group_plus_run 1 '"' u _ _ _ _ hne hu (fun y r e => ?_) ?_
    · simp at e; exact e.1.symm
    · rw [run_lit_append]
  have hfail : ∀ (k : Str → Caps → Option (Str × Caps)) (rest : Str),
      (Re.lit ":src".toList).run id ("v-bind:src".toList ++ rest) [] k = none := by
    intro k rest
    simp [Re.run, litMatch]
  unfold vueBindingRegex Re.matchAt
  simp only [Re.cat]
  rw [run_seq, Re.run, hfail]
  simp only
  rw [run_lit_append, key]

theorem starGo_first {α : Type} (p : Char → Bool) (k : Str → Option α) :
    ∀ (inp : Str),
      (∀ a t, inp = a ++ t → a ≠ [] → (∀ c ∈ a, p c = true) → k t = none) →
      starGo p inp k = k inp
  | [], _ => rfl
  | ch :: t, h => by
    rw [starGo]
    split
    · next hp =>
      have ih := starGo_first p k t (fun a t1 e ha hall =>
        h (ch :: a) t1 (by rw [e]; rfl) (by simp) (by
          intro c hc
          rcases List.mem_cons.mp hc with rfl | hc
          · exact hp
          · exact hall c hc))
      have hk : k t = none := h [ch] t rfl (by simp) (by
        intro c hc
        rw [List.mem_singleton] at hc
        rw [hc]
        exact hp)
      rw [ih, hk]
    · rfl

theorem srcLit_eq : "src=\"".toList = ['s', 'r', 'c', '=', '"'] := rfl

theorem src_prefix_of_quote (u2 r rest : Str) (hq : '"' ∉ u2)
    (h : ['s', 'r', 'c', '=', '"'] ++ r = u2 ++ '"' :: rest) : u2 = ['s', 'r', 'c', '='] := by
  rcases u2 with _ | ⟨c1, _ | ⟨c2, _ | ⟨c3, _ | ⟨c4, _ | ⟨c5, u2⟩⟩⟩⟩⟩
  · simp at h
  · simp at h
  · simp at h
  · simp at h
  · simp at h
    obtain ⟨h1, h2, h3, h4, _⟩ := h
    simp [← h1, ← h2, ← h3, ← h4]
  · simp at h
    obtain ⟨_, _, _, _, h5, _⟩ := h
    exact absurd (by simp [← h5]) hq

theorem litMatch_src_none (u post a t : Str) (hq : '"' ∉ u)
    (hsrc : ¬ ['s', 'r', 'c', '='] <:+ u)
    (he : ['s', 'r', 'c', '=', '"'] ++ (u ++ ('"' :: '>' :: post)) = a ++ t) (ha : a ≠ [])
    (hgt : '>' ∉ a) : litMatch id ['s', 'r', 'c', '=', '"'] t = none := by
  cases hl : litMatch id ['s', 'r', 'c', '=', '"'] t with
  | none => rfl
  | some r =>
    exfalso
    obtain ⟨w, hw, hw2⟩ := litMatch_some id _ t r hl
    simp only [List.map_id] at hw2
    subst hw2
    subst hw
    rcases List.append_eq_append_iff.mp he with ⟨a1, h1, h2⟩ | ⟨c1, h1, h2⟩
    · rcases List.append_eq_append_iff.mp h2 with ⟨b, h3, h4⟩ | ⟨u2, h3, h4⟩
      · rcases b with _ | ⟨x, _ | ⟨y, b⟩⟩
        · simp at h4
        · simp at h4
        · simp at h4
          apply hgt
          rw [h1, h3]
          simp [← h4.2.1]
      · have := src_prefix_of_quote u2 r ('>' :: post)
          (fun hm => hq (by rw [h3]; exact List.mem_append_right _ hm)) h4
        exact hsrc ⟨a1, by rw [h3, this]⟩
    · rcases c1 with _ | ⟨x, c1⟩
      · simp only [List.nil_append] at h2
        have := src_prefix_of_quote u r ('>' :: post) hq h2
        exact hsrc ⟨[], by rw [this]; rfl⟩
      · rcases a with _ | ⟨a0, a⟩
        · exact ha rfl
        · simp only [List.cons_append, List.cons.injEq] at h1 h2
          have hx : x ∈ ['r', 'c', '=', '"'] := by
            rw [h1.2]
            simp
          rw [← h2.1] at hx
          revert hx
          decide

theorem matchAt_htmlRegex (u post : Str) (hq : '"' ∉ u) (hne : u ≠ [])
    (hsrc : ¬ ['s', 'r', 'c', '='] <:+ u) :
    htmlRegex.matchAt id
        ("<img".toList ++ (' ' :: (['s', 'r', 'c', '=', '"'] ++ (u ++ ('"' :: '>' :: post)))))
      = some (post, [(1, u)]) := by
  have htail : (Re.seq (.lit ['s', 'r', 'c', '=', '"'])
      (.seq (.group 1 (.plus true ['"'])) (.seq (.lit "\"".toList)
        (.seq (.star true ['>']) (.lit ">".toList))))).run id
      (['s', 'r', 'c', '=', '"'] ++ (u ++ ("\"".toList ++ ([] ++ (">".toList ++ post))))) []
      (fun rest c1 => some (rest, c1)) = some (post, [(1, u)]) := by
    rw [run_seq, run_lit_append, run_seq]
    refine run_group_plus_run 1 '"' u _ _ _ _ hne hq (fun y r e => ?_) ?_
    · simp at e; exact e.1.symm
    · rw [run_seq, run_lit_append, run_seq]
      refine run_star_run '>' [] _ _ _ _ (by simp) (fun y r e => ?_) ?_
      · simp at e; exact e.1.symm
      · rw [run_lit_append]
  unfold htmlRegex Re.matchAt
  simp only [Re.cat]
  rw [srcLit_eq, run_seq, run_lit_append, run_seq, Re.run]
  have hsp : classMatch id true ['>'] ' ' = true := by decide
  simp only [hsp, if_true]
  rw [starGo_first]
  · exact htail
  · intro a t he ha hall
    have hgt : '>' ∉ a := by
      intro hm
      have := hall _ hm
      simp [classMatch] at this
    rw [run_seq, Re.run, litMatch_src_none u post a t hq hsrc he ha hgt]

theorem execAll_skip_pre (r : Re) (rest0 : Str) :
    ∀ (pre : Str) (skip : Nat), skip ≤ pre.length →
      (∀ t ∈ pre.tails, t ≠ [] → endsBefore r t rest0 = true) →
      ∃ l, execAll id r (pre ++ rest0) skip = l ++ execAll id r rest0 0
  | [], skip, hs, _ => by
    have : skip = 0 := by simpa using hs
    subst this
    exact ⟨[], rfl⟩
  | ch :: p, skip, hs, h => by
    have hp : ∀ t ∈ p.tails, t ≠ [] → endsBefore r t rest0 = true := by
      intro t ht
      refine h t ?_
      rw [List.mem_tails] at ht ⊢
      exact ht.trans (List.suffix_cons _ _)
    cases skip with
    | succ n =>
      rw [List.cons_append, execAll]
      exact execAll_skip_pre r rest0 p n (by simpa using hs) hp
    | zero =>
      rw [List.cons_append, execAll]
      have h0 := h (ch :: p) (by rw [List.mem_tails]) (by simp)
      unfold endsBefore at h0
      rw [List.cons_append] at h0
      cases hm : r.matchAt id (ch :: (p ++ rest0)) with
      | none => exact execAll_skip_pre r rest0 p 0 (Nat.zero_le _) hp
      | some x =>
        obtain ⟨after, c⟩ := x
        rw [hm] at h0
        simp only [decide_eq_true_eq] at h0 ⊢
        obtain ⟨l, hl⟩ := execAll_skip_pre r rest0 p ((p ++ rest0).length - after.length)
          (by rw [List.length_append]; omega) hp
        exact ⟨c :: l, by rw [hl]; rfl⟩

theorem mem_execAll_head (r : Re) (inp after : Str) (c : Caps) (hne : inp ≠ [])
    (hm : r.matchAt id inp = some (after, c)) : c ∈ execAll id r inp 0 := by
  cases inp with
  | nil => exact absurd rfl hne
  | cons ch t =>
    rw [execAll, hm]
    exact List.mem_cons_self _ _

theorem ne_nil_of_isHttpUrl (u : Str) (h : isHttpUrl u = true) : u ≠ [] := by
  rintro rfl
  revert h
  decide

theorem mem_addMatchUrl_of_mem (urls : List Str) (c : Caps) (x : Str) (hx : x ∈ urls) :
    x ∈ addMatchUrl urls c := by
  simp only [addMatchUrl]
  split
  · exact (mem_setAdd _ _ _).2 (Or.inl hx)
  · exact hx

theorem mem_foldl_addMatchUrl_of_mem (x : Str) :
    ∀ (caps : List Caps) (urls : List Str), x ∈ urls → x ∈ caps.foldl addMatchUrl urls
  | [], _, hx => hx
  | c :: caps, urls, hx =>
    mem_foldl_addMatchUrl_of_mem x caps _ (mem_addMatchUrl_of_mem urls c x hx)

theorem mem_foldl_addMatchUrl (u : Str) (hu : isHttpUrl u = true) (c : Caps)
    (hc : capture c 1 = u) :
    ∀ (caps : List Caps) (urls : List Str), c ∈ caps →
      decodeHtmlEntities u ∈ caps.foldl addMatchUrl urls
  | [], _, h => by simp at h
  | c1 :: caps, urls, h => by
    rcases List.mem_cons.mp h with e | e
    · subst e
      refine mem_foldl_addMatchUrl_of_mem _ caps _ ?_
      simp only [addMatchUrl, hc]
      rw [if_pos ⟨ne_nil_of_isHttpUrl u hu, hu⟩]
      exact (mem_setAdd _ _ _).2 (Or.inr rfl)
    · exact mem_foldl_addMatchUrl u hu c hc caps _ e

theorem mem_extractImageUrls (content u : Str) (hu : isHttpUrl u = true) (regex : Re)
    (hr : regex ∈ [markdownRegex, htmlRegex, vueBindingRegex]) (c : Caps)
    (hc : c ∈ execAll id regex content 0) (h1 : capture c 1 = u) :
    decodeHtmlEntities u ∈ extractImageUrls content := by
  unfold extractImageUrls
  simp only [List.foldl_cons, List.foldl_nil]
  simp only [List.mem_cons, List.mem_singleton, List.not_mem_nil, or_false] at hr
  rcases hr with rfl | rfl | rfl
  · exact mem_foldl_addMatchUrl_of_mem _ _ _ (mem_foldl_addMatchUrl_of_mem _ _ _
      (mem_foldl_addMatchUrl u hu c h1 _ _ hc))
  · exact mem_foldl_addMatchUrl_of_mem _ _ _ (mem_foldl_addMatchUrl u hu c h1 _ _ hc)
  · exact mem_foldl_addMatchUrl u hu c h1 _ _ hc

theorem nodup_setAdd (l : List Str) (x : Str) (h : l.Nodup) : (setAdd l x).Nodup := by
  unfold setAdd
  split
  · exact h
  · next hx =>
    rw [List.nodup_append]
    exact ⟨h, List.nodup_singleton _, by
      intro a ha hb
      rw [List.mem_singleton] at hb
      exact hx (hb ▸ ha)⟩

theorem nodup_foldl_addMatchUrl :
    ∀ (caps : List Caps) (urls : List Str), urls.Nodup → (caps.foldl addMatchUrl urls).Nodup
  | [], _, h => h
  | c :: caps, urls, h => by
    refine nodup_foldl_addMatchUrl caps _ ?_
    simp only [addMatchUrl]
    split
    · exact nodup_setAdd _ _ h
    · exact h

theorem nodup_extractImageUrls (content : Str) : (extractImageUrls content).Nodup := by
  unfold extractImageUrls
  simp only [List.foldl_cons, List.foldl_nil]
  exact nodup_foldl_addMatchUrl _ _ (nodup_foldl_addMatchUrl _ _
    (nodup_foldl_addMatchUrl _ _ List.nodup_nil))

theorem count_eq_one_of_nodup (l : List Str) (a : Str) (hn : l.Nodup) (ha : a ∈ l) :
    l.count a = 1 := by
  induction l with
  | nil => cases ha
  | cons b l ih =>
    rw [List.count_cons]
    rw [List.nodup_cons] at hn
    by_cases hb : b = a
    · subst hb
      simp [List.count_eq_zero_of_not_mem hn.1]
    · have hl : a ∈ l := by
        rcases List.mem_cons.mp ha with e | e
        · exact absurd e.symm hb
        · exact e
      simp [ih hn.2 hl, hb]

theorem matchAt_reference (syn : RefSyntax) (u post : Str) (hu : isHttpUrl u = true)
    (hwf : syn.WellFormed u) (hsrc : syn = .img → ¬ "src=".toList <:+ u) :
    syn.regex.matchAt id (syn.text u ++ post) = some (post, [(1, u)]) := by
  have hne := ne_nil_of_isHttpUrl u hu
  cases syn with
  | markdown alt =>
    have h := matchAt_markdownRegex alt u post hwf.1 hwf.2 hne
    simpa [RefSyntax.regex, RefSyntax.text, List.append_assoc] using h
  | img =>
    have h := matchAt_htmlRegex u post hwf hne (hsrc rfl)
    have e : RefSyntax.text u RefSyntax.img ++ post
        = "<img".toList ++ (' ' :: (['s', 'r', 'c', '=', '"'] ++ (u ++ ('"' :: '>' :: post)))) := by
      simp [RefSyntax.text]
    rw [e]
    exact h
  | colonSrc =>
    have h := matchAt_vueBindingRegex_colon u post hwf hne
    have e : RefSyntax.text u RefSyntax.colonSrc ++ post
        = ":src".toList ++ ("=\"".toList ++ (u ++ ("\"".toList ++ post))) := by
      simp [RefSyntax.text]
    rw [e]
    exact h
  | vBindSrc =>
    have h := matchAt_vueBindingRegex_vbind u post hwf hne
    have e : RefSyntax.text u RefSyntax.vBindSrc ++ post
        = "v-bind:src".toList ++ ("=\"".toList ++ (u ++ ("\"".toList ++ post))) := by
      simp [RefSyntax.text]
    rw [e]
    exact h

set_option maxRecDepth 100000 in
/-- C5, as stated, fails.  The body `![x](a![y](https://x/y.png)` contains
the well-formed reference `![y](https://x/y.png)`, but the match that
starts at `![x](` runs up to the same `)` and captures a text that is not
an http(s) URL, so nothing is discovered.  The body
`<img src="https://x/?src="> and <b title="x">` contains the well-formed
reference `<img src="https://x/?src=">`, but the greedy `[^>]+` lets
`src="` match at the end of the URL and the capture is the text after
it. -/
theorem discovery_misses_well_formed_references :
    ("![x](a![y](https://x/y.png)".toList
        = "![x](a".toList ++ RefSyntax.text "https://x/y.png".toList (.markdown "y".toList)
      ∧ ']' ∉ "y".toList ∧ ')' ∉ "https://x/y.png".toList
      ∧ isHttpUrl "https://x/y.png".toList = true
      ∧ decodeHtmlEntities "https://x/y.png".toList
          ∉ extractImageUrls "![x](a![y](https://x/y.png)".toList)
    ∧ ("<img src=\"https://x/?src=\"> and <b title=\"x\">".toList
        = RefSyntax.text "https://x/?src=".toList .img ++ " and <b title=\"x\">".toList
      ∧ '"' ∉ "https://x/?src=".toList
      ∧ isHttpUrl "https://x/?src=".toList = true
      ∧ decodeHtmlEntities "https://x/?src=".toList
          ∉ extractImageUrls "<img src=\"https://x/?src=\"> and <b title=\"x\">".toList) := by
  decide

/-- C5 (amended): discovery finds a well-formed reference to an http(s)
URL `u` in one of the three syntaxes, and returns `decodeHtmlEntities u`
exactly once, provided every match attempt of the syntax's pattern that
starts before the reference fails or ends before the reference begins,
and, for the `<img src="u">` form, `u` does not end in `src=`. -/
theorem discovery_finds_reference (syn : RefSyntax) (u pre post : Str)
    (hu : isHttpUrl u = true) (hwf : syn.WellFormed u)
    (hsrc : syn = .img → ¬ "src=".toList <:+ u)
    (hpre : ∀ t ∈ pre.tails, t ≠ [] → endsBefore syn.regex t (syn.text u ++ post) = true) :
    decodeHtmlEntities u ∈ extractImageUrls (pre ++ syn.text u ++ post)
      ∧ (extractImageUrls (pre ++ syn.text u ++ post)).count (decodeHtmlEntities u) = 1 := by
  have hm := matchAt_reference syn u post hu hwf hsrc
  have hne : syn.text u ++ post ≠ [] := by
    cases syn <;> simp [RefSyntax.text]
  have hc := mem_execAll_head syn.regex _ post _ hne hm
  obtain ⟨l, hl⟩ := execAll_skip_pre syn.regex (syn.text u ++ post) pre 0 (Nat.zero_le _) hpre
  have hc2 : [(1, u)] ∈ execAll id syn.regex (pre ++ syn.text u ++ post) 0 := by
    rw [List.append_assoc, hl]
    exact List.mem_append_right _ hc
  have hr : syn.regex ∈ [markdownRegex, htmlRegex, vueBindingRegex] := by
    cases syn <;> simp [RefSyntax.regex]
  have hmem := mem_extractImageUrls (pre ++ syn.text u ++ post) u hu syn.regex hr _ hc2
    (by simp [capture, List.lookup])
  exact ⟨hmem, count_eq_one_of_nodup _ _ (nodup_extractImageUrls _) hmem⟩

set_option maxRecDepth 100000 in
/-- The amended C5 at an `<img>` reference that follows a complete
markdown image and an unfinished `<img` tag. -/
theorem discovery_finds_reference_witness :
    decodeHtmlEntities "https://x/y.png?a=1&amp;b=2".toList
        ∈ extractImageUrls ("![a](./l.png) <img alt=\"\"> ".toList
            ++ RefSyntax.text "https://x/y.png?a=1&amp;b=2".toList .img ++ " end".toList)
      ∧ (extractImageUrls ("![a](./l.png) <img alt=\"\"> ".toList
            ++ RefSyntax.text "https://x/y.png?a=1&amp;b=2".toList .img ++ " end".toList)).count
          (decodeHtmlEntities "https://x/y.png?a=1&amp;b=2".toList) = 1 :=
  discovery_finds_reference .img "https://x/y.png?a=1&amp;b=2".toList
    "![a](./l.png) <img alt=\"\"> ".toList " end".toList (by decide)
    (by unfold RefSyntax.WellFormed; decide) (fun _ => by decide)
    (by decide)

/-! ## Order of the entries in the body rewrite -/

theorem updateBody_fst (canon : Char → Char) :
    ∀ (m : UrlMap) (acc : Str × Bool),
      (m.foldl (rewriteStep canon) acc).1
        = m.foldl (fun body e => rewriteEntry canon body e.1 e.2) acc.1
  | [], _ => rfl
  | e :: m, acc => by
    rw [List.foldl_cons, List.foldl_cons, updateBody_fst canon m]
    congr 1
    unfold rewriteStep
    simp only
    split
    · rfl
    · next h => exact (not_not.mp h).symm

set_option maxRecDepth 100000 in
/-- C10, as stated, fails.  The keys `https://x/a` and `https://x/a)b` are
distinct http(s) URLs and both paths begin with `/`, yet on the body
`![a](https://x/a)b)` the order decides: with `https://x/a` first the
result is `![a](/p1)b)`, with `https://x/a)b` first it is `![a](/p2)`. -/
theorem body_rewrite_depends_on_entry_order :
    (updateBody asciiUpper "![a](https://x/a)b)".toList
        [("https://x/a".toList, "/p1".toList), ("https://x/a)b".toList, "/p2".toList)]).1
        = "![a](/p1)b)".toList
      ∧ (updateBody asciiUpper "![a](https://x/a)b)".toList
        [("https://x/a)b".toList, "/p2".toList), ("https://x/a".toList, "/p1".toList)]).1
        = "![a](/p2)".toList := by
  decide

theorem replaceGo_skip (canon : Char → Char) (r : Re) (m : Nat) (tmpl : Str) (rest : Str) :
    ∀ (w before : Str),
      replaceGo canon r m tmpl before (w ++ rest) w.length
        = replaceGo canon r m tmpl (w.reverse ++ before) rest 0
  | [], before => by simp
  | a :: w, before => by
    rw [List.cons_append, List.length_cons, replaceGo, replaceGo_skip canon r m tmpl rest w]
    simp

theorem replaceGo_hit (canon : Char → Char) (r : Re) (m : Nat) (tmpl : Str)
    (before : Str) (a : Char) (w rest : Str) (c : Caps)
    (h : r.matchAt canon (a :: w ++ rest) = some (rest, c)) :
    replaceGo canon r m tmpl before (a :: w ++ rest) 0
      = getSubstitution (a :: w) before.reverse rest c m .plain tmpl
        ++ replaceGo canon r m tmpl ((a :: w).reverse ++ before) rest 0 := by
  rw [List.cons_append, replaceGo]
  rw [List.cons_append] at h
  rw [h]
  simp only
  have h1 : rest.length ≤ (w ++ rest).length := by simp
  rw [if_pos h1]
  have h2 : (w ++ rest).length - rest.length = w.length := by simp
  have h3 : (a :: (w ++ rest)).length - rest.length = (a :: w).length := by
    simp only [List.length_cons, List.length_append]; omega
  have h4 : (a :: (w ++ rest)).take (a :: w).length = a :: w := by
    rw [← List.cons_append, List.take_left]
  rw [h2, h3, h4, replaceGo_skip]
  simp

theorem replaceGo_miss (canon : Char → Char) (r : Re) (m : Nat) (tmpl : Str)
    (before : Str) (a : Char) (t : Str) (h : r.matchAt canon (a :: t) = none) :
    replaceGo canon r m tmpl before (a :: t) 0
      = a :: replaceGo canon r m tmpl (a :: before) t 0 := by
  rw [replaceGo, h]

theorem proj_append (f : Bool → Str → Str) :
    ∀ (m1 m2 : List Item), proj f (m1 ++ m2) = proj f m1 ++ proj f m2
  | [], _ => rfl
  | .ch c :: m1, m2 => by simp [proj, proj_append f m1 m2]
  | .slot k x :: m1, m2 => by simp [proj, proj_append f m1 m2]

theorem proj_plainItems (f : Bool → Str → Str) : ∀ (s : Str), proj f (plainItems s) = s
  | [] => rfl
  | a :: s => by
    show a :: proj f (plainItems s) = a :: s
    rw [proj_plainItems f s]

theorem gs_plain_cons (ma be af : Str) (c : Caps) (m : Nat) (ch : Char) (t : Str)
    (h : ch ≠ '$') :
    getSubstitution ma be af c m .plain (ch :: t) = ch :: getSubstitution ma be af c m .plain t := by
  rw [getSubstitution, if_neg h]

theorem gs_plain_dollar (ma be af : Str) (c : Caps) (m : Nat) (t : Str) :
    getSubstitution ma be af c m .plain ('$' :: t) = getSubstitution ma be af c m .dollar t := by
  rw [getSubstitution, if_pos rfl]

theorem gs_dollar_digit (ma be af : Str) (c : Caps) (m : Nat) (d : Char) (n : Nat) (t : Str)
    (hd : digitVal d = some n) :
    getSubstitution ma be af c m .dollar (d :: t) = getSubstitution ma be af c m (.digit d n) t := by
  have h1 : d ≠ '$' := by
    rintro rfl
    have : digitVal '$' = none := by decide
    rw [this] at hd; cases hd
  have h2 : d ≠ '&' := by
    rintro rfl
    have : digitVal '&' = none := by decide
    rw [this] at hd; cases hd
  have h3 : d ≠ graveChar := by
    rintro rfl
    have : digitVal graveChar = none := by decide
    rw [this] at hd; cases hd
  have h4 : d ≠ aposChar := by
    rintro rfl
    have : digitVal aposChar = none := by decide
    rw [this] at hd; cases hd
  rw [getSubstitution, if_neg h1, if_neg h2, if_neg h3, if_neg h4, hd]

theorem gs_digit_step (ma be af : Str) (c : Caps) (m : Nat) (d ch : Char) (n : Nat)
    (t : Str) (hch : ch ≠ '$') (hm : m < 10 * n) :
    getSubstitution ma be af c m (.digit d n) (ch :: t)
      = oneDigitRef c m d n ++ ch :: getSubstitution ma be af c m .plain t := by
  rw [getSubstitution]
  cases hd : digitVal ch with
  | none => simp [hch]
  | some n2 =>
    simp only
    rw [if_neg (by omega)]

theorem gs_digit_dollar (ma be af : Str) (c : Caps) (m : Nat) (d : Char) (n : Nat) (t : Str) :
    getSubstitution ma be af c m (.digit d n) ('$' :: t)
      = oneDigitRef c m d n ++ getSubstitution ma be af c m .dollar t := by
  have hd : digitVal '$' = none := by decide
  rw [getSubstitution, hd]
  simp

theorem gs_digit_nil (ma be af : Str) (c : Caps) (m : Nat) (d : Char) (n : Nat) :
    getSubstitution ma be af c m (.digit d n) [] = oneDigitRef c m d n := by
  rw [getSubstitution]

theorem gs_plain_clean (ma be af : Str) (c : Caps) (m : Nat) (rest : Str) :
    ∀ (l : Str), '$' ∉ l →
      getSubstitution ma be af c m .plain (l ++ rest)
        = l ++ getSubstitution ma be af c m .plain rest
  | [], _ => rfl
  | a :: l, h => by
    have ha : a ≠ '$' := fun e => h (e ▸ List.mem_cons_self _ _)
    rw [List.cons_append, gs_plain_cons _ _ _ _ _ _ _ ha,
      gs_plain_clean ma be af c m rest l (fun hm => h (List.mem_cons_of_mem _ hm))]
    rfl

theorem oneDigitRef_eq (c : Caps) (m : Nat) (d : Char) (n : Nat) (h1 : 1 ≤ n) (h2 : n ≤ m) :
    oneDigitRef c m d n = capture c n := by
  unfold oneDigitRef
  rw [if_pos ⟨h1, h2⟩]

theorem subst_md (ma be af : Str) (c : Caps) (p : Str) (hp : '$' ∉ p) :
    getSubstitution ma be af c 1 .plain ("![$1](".toList ++ p ++ ")".toList)
      = "![".toList ++ (capture c 1 ++ ("](".toList ++ (p ++ ")".toList))) := by
  have e : "![$1](".toList ++ p ++ ")".toList
      = '!' :: '[' :: '$' :: '1' :: ']' :: (('(' :: p) ++ ")".toList) := by simp
  have hp2 : '$' ∉ '(' :: p := by
    intro hm
    rcases List.mem_cons.mp hm with h | h
    · revert h; decide
    · exact hp h
  rw [e, gs_plain_cons _ _ _ _ _ _ _ (by decide), gs_plain_cons _ _ _ _ _ _ _ (by decide),
    gs_plain_dollar, gs_dollar_digit _ _ _ _ _ _ 1 _ (by decide),
    gs_digit_step _ _ _ _ _ _ _ _ _ (by decide) (by decide),
    oneDigitRef_eq _ _ _ _ (by decide) (by decide),
    gs_plain_clean _ _ _ _ _ _ _ hp2]
  simp [getSubstitution]

theorem subst_html (ma be af : Str) (c : Caps) (p : Str) (hp : '$' ∉ p) (hne : p ≠ []) :
    getSubstitution ma be af c 3 .plain ("$1$2".toList ++ p ++ "$2$3".toList)
      = capture c 1 ++ (capture c 2 ++ (p ++ (capture c 2 ++ capture c 3))) := by
  obtain ⟨p0, p1, rfl⟩ := List.exists_cons_of_ne_nil hne
  have e : "$1$2".toList ++ (p0 :: p1) ++ "$2$3".toList
      = '$' :: '1' :: '$' :: '2' :: p0 :: (p1 ++ '$' :: '2' :: '$' :: '3' :: []) := by simp
  have h0 : p0 ≠ '$' := fun e => hp (e ▸ List.mem_cons_self _ _)
  have hp1 : '$' ∉ p1 := fun hm => hp (List.mem_cons_of_mem _ hm)
  rw [e, gs_plain_dollar, gs_dollar_digit _ _ _ _ _ _ 1 _ (by decide), gs_digit_dollar,
    gs_dollar_digit _ _ _ _ _ _ 2 _ (by decide),
    gs_digit_step _ _ _ _ _ _ _ _ _ h0 (by decide),
    gs_plain_clean _ _ _ _ _ _ _ hp1, gs_plain_dollar,
    gs_dollar_digit _ _ _ _ _ _ 2 _ (by decide), gs_digit_dollar,
    gs_dollar_digit _ _ _ _ _ _ 3 _ (by decide), gs_digit_nil,
    oneDigitRef_eq _ _ _ _ (by decide) (by decide), oneDigitRef_eq _ _ _ _ (by decide) (by decide),
    oneDigitRef_eq _ _ _ _ (by decide) (by decide)]
  simp

theorem subst_vue (ma be af : Str) (c : Caps) (p : Str) (hp : '$' ∉ p) (hne : p ≠ []) :
    getSubstitution ma be af c 2 .plain ("$1$2".toList ++ p ++ "$2".toList)
      = capture c 1 ++ (capture c 2 ++ (p ++ capture c 2)) := by
  obtain ⟨p0, p1, rfl⟩ := List.exists_cons_of_ne_nil hne
  have e : "$1$2".toList ++ (p0 :: p1) ++ "$2".toList
      = '$' :: '1' :: '$' :: '2' :: p0 :: (p1 ++ '$' :: '2' :: []) := by simp
  have h0 : p0 ≠ '$' := fun e => hp (e ▸ List.mem_cons_self _ _)
  have hp1 : '$' ∉ p1 := fun hm => hp (List.mem_cons_of_mem _ hm)
  rw [e, gs_plain_dollar, gs_dollar_digit _ _ _ _ _ _ 1 _ (by decide), gs_digit_dollar,
    gs_dollar_digit _ _ _ _ _ _ 2 _ (by decide),
    gs_digit_step _ _ _ _ _ _ _ _ _ h0 (by decide),
    gs_plain_clean _ _ _ _ _ _ _ hp1, gs_plain_dollar,
    gs_dollar_digit _ _ _ _ _ _ 2 _ (by decide), gs_digit_nil,
    oneDigitRef_eq _ _ _ _ (by decide) (by decide), oneDigitRef_eq _ _ _ _ (by decide) (by decide)]
  simp

/-! ### Canonicalize and the markup characters -/

theorem canonSep_id : CanonSep id := fun _ _ _ h => h

theorem sep_markup (cn : Char → Char) (hs : CanonSep cn) (d c : Char) (hd : d ∈ markupChars)
    (h : cn c = cn d) : c = d :=
  hs d (List.mem_cons_of_mem _ hd) c h

theorem open_sub_markup (d : Char) (h : d ∈ openChars) : d ∈ markupChars := by
  simp only [openChars, List.mem_cons, List.mem_singleton, List.not_mem_nil, or_false] at h
  rcases h with rfl | rfl | rfl <;> decide

theorem close_sub_markup (d : Char) (h : d ∈ closeChars) : d ∈ markupChars := by
  simp only [closeChars, List.mem_cons, List.mem_singleton, List.not_mem_nil, or_false] at h
  rcases h with rfl | rfl | rfl <;> decide

theorem classMatch_neg_iff (cn : Char → Char) (hs : CanonSep cn) (d c : Char)
    (hd : d ∈ markupChars) : classMatch cn true [d] c = true ↔ c ≠ d := by
  by_cases h : cn d = cn c
  · have := sep_markup cn hs d c hd h.symm
    subst this
    simp [classMatch]
  · have h1 : c ≠ d := fun e => h (e ▸ rfl)
    simp [classMatch, h, h1]

theorem classMatch_pos_iff (cn : Char → Char) (hs : CanonSep cn) (q1 q2 c : Char)
    (h1 : q1 ∈ markupChars) (h2 : q2 ∈ markupChars) :
    classMatch cn false [q1, q2] c = true ↔ c = q1 ∨ c = q2 := by
  constructor
  · intro h
    simp only [classMatch, List.any_cons, List.any_nil, Bool.or_false, bne_iff_ne, ne_eq,
      Bool.not_eq_false, Bool.or_eq_true, beq_iff_eq] at h
    rcases h with h | h
    · exact Or.inl (sep_markup cn hs q1 c h1 h.symm)
    · exact Or.inr (sep_markup cn hs q2 c h2 h.symm)
  · rintro (rfl | rfl) <;> simp [classMatch]

/-! ### Literals on marked texts -/

theorem WF_tail (f : Bool → Str → Str) (cn : Char → Char) (u : Str) :
    ∀ (m1 m2 : List Item) (b : Bool), WF f cn u b (m1 ++ m2) → ∃ b1, WF f cn u b1 m2
  | [], _, b, h => ⟨b, h⟩
  | .ch c :: m1, m2, b, h => WF_tail f cn u m1 m2 _ h
  | .slot k x :: m1, m2, b, h => WF_tail f cn u m1 m2 _ h.2.2.2.2

theorem stripLit_some (cn : Char → Char) :
    ∀ (l : Str) (m m1 : List Item), stripLit cn l m = some m1 →
      ∃ l1, m = plainItems l1 ++ m1 ∧ l1.map cn = l.map cn
  | [], m, m1, h => by
    simp only [stripLit, Option.some.injEq] at h
    exact ⟨[], by simp [plainItems, h], rfl⟩
  | a :: l, [], m1, h => by simp [stripLit] at h
  | a :: l, .slot k x :: m, m1, h => by simp [stripLit] at h
  | a :: l, .ch c :: m, m1, h => by
    simp only [stripLit] at h
    split at h
    · next hc =>
      obtain ⟨l1, e1, e2⟩ := stripLit_some cn l m m1 h
      exact ⟨c :: l1, by simp [plainItems, e1], by simp [e2, hc]⟩
    · cases h

theorem lit_lift (f : Bool → Str → Str) (cn : Char → Char) (hs : CanonSep cn) (u : Str) :
    ∀ (l : Str) (m : List Item) (b : Bool), SlotSafe l → WF f cn u b m →
      (slotHead m = false ∨ l = []) →
      litMatch cn l (proj f m) = (stripLit cn l m).map (proj f)
  | [], m, _, _, _, _ => by simp [litMatch, stripLit]
  | a :: l, [], _, _, _, _ => by simp [litMatch, stripLit, proj]
  | a :: l, .slot k x :: m, _, _, _, hh => by
    rcases hh with hh | hh
    · simp [slotHead] at hh
    · cases hh
  | a :: l, .ch c :: m, b, hl, hw, _ => by
    simp only [proj, litMatch, stripLit]
    by_cases hc : cn a = cn c
    · rw [if_pos hc, if_pos hc]
      have hl' : SlotSafe l := by
        cases l with
        | nil => trivial
        | cons a2 l2 => exact hl.2
      refine lit_lift f cn hs u l m _ hl' hw ?_
      cases m with
      | nil => exact Or.inl rfl
      | cons it m2 =>
        cases it with
        | ch c2 => exact Or.inl rfl
        | slot k x =>
          right
          have hopen : c ∈ openChars := by
            have := hw.1
            simpa using this
          have hac : a = c := sep_markup cn hs c a (open_sub_markup c hopen) hc
          cases l with
          | nil => rfl
          | cons a2 l2 => exact absurd (hac ▸ hopen) hl.1
    · rw [if_neg hc, if_neg hc]
      rfl

theorem run_lit_lift {α : Type} (f : Bool → Str → Str) (cn : Char → Char) (hs : CanonSep cn)
    (u : Str) (l : Str) (m : List Item) (b : Bool) (hl : SlotSafe l) (hw : WF f cn u b m)
    (hh : slotHead m = false ∨ l = []) (c : Caps) (k : Str → Caps → Option α) :
    (Re.lit l).run cn (proj f m) c k
      = match stripLit cn l m with
        | some m1 => k (proj f m1) c
        | none => none := by
  rw [Re.run, lit_lift f cn hs u l m b hl hw hh]
  cases stripLit cn l m <;> rfl

theorem litMatch_app (cn : Char → Char) (z r : Str) :
    ∀ (l w : Str), litMatch cn l (w ++ z) = some r →
      (∃ w1 w2, w = w1 ++ w2 ∧ w1.map cn = l.map cn ∧ r = w2 ++ z)
        ∨ (∃ l1 l2, l = l1 ++ l2 ∧ l2 ≠ [] ∧ w.map cn = l1.map cn ∧ litMatch cn l2 z = some r)
  | [], w, h => by
    simp only [litMatch, Option.some.injEq] at h
    exact Or.inl ⟨[], w, rfl, rfl, h.symm⟩
  | a :: l, [], h => Or.inr ⟨[], a :: l, rfl, by simp, rfl, h⟩
  | a :: l, c :: w, h => by
    rw [List.cons_append, litMatch] at h
    split at h
    · next hc =>
      rcases litMatch_app cn z r l w h with ⟨w1, w2, e1, e2, e3⟩ | ⟨l1, l2, e1, e2, e3, e4⟩
      · exact Or.inl ⟨c :: w1, w2, by simp [e1], by simp [e2, hc], e3⟩
      · exact Or.inr ⟨a :: l1, l2, by simp [e1], e2, by simp [e3, hc], e4⟩
    · cases h

theorem litMatch_cons_some (cn : Char → Char) (a : Char) (l : Str) (c : Char) (z r : Str)
    (h : litMatch cn (a :: l) (c :: z) = some r) : cn a = cn c := by
  rw [litMatch] at h
  split at h
  · next hc => exact hc
  · cases h

theorem inslot_lit_none (cn : Char → Char) (hs : CanonSep cn) (l w z : Str) (d : Char)
    (hw : ∀ c ∈ w, c ∉ markupChars) (hsrc : ¬ srcEq.map cn <:+: w.map cn)
    (hd : d ∈ closeChars) (hl : ∀ a ∈ l, a ∉ closeChars)
    (hl2 : (∃ a ∈ l, a ∈ markupChars) ∨ srcEq.map cn <:+: l.map cn) :
    litMatch cn l (w ++ d :: z) = none := by
  cases hm : litMatch cn l (w ++ d :: z) with
  | none => rfl
  | some r =>
    exfalso
    rcases litMatch_app cn (d :: z) r l w hm with ⟨w1, w2, e1, e2, _⟩ | ⟨l1, l2, e1, e2, _, e4⟩
    · rcases hl2 with ⟨a, ha, ha2⟩ | hl2
      · have : cn a ∈ w1.map cn := by rw [e2]; exact List.mem_map_of_mem _ ha
        obtain ⟨c, hc, hca⟩ := List.mem_map.mp this
        have := sep_markup cn hs a c ha2 hca
        subst this
        exact hw c (by rw [e1]; exact List.mem_append_left _ hc) ha2
      · apply hsrc
        rw [e1, List.map_append, e2]
        exact hl2.trans (List.prefix_append _ _).isInfix
    · obtain ⟨a2, l3, rfl⟩ := List.exists_cons_of_ne_nil e2
      have hc := litMatch_cons_some cn a2 l3 d z r e4
      have := sep_markup cn hs d a2 (close_sub_markup d hd) hc
      subst this
      exact hl a2 (by rw [e1]; simp) hd

theorem key_at_slot (cn : Char → Char) (hs : CanonSep cn) (u w z r : Str) (d : Char)
    (hu : ∀ c ∈ u, c ∉ markupChars) (hw : ∀ c ∈ w, c ∉ markupChars)
    (hne : w.map cn ≠ u.map cn) (hd : d ∈ closeChars)
    (h : litMatch cn u (w ++ d :: z) = some r) : ∃ c r1, r = c :: r1 ∧ c ∉ markupChars := by
  rcases litMatch_app cn (d :: z) r u w h with ⟨w1, w2, e1, e2, e3⟩ | ⟨l1, l2, e1, e2, _, e4⟩
  · cases w2 with
    | nil =>
      exfalso
      apply hne
      rw [e1, List.append_nil, e2]
    | cons c w3 =>
      exact ⟨c, w3 ++ d :: z, by rw [e3]; rfl, hw c (by rw [e1]; simp)⟩
  · exfalso
    obtain ⟨a2, l3, rfl⟩ := List.exists_cons_of_ne_nil e2
    have hc := litMatch_cons_some cn a2 l3 d z r e4
    have := sep_markup cn hs d a2 (close_sub_markup d hd) hc
    subst this
    exact hu a2 (by rw [e1]; simp) (close_sub_markup a2 hd)

theorem slotSafe_of_clean : ∀ (u : Str), (∀ c ∈ u, c ∉ markupChars) → SlotSafe u
  | [], _ => trivial
  | [_], _ => trivial
  | a :: b :: l, h =>
    ⟨fun ho => h a (List.mem_cons_self _ _) (open_sub_markup a ho),
      slotSafe_of_clean (b :: l) (fun c hc => h c (List.mem_cons_of_mem _ hc))⟩

theorem run_key_lift {α : Type} (f : Bool → Str → Str) (cn : Char → Char) (hs : CanonSep cn)
    (u : Str) (hu : ∀ c ∈ u, c ∉ markupChars) (m : List Item) (b : Bool) (hw : WF f cn u b m)
    (c : Caps) (k : Str → Caps → Option α)
    (hk : ∀ ch r, ch ∉ markupChars → k (ch :: r) c = none) :
    (Re.lit u).run cn (proj f m) c k
      = match stripLit cn u m with
        | some m1 => k (proj f m1) c
        | none => none := by
  cases hh : slotHead m with
  | false => exact run_lit_lift f cn hs u u m b (slotSafe_of_clean u hu) hw (Or.inl hh) c k
  | true =>
    cases m with
    | nil => simp [slotHead] at hh
    | cons it t =>
      cases it with
      | ch c0 => simp [slotHead] at hh
      | slot k0 x =>
        cases u with
        | nil => simp [Re.run, litMatch, stripLit]
        | cons a u1 =>
          obtain ⟨_, hword, hne, ⟨d, t1, rfl, hd⟩, _⟩ := hw
          simp only [stripLit, Re.run, proj]
          cases hm : litMatch cn (a :: u1) (f k0 x ++ d :: proj f t1) with
          | none => rfl
          | some r =>
            obtain ⟨ch, r1, rfl, hch⟩ :=
              key_at_slot cn hs (a :: u1) (f k0 x) (proj f t1) r d hu hword.2.1 hne hd hm
            exact hk ch r1 hch

/-! ### Quantifiers on marked texts -/

theorem splitAtChar_some (d : Char) :
    ∀ (m seg m2 : List Item), splitAtChar d m = some (seg, m2) → m = seg ++ .ch d :: m2
  | [], _, _, h => by simp [splitAtChar] at h
  | .ch c :: m, seg, m2, h => by
    simp only [splitAtChar] at h
    split at h
    · next hc =>
      simp only [Option.some.injEq, Prod.mk.injEq] at h
      rw [← h.1, ← h.2, hc]
      rfl
    · cases hr : splitAtChar d m with
      | none => rw [hr] at h; cases h
      | some r =>
        rw [hr] at h
        simp only [Option.some.injEq, Prod.mk.injEq] at h
        have := splitAtChar_some d m r.1 r.2 hr
        rw [← h.1, ← h.2, List.cons_append, ← this]
  | .slot k x :: m, seg, m2, h => by
    simp only [splitAtChar] at h
    cases hr : splitAtChar d m with
    | none => rw [hr] at h; cases h
    | some r =>
      rw [hr] at h
      simp only [Option.some.injEq, Prod.mk.injEq] at h
      have := splitAtChar_some d m r.1 r.2 hr
      rw [← h.1, ← h.2, List.cons_append, ← this]

theorem split_proj (f : Bool → Str → Str) (cn : Char → Char) (u : Str) (d : Char)
    (hd : d ∈ markupChars) :
    ∀ (m : List Item) (b : Bool), WF f cn u b m →
      match splitAtChar d m with
      | some r => proj f m = proj f r.1 ++ d :: proj f r.2 ∧ d ∉ proj f r.1
      | none => d ∉ proj f m
  | [], _, _ => by simp [splitAtChar, proj]
  | .ch c :: m, b, hw => by
    have ih := split_proj f cn u d hd m _ hw
    simp only [splitAtChar]
    by_cases hc : c = d
    · rw [if_pos hc]
      simp [proj, hc]
    · rw [if_neg hc]
      cases hr : splitAtChar d m with
      | none =>
        rw [hr] at ih
        simp only [proj, List.mem_cons, not_or]
        exact ⟨fun e => hc e.symm, ih⟩
      | some r =>
        rw [hr] at ih
        simp only [proj, List.cons_append, List.mem_cons, not_or]
        exact ⟨by rw [ih.1], fun e => hc e.symm, ih.2⟩
  | .slot k x :: m, b, hw => by
    have ih := split_proj f cn u d hd m _ hw.2.2.2.2
    have hx : d ∉ f k x := fun hm => hw.2.1.2.1 d hm hd
    simp only [splitAtChar]
    cases hr : splitAtChar d m with
    | none =>
      rw [hr] at ih
      simp only [proj, List.mem_append, not_or]
      exact ⟨hx, ih⟩
    | some r =>
      rw [hr] at ih
      simp only [proj, List.mem_append, not_or, List.append_assoc]
      exact ⟨by rw [ih.1], hx, ih.2⟩

theorem starGo_stop {α : Type} (p : Char → Bool) (K : Str → Option α)
    (hK : ∀ y r, p y = true → K (y :: r) = none) (hnil : K [] = none) (rest : Str)
    (hrest : ∀ y r, rest = y :: r → p y = false) :
    ∀ (x : Str), (∀ c ∈ x, p c = true) → starGo p (x ++ rest) K = K rest
  | [], _ => by
    cases rest with
    | nil => rfl
    | cons y r => simp [starGo, hrest y r rfl]
  | c :: x, h => by
    have ih := starGo_stop p K hK hnil rest hrest x (fun a ha => h a (List.mem_cons_of_mem _ ha))
    have hc := h c (List.mem_cons_self _ _)
    rw [List.cons_append, starGo, if_pos hc, ih]
    cases hr : K rest with
    | some v => rfl
    | none => exact hK c _ hc

theorem star_stop_lift {α : Type} (f : Bool → Str → Str) (cn : Char → Char) (hs : CanonSep cn)
    (u : Str) (d : Char) (hd : d ∈ markupChars) (m : List Item) (b : Bool)
    (hw : WF f cn u b m) (K : Str → Option α) (hK : ∀ y r, y ≠ d → K (y :: r) = none)
    (hnil : K [] = none) :
    starGo (classMatch cn true [d]) (proj f m) K
      = match splitAtChar d m with
        | some r => K (d :: proj f r.2)
        | none => none := by
  have hK2 : ∀ y r, classMatch cn true [d] y = true → K (y :: r) = none := fun y r hy =>
    hK y r ((classMatch_neg_iff cn hs d y hd).mp hy)
  have hsp := split_proj f cn u d hd m b hw
  cases hr : splitAtChar d m with
  | none =>
    rw [hr] at hsp
    have := starGo_stop (classMatch cn true [d]) K hK2 hnil [] (by simp) (proj f m)
      (fun c hc => (classMatch_neg_iff cn hs d c hd).mpr (fun e => hsp (e ▸ hc)))
    rw [List.append_nil] at this
    rw [this, hnil]
  | some r =>
    rw [hr] at hsp
    simp only
    rw [hsp.1]
    refine starGo_stop (classMatch cn true [d]) K hK2 hnil (d :: proj f r.2) ?_ (proj f r.1)
      (fun c hc => (classMatch_neg_iff cn hs d c hd).mpr (fun e => hsp.2 (e ▸ hc)))
    intro y r1 e
    simp only [List.cons.injEq] at e
    rw [← e.1]
    cases hcm : classMatch cn true [d] d with
    | false => rfl
    | true => exact absurd rfl ((classMatch_neg_iff cn hs d d hd).mp hcm)

theorem starGo_through_word {α : Type} (p : Char → Bool) (K : Str → Option α) (z : Str)
    (d : Char) (w : Str) (hp : ∀ c ∈ w, p c = true)
    (hK : ∀ w1 w2, w = w1 ++ w2 → w2 ≠ [] → K (w2 ++ d :: z) = none) :
    ∀ (w2 : Str), (∃ w1, w = w1 ++ w2) → starGo p (w2 ++ d :: z) K = starGo p (d :: z) K
  | [], _ => rfl
  | c :: w2, ⟨w1, e⟩ => by
    have hc : p c = true := hp c (by rw [e]; simp)
    have ih := starGo_through_word p K z d w hp hK w2 ⟨w1 ++ [c], by rw [e]; simp⟩
    rw [List.cons_append, starGo, if_pos hc, ih]
    cases starGo p (d :: z) K with
    | some v => rfl
    | none => exact hK w1 (c :: w2) e (by simp)

theorem star_items_lift {α : Type} (f : Bool → Str → Str) (cn : Char → Char)
    (hs : CanonSep cn) (u : Str) (d0 : Char) (hd0 : d0 ∈ markupChars) (K : Str → Option α)
    (hK : ∀ w z d, w ≠ [] → (∀ c ∈ w, c ∉ markupChars) → ¬ srcEq.map cn <:+: w.map cn →
      d ∈ closeChars → K (w ++ d :: z) = none) :
    ∀ (m : List Item) (b : Bool), WF f cn u b m →
      starGo (classMatch cn true [d0]) (proj f m) K
        = starItems (classMatch cn true [d0]) m (fun m1 => K (proj f m1))
  | [], _, _ => rfl
  | .ch c :: m, b, hw => by
    have ih := star_items_lift f cn hs u d0 hd0 K hK m _ hw
    show starGo _ (c :: proj f m) K = _
    rw [starGo, starItems, ih]
    rfl
  | .slot k x :: m, b, hw => by
    obtain ⟨_, hword, _, ⟨d, m1, rfl, hd⟩, hw2⟩ := hw
    have ih := star_items_lift f cn hs u d0 hd0 K hK (.ch d :: m1) _ hw2
    rw [starItems, ← ih]
    show starGo _ (f k x ++ d :: proj f m1) K = starGo _ (d :: proj f m1) K
    refine starGo_through_word _ K (proj f m1) d (f k x) ?_ ?_ (f k x) ⟨[], rfl⟩
    · intro c hc
      rw [classMatch_neg_iff cn hs d0 c hd0]
      rintro rfl
      exact hword.2.1 _ hc hd0
    · intro w1 w2 e hne
      refine hK w2 (proj f m1) d hne (fun c hc => hword.2.1 c (by rw [e]; simp [hc])) ?_ hd
      intro hin
      apply hword.2.2
      rw [e, List.map_append]
      exact hin.trans (List.suffix_append _ _).isInfix

theorem run_cls_lift {α : Type} (f : Bool → Str → Str) (cn : Char → Char) (hs : CanonSep cn)
    (m : List Item) (hh : slotHead m = false) (c : Caps) (k : Str → Caps → Option α) :
    (Re.cls false ['"', aposChar]).run cn (proj f m) c k
      = match m with
        | .ch c0 :: t => if c0 = '"' ∨ c0 = aposChar then k (proj f t) c else none
        | _ => none := by
  cases m with
  | nil => rfl
  | cons it t =>
    cases it with
    | slot k0 x => simp [slotHead] at hh
    | ch c0 =>
      simp only [proj, Re.run]
      by_cases hq : c0 = '"' ∨ c0 = aposChar
      · rw [if_pos hq, if_pos ((classMatch_pos_iff cn hs _ _ c0 (by decide) (by decide)).mpr hq)]
      · rw [if_neg hq, if_neg (fun h =>
          hq ((classMatch_pos_iff cn hs _ _ c0 (by decide) (by decide)).mp h))]

/-! ### The markdown pattern on marked texts -/

theorem take_capture (x y : Str) : (x ++ y).take ((x ++ y).length - y.length) = x := by
  rw [List.length_append, Nat.add_sub_cancel, List.take_left]

theorem stripLit_head (f : Bool → Str → Str) (cn : Char → Char) (hs : CanonSep cn) (u : Str) :
    ∀ (l : Str) (m m1 : List Item) (b : Bool), WF f cn u b m → l ≠ [] →
      (∀ a ∈ l, a ∉ openChars) → stripLit cn l m = some m1 → slotHead m1 = false
  | [], _, _, _, _, h, _, _ => absurd rfl h
  | a :: l, [], _, _, _, _, _, h => by simp [stripLit] at h
  | a :: l, .slot k x :: m, _, _, _, _, _, h => by simp [stripLit] at h
  | a :: l, .ch c :: m, m1, b, hw, _, hl, h => by
    simp only [stripLit] at h
    split at h
    · next hc =>
      cases l with
      | nil =>
        simp only [stripLit, Option.some.injEq] at h
        subst h
        cases m with
        | nil => rfl
        | cons it t =>
          cases it with
          | ch c2 => rfl
          | slot k x =>
            exfalso
            have hopen : c ∈ openChars := by simpa using hw.1
            have := sep_markup cn hs c a (open_sub_markup c hopen) hc
            exact hl a (List.mem_cons_self _ _) (this ▸ hopen)
      | cons a2 l2 =>
        exact stripLit_head f cn hs u (a2 :: l2) m m1 _ hw (by simp)
          (fun x hx => hl x (List.mem_cons_of_mem _ hx)) h
    · cases h

theorem WF_of_stripLit (f : Bool → Str → Str) (cn : Char → Char) (u : Str) (l : Str)
    (m m1 : List Item) (b : Bool) (hw : WF f cn u b m) (h : stripLit cn l m = some m1) :
    ∃ b1, WF f cn u b1 m1 := by
  obtain ⟨l1, e, _⟩ := stripLit_some cn l m m1 h
  rw [e] at hw
  exact WF_tail f cn u _ _ _ hw

theorem WF_of_split (f : Bool → Str → Str) (cn : Char → Char) (u : Str) (d : Char)
    (m : List Item) (r : List Item × List Item) (b : Bool) (hw : WF f cn u b m)
    (h : splitAtChar d m = some r) : ∃ b1, WF f cn u b1 (.ch d :: r.2) := by
  have e := splitAtChar_some d m r.1 r.2 h
  rw [e] at hw
  exact WF_tail f cn u _ _ _ hw

theorem md_lift (f : Bool → Str → Str) (u : Str) (hu : ∀ c ∈ u, c ∉ markupChars) (hne : u ≠ [])
    (m : List Item) (b : Bool) (hw : WF f id u b m) (hh : slotHead m = false) :
    (markdownImgRegex (escapeRegExp u)).matchAt id (proj f m)
      = (siteMd u m).map (fun s => (proj f s.rest, s.caps f)) := by
  simp only [markdownImgRegex, Re.cat, patternChars_escapeRegExp, Re.matchAt]
  unfold siteMd
  rw [run_seq, run_lit_lift f id canonSep_id u _ m b (by simp [SlotSafe, openChars, aposChar]) hw (Or.inl hh)]
  cases h1 : stripLit id "![".toList m with
  | none => rfl
  | some m1 =>
    obtain ⟨b1, hw1⟩ := WF_of_stripLit f id u _ m m1 b hw h1
    simp only
    rw [run_seq, Re.run, Re.run]
    rw [star_stop_lift f id canonSep_id u ']' (by decide) m1 b1 hw1]
    · have hsp := split_proj f id u ']' (by decide) m1 b1 hw1
      cases h2 : splitAtChar ']' m1 with
      | none => rfl
      | some r =>
        rw [h2] at hsp
        obtain ⟨b2, hw2⟩ := WF_of_split f id u ']' m1 r b1 hw1 h2
        simp only
        rw [hsp.1, take_capture]
        have e2 : (']' :: proj f r.2) = proj f (.ch ']' :: r.2) := rfl
        rw [e2, run_seq, run_lit_lift f id canonSep_id u _ _ b2 (by simp [SlotSafe, openChars, aposChar])
          hw2 (Or.inl rfl)]
        have e3 : stripLit id "](".toList (.ch ']' :: r.2) = stripLit id "(".toList r.2 := by
          simp [stripLit]
        rw [e3]
        cases h3 : stripLit id "(".toList r.2 with
        | none => rfl
        | some m3 =>
          have hw3 : ∃ b3, WF f id u b3 m3 := WF_of_stripLit f id u _ r.2 m3 _ hw2 h3
          obtain ⟨b3, hw3⟩ := hw3
          simp only
          rw [run_seq, run_key_lift f id canonSep_id u hu m3 b3 hw3]
          · cases h4 : stripLit id u m3 with
            | none => rfl
            | some m4 =>
              obtain ⟨b4, hw4⟩ := WF_of_stripLit f id u _ m3 m4 b3 hw3 h4
              have hh4 := stripLit_head f id canonSep_id u u m3 m4 b3 hw3 hne
                (fun a ha ho => hu a ha (open_sub_markup a ho)) h4
              simp only
              rw [run_lit_lift f id canonSep_id u _ m4 b4 (by simp [SlotSafe]) hw4 (Or.inl hh4)]
              cases h5 : stripLit id ")".toList m4 with
              | none => rfl
              | some m5 => simp [Site.caps]
          · intro ch r1 hch
            have : litMatch id ")".toList (ch :: r1) = none := by
              have hne2 : ¬ ')' = ch := by
                rintro rfl
                exact hch (by decide)
              simp [litMatch, hne2]
            rw [Re.run, this]
    · intro y r1 hy
      have : litMatch id "](".toList (y :: r1) = none := by
        have hne2 : ¬ ']' = y := fun e => hy e.symm
        simp [litMatch, hne2]
      rw [run_seq, Re.run, this]
    · rw [run_seq, Re.run]
      rfl

/-! ### The scan on marked texts -/

theorem markGo_skip (site : List Item → Option Site) (own : Bool) (rest : List Item) :
    ∀ (w : List Item), markGo site own (w ++ rest) w.length = markGo site own rest 0
  | [] => rfl
  | a :: w => by
    rw [List.cons_append, List.length_cons, markGo, markGo_skip site own rest w]

theorem replaceGo_word {cn : Char → Char} {R : Re} {n : Nat} {tmpl : Str}
    {site : List Item → Option Site} {u p : Str} (spec : SiteSpec cn R n tmpl site u p)
    (d : Char) (z : Str) (hd : d ∈ closeChars) :
    ∀ (w2 w1 before : Str), WordOk cn (w1 ++ w2) →
      replaceGo cn R n tmpl before (w2 ++ d :: z) 0
        = w2 ++ replaceGo cn R n tmpl (w2.reverse ++ before) (d :: z) 0
  | [], _, _, _ => rfl
  | c :: w2, w1, before, hw => by
    have hm : R.matchAt cn (c :: (w2 ++ d :: z)) = none :=
      spec.inslot w1 (c :: w2) z d (by simp) hw hd
    rw [List.cons_append, replaceGo_miss cn R n tmpl before c _ hm]
    have hw2 : WordOk cn ((w1 ++ [c]) ++ w2) := by simpa using hw
    rw [replaceGo_word spec d z hd w2 (w1 ++ [c]) (c :: before) hw2]
    simp

theorem site_cons {cn : Char → Char} {R : Re} {n : Nat} {tmpl : Str}
    {site : List Item → Option Site} {u p : Str} (spec : SiteSpec cn R n tmpl site u p)
    (it : Item) (t : List Item) (s : Site) (h : site (it :: t) = some s) :
    ∃ mt, s.pre ++ (plainItems s.url ++ s.post) = it :: mt ∧ t = mt ++ s.rest := by
  obtain ⟨e, _, ⟨l, o, hpre, _⟩, _⟩ := spec.shape _ s h
  cases hp : s.pre with
  | nil => rw [hpre] at hp; simp at hp
  | cons i0 pre1 =>
    rw [hp] at e
    simp only [List.cons_append, List.cons.injEq] at e
    refine ⟨pre1 ++ (plainItems s.url ++ s.post), ?_, ?_⟩
    · rw [e.1]; rfl
    · rw [e.2]; simp

theorem proj_cons_ch (f : Bool → Str → Str) (c : Char) (m : List Item) :
    proj f (.ch c :: m) = c :: proj f m := rfl

theorem proj_cons_slot (f : Bool → Str → Str) (k : Bool) (x : Str) (m : List Item) :
    proj f (.slot k x :: m) = f k x ++ proj f m := rfl

theorem scan_lift {cn : Char → Char} {R : Re} {n : Nat} {tmpl : Str}
    {site : List Item → Option Site} {u p : Str} (spec : SiteSpec cn R n tmpl site u p)
    (own : Bool) (f : Bool → Str → Str) (hf : ∀ x, f own x = p) :
    ∀ (k : Nat) (m : List Item) (b : Bool) (before : Str), m.length ≤ k → WF f cn u b m →
      replaceGo cn R n tmpl before (proj f m) 0 = proj f (markGo site own m 0)
  | _, [], _, _, _, _ => rfl
  | 0, _ :: _, _, _, hk, _ => by simp at hk
  | k + 1, .slot k0 x :: t, b, before, hk, hw => by
    obtain ⟨_, hword, _, ⟨d, t1, ht, hd⟩, hw2⟩ := hw
    have hk2 : t.length ≤ k := by simpa using hk
    have ih := scan_lift spec own f hf k t false ((f k0 x).reverse ++ before) hk2 hw2
    rw [markGo, proj_cons_slot, proj_cons_slot, ← ih]
    subst ht
    rw [proj_cons_ch]
    exact replaceGo_word spec d _ hd (f k0 x) [] before (by simpa using hword)
  | k + 1, .ch c :: t, b, before, hk, hw => by
    have hk2 : t.length ≤ k := by simpa using hk
    have hl := spec.lift f (.ch c :: t) b hw rfl
    rw [markGo]
    cases hs : site (.ch c :: t) with
    | none =>
      rw [hs] at hl
      have ih := scan_lift spec own f hf k t _ (c :: before) hk2 hw
      simp only
      rw [proj_cons_ch, proj_cons_ch, replaceGo_miss cn R n tmpl before c _ hl, ih]
    | some s =>
      rw [hs] at hl
      obtain ⟨mt, e1, e2⟩ := site_cons spec _ t s hs
      have hw3 : ∃ b3, WF f cn u b3 s.rest := by
        have := hw
        rw [e2, ← List.cons_append] at this
        exact WF_tail f cn u _ _ _ this
      obtain ⟨b3, hw3⟩ := hw3
      have hk3 : s.rest.length ≤ k := by
        have : s.rest.length ≤ t.length := by rw [e2]; simp
        omega
      have ih := scan_lift spec own f hf k s.rest b3
        ((c :: proj f mt).reverse ++ before) hk3 hw3
      simp only
      have e3 : t.length - s.rest.length = mt.length := by rw [e2]; simp
      rw [e3]
      have e4 : markGo site own t mt.length = markGo site own s.rest 0 := by
        rw [e2]
        generalize s.rest = r
        exact markGo_skip site own r mt
      rw [e4]
      have e5 : proj f (.ch c :: t) = c :: proj f mt ++ proj f s.rest := by
        rw [e2, proj_cons_ch, proj_append]
        rfl
      rw [e5] at hl ⊢
      simp only [Option.map_some'] at hl
      rw [replaceGo_hit cn R n tmpl before c (proj f mt) (proj f s.rest) _ hl, ih,
        spec.subst f _ s _ _ _ hs]
      simp only [proj_append, proj_cons_slot, hf, List.append_assoc]

theorem proj_plain_id (g : Bool → Str → Str) (own : Bool) (hg : ∀ x, g own x = x) (x : Str) :
    proj g [.slot own x] = proj g (plainItems x) := by
  rw [proj_plainItems]
  simp [proj, hg]

theorem mark_proj {cn : Char → Char} {R : Re} {n : Nat} {tmpl : Str}
    {site : List Item → Option Site} {u p : Str} (spec : SiteSpec cn R n tmpl site u p)
    (own : Bool) (g : Bool → Str → Str) (hg : ∀ x, g own x = x) :
    ∀ (m : List Item) (skip : Nat), proj g (markGo site own m skip) = proj g (m.drop skip)
  | [], _ => by simp [markGo]
  | _ :: t, skip + 1 => by
    rw [markGo, List.drop_succ_cons]
    exact mark_proj spec own g hg t skip
  | .slot k x :: t, 0 => by
    rw [markGo, List.drop_zero, proj_cons_slot, proj_cons_slot, mark_proj spec own g hg t 0,
      List.drop_zero]
  | .ch c :: t, 0 => by
    rw [markGo, List.drop_zero]
    cases hs : site (.ch c :: t) with
    | none =>
      simp only
      rw [proj_cons_ch, proj_cons_ch, mark_proj spec own g hg t 0, List.drop_zero]
    | some s =>
      obtain ⟨mt, e1, e2⟩ := site_cons spec _ t s hs
      have e := (spec.shape _ s hs).1
      have ih := mark_proj spec own g hg t (t.length - s.rest.length)
      have e3 : t.drop (t.length - s.rest.length) = s.rest := by
        have : t.length - s.rest.length = mt.length := by rw [e2]; simp
        rw [this]
        conv_lhs => rw [e2]
        exact List.drop_left _ _
      rw [e3] at ih
      simp only
      conv_rhs => rw [e]
      simp only [proj_append, proj_cons_slot, proj_plainItems, hg, List.append_assoc, ih]

theorem mark_mem {cn : Char → Char} {R : Re} {n : Nat} {tmpl : Str}
    {site : List Item → Option Site} {u p : Str} (spec : SiteSpec cn R n tmpl site u p)
    (own : Bool) (it : Item) :
    ∀ (m : List Item) (skip : Nat), it ∈ markGo site own m skip →
      it ∈ m ∨ ∃ x, it = .slot own x ∧ x.map cn = u.map cn
  | [], _, h => by simp [markGo] at h
  | _ :: t, skip + 1, h => by
    rw [markGo] at h
    rcases mark_mem spec own it t skip h with h1 | h1
    · exact Or.inl (List.mem_cons_of_mem _ h1)
    · exact Or.inr h1
  | .slot k x :: t, 0, h => by
    rw [markGo] at h
    rcases List.mem_cons.mp h with h1 | h1
    · exact Or.inl (h1 ▸ List.mem_cons_self _ _)
    · rcases mark_mem spec own it t 0 h1 with h2 | h2
      · exact Or.inl (List.mem_cons_of_mem _ h2)
      · exact Or.inr h2
  | .ch c :: t, 0, h => by
    rw [markGo] at h
    cases hs : site (.ch c :: t) with
    | none =>
      rw [hs] at h
      rcases List.mem_cons.mp h with h1 | h1
      · exact Or.inl (h1 ▸ List.mem_cons_self _ _)
      · rcases mark_mem spec own it t 0 h1 with h2 | h2
        · exact Or.inl (List.mem_cons_of_mem _ h2)
        · exact Or.inr h2
    | some s =>
      rw [hs] at h
      obtain ⟨e, hu, _, _⟩ := spec.shape _ s hs
      simp only [List.mem_append, List.mem_cons] at h
      rcases h with h1 | h1 | h1 | h1
      · left; rw [e]; simp [h1]
      · right; exact ⟨s.url, h1, hu⟩
      · left; rw [e]; simp [h1]
      · rcases mark_mem spec own it t _ h1 with h2 | h2
        · exact Or.inl (List.mem_cons_of_mem _ h2)
        · exact Or.inr h2

theorem WF_plain_append (f : Bool → Str → Str) (cn : Char → Char) (u : Str) (t : List Item)
    (ht : ∀ b, WF f cn u b t) : ∀ (l : List Item) (b : Bool), (∀ it ∈ l, ∃ c, it = .ch c) →
      WF f cn u b (l ++ t)
  | [], b, _ => ht b
  | it :: l, b, h => by
    obtain ⟨c, rfl⟩ := h it (List.mem_cons_self _ _)
    exact WF_plain_append f cn u t ht l _ (fun i hi => h i (List.mem_cons_of_mem _ hi))

theorem mark_WF {cn : Char → Char} {R : Re} {n : Nat} {tmpl : Str}
    {site : List Item → Option Site} {u p : Str} (spec : SiteSpec cn R n tmpl site u p)
    (own : Bool) (f : Bool → Str → Str) (cn2 : Char → Char) (u2 : Str)
    (hf : ∀ x, x.map cn = u.map cn → WordOk cn2 (f own x) ∧ (f own x).map cn2 ≠ u2.map cn2) :
    ∀ (w : Str) (skip : Nat) (b : Bool), WF f cn2 u2 b (markGo site own (plainItems w) skip)
  | [], _, _ => by simp [plainItems, markGo, WF]
  | _ :: t, skip + 1, b => by
    show WF f cn2 u2 b (markGo site own (_ :: plainItems t) (skip + 1))
    rw [markGo]
    exact mark_WF spec own f cn2 u2 hf t skip b
  | c :: t, 0, b => by
    show WF f cn2 u2 b (markGo site own (.ch c :: plainItems t) 0)
    rw [markGo]
    cases hs : site (.ch c :: plainItems t) with
    | none => exact mark_WF spec own f cn2 u2 hf t 0 _
    | some s =>
      obtain ⟨e, hu, ⟨l, o, hpre, ho⟩, ⟨d, l2, hpost, hd⟩⟩ := spec.shape _ s hs
      have hplain : ∀ it ∈ s.pre ++ (plainItems s.url ++ (s.post ++ s.rest)), ∃ c, it = .ch c := by
        rw [← e]
        intro it hit
        rcases List.mem_cons.mp hit with h1 | h1
        · exact ⟨c, h1⟩
        · obtain ⟨c2, _, hc2⟩ := List.mem_map.mp h1
          exact ⟨c2, hc2.symm⟩
      simp only
      rw [hpre, List.append_assoc]
      apply WF_plain_append
      · intro b2
        show WF f cn2 u2 (decide (o ∈ openChars)) (Item.slot own s.url :: _)
        refine ⟨by simpa using ho, (hf _ hu).1, (hf _ hu).2, ⟨d, l2 ++ _, by rw [hpost]; rfl, hd⟩, ?_⟩
        apply WF_plain_append
        · intro b3
          exact mark_WF spec own f cn2 u2 hf t _ b3
        · intro it hit
          exact hplain it (by simp [List.mem_append, hit])
      · intro it hit
        exact hplain it (by rw [hpre]; simp [List.mem_append] at hit ⊢; tauto)

theorem lifted_of_spec {cn : Char → Char} {R : Re} {n : Nat} {tmpl : Str}
    {site : List Item → Option Site} {u p : Str} (spec : SiteSpec cn R n tmpl site u p)
    (own : Bool) :
    Lifted cn own u p (replaceAll cn R n tmpl) (fun m => markGo site own m 0) where
  run := fun f m b hf hw => scan_lift spec own f hf m.length m b [] (Nat.le_refl _) hw
  orig := fun g m hg => by
    have := mark_proj spec own g hg m 0
    rwa [List.drop_zero] at this
  mem := fun it m h => mark_mem spec own it m 0 h
  wf := fun f cn2 u2 w b hf => mark_WF spec own f cn2 u2 hf w 0 b

/-! ### Unique reading of a marked text -/

theorem unique_parse (a b p q : Str) (hp : ∃ t, p = '/' :: t) (hq : ∃ t, q = '/' :: t) :
    ∀ (m m2 : List Item), Shaped a b m → Shaped a b m2 →
      proj (fill none none) m = proj (fill none none) m2 →
      proj (fill (some p) none) m = proj (fill (some p) none) m2 →
      proj (fill none (some q)) m = proj (fill none (some q)) m2 → m = m2 := by
  obtain ⟨pt, rfl⟩ := hp
  obtain ⟨qt, rfl⟩ := hq
  intro m
  induction m with
  | nil =>
    intro m2 _ h2 e1 _ _
    cases m2 with
    | nil => rfl
    | cons it t =>
      cases it with
      | ch c => simp [proj] at e1
      | slot k x =>
        obtain ⟨_, c, t2, hx, _⟩ := h2 k x (List.mem_cons_self _ _)
        subst hx
        cases k <;> simp [proj, fill] at e1
  | cons it t ih =>
    intro m2 h1 h2 e1 e2 e3
    have h1t : Shaped a b t := fun k x hx => h1 k x (List.mem_cons_of_mem _ hx)
    cases m2 with
    | nil =>
      cases it with
      | ch c => simp [proj] at e1
      | slot k x =>
        obtain ⟨_, c, t2, hx, _⟩ := h1 k x (List.mem_cons_self _ _)
        subst hx
        cases k <;> simp [proj, fill] at e1
    | cons it2 t2 =>
      have h2t : Shaped a b t2 := fun k x hx => h2 k x (List.mem_cons_of_mem _ hx)
      cases it with
      | ch c =>
        cases it2 with
        | ch c2 =>
          simp only [proj, List.cons.injEq] at e1 e2 e3
          rw [e1.1, ih t2 h1t h2t e1.2 e2.2 e3.2]
        | slot k x =>
          exfalso
          obtain ⟨_, c0, x0, hx, hc0⟩ := h2 k x (List.mem_cons_self _ _)
          subst hx
          cases k
          · simp only [proj, fill, Option.getD_none, Option.getD_some, List.cons_append,
              List.cons.injEq] at e1 e3
            exact hc0 (e1.1.symm.trans e3.1)
          · simp only [proj, fill, Option.getD_none, Option.getD_some, List.cons_append,
              List.cons.injEq] at e1 e2
            exact hc0 (e1.1.symm.trans e2.1)
      | slot k x =>
        obtain ⟨hlen, c0, x0, hx, hc0⟩ := h1 k x (List.mem_cons_self _ _)
        cases it2 with
        | ch c2 =>
          exfalso
          subst hx
          cases k
          · simp only [proj, fill, Option.getD_none, Option.getD_some, List.cons_append,
              List.cons.injEq] at e1 e3
            exact hc0 (e1.1.trans e3.1.symm)
          · simp only [proj, fill, Option.getD_none, Option.getD_some, List.cons_append,
              List.cons.injEq] at e1 e2
            exact hc0 (e1.1.trans e2.1.symm)
        | slot k2 x2 =>
          obtain ⟨hlen2, c2, y0, hx2, hc2⟩ := h2 k2 x2 (List.mem_cons_self _ _)
          cases k <;> cases k2
          · -- both of the second kind
            have hl : x.length = x2.length := by rw [hlen, hlen2]
            simp only [proj, fill, Option.getD_none, Option.getD_some] at e1 e2 e3
            obtain ⟨ex, et1⟩ := List.append_inj e1 hl
            obtain ⟨_, et2⟩ := List.append_inj e2 hl
            have et3 := List.append_cancel_left e3
            rw [ex, ih t2 h1t h2t et1 et2 et3]
          · exfalso
            subst hx hx2
            simp only [proj, fill, Option.getD_none, Option.getD_some, List.cons_append,
              List.cons.injEq] at e1 e2 e3
            exact hc0 e2.1
          · exfalso
            subst hx hx2
            simp only [proj, fill, Option.getD_none, Option.getD_some, List.cons_append,
              List.cons.injEq] at e1 e2 e3
            exact hc0 e3.1
          · have hl : x.length = x2.length := by rw [hlen, hlen2]
            simp only [proj, fill, Option.getD_none, Option.getD_some] at e1 e2 e3
            obtain ⟨ex, et1⟩ := List.append_inj e1 hl
            have et2 := List.append_cancel_left e2
            obtain ⟨_, et3⟩ := List.append_inj e3 hl
            rw [ex, ih t2 h1t h2t et1 et2 et3]

/-! ### Two replacements commute -/

theorem map_refines (c cn : Char → Char) (h : Refines c cn) :
    ∀ (x y : Str), x.map c = y.map c → x.map cn = y.map cn
  | [], [], _ => rfl
  | [], _ :: _, e => by simp at e
  | _ :: _, [], e => by simp at e
  | a :: x, b :: y, e => by
    simp only [List.map_cons, List.cons.injEq] at e ⊢
    exact ⟨h a b e.1, map_refines c cn h x y e.2⟩

theorem refines_id (cn : Char → Char) : Refines id cn := fun _ _ h => congrArg cn h

theorem refines_self (cn : Char → Char) : Refines cn cn := fun _ _ h => h

theorem wordOk_transfer (cn : Char → Char) (hs : CanonSep cn) (b x : Str) (hb : WordOk cn b)
    (e : x.map cn = b.map cn) : WordOk cn x := by
  obtain ⟨h1, h2, h3⟩ := hb
  refine ⟨?_, ?_, ?_⟩
  · rintro rfl
    cases b with
    | nil => exact h1 rfl
    | cons _ _ => simp at e
  · intro c hc hm
    have : cn c ∈ b.map cn := by rw [← e]; exact List.mem_map_of_mem _ hc
    obtain ⟨c2, hc2, hcc⟩ := List.mem_map.mp this
    have := sep_markup cn hs c c2 hm hcc
    subst this
    exact h2 _ hc2 hm
  · rw [e]
    exact h3

theorem wordOk_refines (c2 cn : Char → Char) (h : Refines c2 cn) (x : Str) (hx : WordOk cn x) :
    WordOk c2 x := by
  obtain ⟨h1, h2, h3⟩ := hx
  refine ⟨h1, h2, ?_⟩
  rintro ⟨s1, t1, e⟩
  apply h3
  obtain ⟨l12, l3, e1, e2, _⟩ := List.map_eq_append_iff.mp e.symm
  obtain ⟨l1, l2, e3, _, e5⟩ := List.map_eq_append_iff.mp e2
  refine ⟨l1.map cn, l3.map cn, ?_⟩
  rw [e1, e3, List.map_append, List.map_append, map_refines c2 cn h _ _ e5]

theorem slot_facts (cn c1 c2 : Char → Char) (h1 : Refines c1 cn) (h2 : Refines c2 cn)
    (hs : CanonSep cn) (a b p q : Str) (ea : EntryOk cn a p) (eb : EntryOk cn b q)
    (hab : a.map cn ≠ b.map cn) (x : Str) (hx : x.map c1 = b.map c1) :
    (WordOk c2 x ∧ x.map c2 ≠ a.map c2) ∧ (WordOk c2 q ∧ q.map c2 ≠ a.map c2)
      ∧ x.length = b.length ∧ ∃ c t, x = c :: t ∧ c ≠ '/' := by
  have hx2 : x.map cn = b.map cn := map_refines c1 cn h1 _ _ hx
  have hsl : cn 'h' ≠ cn '/' := fun e => by
    have := hs '/' (List.mem_cons_self _ _) 'h' e
    exact absurd this (by decide)
  obtain ⟨at0, ha⟩ := ea.keyHead
  obtain ⟨bt0, hb⟩ := eb.keyHead
  obtain ⟨qt0, hq⟩ := eb.pathHead
  refine ⟨⟨wordOk_refines c2 cn h2 x (wordOk_transfer cn hs b x eb.key hx2), ?_⟩,
    ⟨wordOk_refines c2 cn h2 q eb.path, ?_⟩, ?_, ?_⟩
  · intro e
    exact hab ((map_refines c2 cn h2 _ _ e).symm.trans hx2)
  · intro e
    have := map_refines c2 cn h2 _ _ e
    rw [ha, hq] at this
    simp only [List.map_cons, List.cons.injEq] at this
    exact hsl this.1.symm
  · have := congrArg List.length hx2
    simpa using this
  · rw [hb] at hx2
    cases x with
    | nil => simp at hx2
    | cons c t =>
      refine ⟨c, t, rfl, ?_⟩
      rintro rfl
      simp only [List.map_cons, List.cons.injEq] at hx2
      exact hsl hx2.1.symm

theorem proj_congr (f g : Bool → Str → Str) :
    ∀ (m : List Item), (∀ k x, Item.slot k x ∈ m → f k x = g k x) → proj f m = proj g m
  | [], _ => rfl
  | .ch c :: m, h => by
    rw [proj_cons_ch, proj_cons_ch,
      proj_congr f g m (fun k x hx => h k x (List.mem_cons_of_mem _ hx))]
  | .slot k x :: m, h => by
    rw [proj_cons_slot, proj_cons_slot, h k x (List.mem_cons_self _ _),
      proj_congr f g m (fun k x hx => h k x (List.mem_cons_of_mem _ hx))]

theorem WF_plain (f : Bool → Str → Str) (cn : Char → Char) (u : Str) (w : Str) (b : Bool) :
    WF f cn u b (plainItems w) := by
  have := WF_plain_append f cn u [] (fun _ => trivial) (plainItems w) b (fun it hit => by
    obtain ⟨c, _, hc⟩ := List.mem_map.mp hit
    exact ⟨c, hc.symm⟩)
  rwa [List.append_nil] at this

theorem plain_no_slot (w : Str) (k : Bool) (x : Str) : Item.slot k x ∉ plainItems w := by
  intro h
  obtain ⟨c, _, hc⟩ := List.mem_map.mp h
  cases hc

theorem ops_commute (cn cnF cnG : Char → Char) (hF : Refines cnF cn) (hG : Refines cnG cn)
    (hs : CanonSep cn) (a b p q : Str) (ea : EntryOk cn a p) (eb : EntryOk cn b q)
    (hab : a.map cn ≠ b.map cn) (F G : Str → Str) (markF markG : List Item → List Item)
    (LF : Lifted cnF true a p F markF) (LG : Lifted cnG false b q G markG) (s : Str) :
    F (G s) = G (F s) := by
  have fb := slot_facts cn cnG cnF hG hF hs a b p q ea eb hab
  have fa := slot_facts cn cnF cnG hF hG hs b a q p eb ea (Ne.symm hab)
  -- the sites of `G`, then those of `F`
  have hm2 : ∀ k x, Item.slot k x ∈ markG (plainItems s) → k = false ∧ x.map cnG = b.map cnG := by
    intro k x hx
    rcases LG.mem _ _ hx with h | ⟨y, hy, hy2⟩
    · exact absurd h (plain_no_slot s k x)
    · cases hy
      exact ⟨rfl, hy2⟩
  have hm1 : ∀ k x, Item.slot k x ∈ markF (plainItems s) → k = true ∧ x.map cnF = a.map cnF := by
    intro k x hx
    rcases LF.mem _ _ hx with h | ⟨y, hy, hy2⟩
    · exact absurd h (plain_no_slot s k x)
    · cases hy
      exact ⟨rfl, hy2⟩
  have wf2 : ∀ (pa pb : Option Str), (pb = none ∨ pb = some q) →
      WF (fill pa pb) cnF a false (markG (plainItems s)) := by
    intro pa pb hpb
    apply LG.wf
    intro x hx
    rcases hpb with rfl | rfl
    · exact (fb x hx).1
    · exact (fb x hx).2.1
  have wf1 : ∀ (pa pb : Option Str), (pa = none ∨ pa = some p) →
      WF (fill pa pb) cnG b false (markF (plainItems s)) := by
    intro pa pb hpa
    apply LF.wf
    intro x hx
    rcases hpa with rfl | rfl
    · exact (fa x hx).1
    · exact (fa x hx).2.1
  have pl : ∀ f, proj f (plainItems s) = s := fun f => proj_plainItems f s
  have Gs : ∀ pa, G s = proj (fill pa (some q)) (markG (plainItems s)) := by
    intro pa
    rw [← LG.run (fill pa (some q)) (plainItems s) false (fun _ => rfl) (WF_plain _ _ _ _ _), pl]
  have Fs : ∀ pb, F s = proj (fill (some p) pb) (markF (plainItems s)) := by
    intro pb
    rw [← LF.run (fill (some p) pb) (plainItems s) false (fun _ => rfl) (WF_plain _ _ _ _ _), pl]
  have s2 : ∀ pa, proj (fill pa none) (markG (plainItems s)) = s := by
    intro pa
    rw [LG.orig _ _ (fun _ => rfl), pl]
  have s1 : ∀ pb, proj (fill none pb) (markF (plainItems s)) = s := by
    intro pb
    rw [LF.orig _ _ (fun _ => rfl), pl]
  have FG : ∀ pb, (pb = none ∨ pb = some q) →
      F (proj (fill none pb) (markG (plainItems s)))
        = proj (fill (some p) pb) (markF (markG (plainItems s))) := by
    intro pb hpb
    rw [← LF.run (fill (some p) pb) _ false (fun _ => rfl) (wf2 _ _ hpb)]
    congr 1
    apply proj_congr
    intro k x hx
    rw [(hm2 k x hx).1]
    rfl
  have GF : ∀ pa, (pa = none ∨ pa = some p) →
      G (proj (fill pa none) (markF (plainItems s)))
        = proj (fill pa (some q)) (markG (markF (plainItems s))) := by
    intro pa hpa
    rw [← LG.run (fill pa (some q)) _ false (fun _ => rfl) (wf1 _ _ hpa)]
    congr 1
    apply proj_congr
    intro k x hx
    rw [(hm1 k x hx).1]
    rfl
  have sh2 : Shaped a b (markF (markG (plainItems s))) := by
    intro k x hx
    rcases LF.mem _ _ hx with h | ⟨y, hy, hy2⟩
    · obtain ⟨rfl, h2⟩ := hm2 k x h
      exact (fb x h2).2.2
    · cases hy
      exact (fa x hy2).2.2
  have sh1 : Shaped a b (markG (markF (plainItems s))) := by
    intro k x hx
    rcases LG.mem _ _ hx with h | ⟨y, hy, hy2⟩
    · obtain ⟨rfl, h2⟩ := hm1 k x h
      exact (fa x h2).2.2
    · cases hy
      exact (fb x hy2).2.2
  have key : markF (markG (plainItems s)) = markG (markF (plainItems s)) := by
    apply unique_parse a b p q ea.pathHead eb.pathHead _ _ sh2 sh1
    · rw [LF.orig _ _ (fun _ => rfl), s2, LG.orig _ _ (fun _ => rfl), s1]
    · rw [← FG none (Or.inl rfl), s2, LG.orig _ _ (fun _ => rfl), ← Fs]
    · rw [LF.orig _ _ (fun _ => rfl), ← Gs, ← GF none (Or.inl rfl), s1]
  rw [Gs none, FG (some q) (Or.inr rfl), Fs none, GF (some p) (Or.inr rfl), key]

/-! ### The three patterns as matchers of marked texts -/

theorem wordOk_suffix (cn : Char → Char) (w1 w2 : Str) (h : WordOk cn (w1 ++ w2)) :
    (∀ c ∈ w2, c ∉ markupChars) ∧ ¬ srcEq.map cn <:+: w2.map cn := by
  obtain ⟨_, h2, h3⟩ := h
  refine ⟨fun c hc => h2 c (List.mem_append_right _ hc), fun hi => h3 ?_⟩
  rw [List.map_append]
  exact hi.trans (List.suffix_append _ _).isInfix

theorem map_id_eq (x y : Str) (h : x.map id = y.map id) : x = y := by
  simpa using h

theorem siteMd_some (u : Str) (m : List Item) (s : Site) (h : siteMd u m = some s) :
    ∃ m1 r m3 m4 m5, stripLit id "![".toList m = some m1 ∧ splitAtChar ']' m1 = some r
      ∧ stripLit id "(".toList r.2 = some m3 ∧ stripLit id u m3 = some m4
      ∧ stripLit id ")".toList m4 = some m5
      ∧ s = { pre := .ch '!' :: .ch '[' :: (r.1 ++ [.ch ']', .ch '(']), url := u,
              post := [.ch ')'], groups := [(1, r.1)], rest := m5 } := by
  unfold siteMd at h
  split at h
  · cases h
  · next m1 h1 =>
    split at h
    · cases h
    · next r h2 =>
      split at h
      · cases h
      · next m3 h3 =>
        split at h
        · cases h
        · next m4 h4 =>
          split at h
          · cases h
          · next m5 h5 =>
            simp only [Option.some.injEq] at h
            exact ⟨m1, r, m3, m4, m5, h1, h2, h3, h4, h5, h.symm⟩

theorem plainItems_of_map_id (l1 l : Str) (e : l1.map id = l.map id) :
    plainItems l1 = plainItems l := by
  rw [map_id_eq _ _ e]

theorem md_spec (u p : Str) (hu : WordOk id u) (hp : '$' ∉ p) :
    SiteSpec id (markdownImgRegex (escapeRegExp u)) 1
      ("![$1](".toList ++ p ++ ")".toList) (siteMd u) u p where
  lift := fun f m b hw hh => md_lift f u hu.2.1 hu.1 m b hw hh
  subst := fun f m s ma be af hs => by
    obtain ⟨m1, r, m3, m4, m5, _, _, _, _, _, rfl⟩ := siteMd_some u m s hs
    rw [subst_md _ _ _ _ _ hp]
    simp [Site.caps, capture, List.lookup, proj_append, proj]
  inslot := fun w1 w2 z d hne hw hd => by
    obtain ⟨h1, h2⟩ := wordOk_suffix id w1 w2 hw
    simp only [markdownImgRegex, Re.cat, Re.matchAt]
    rw [run_seq, Re.run, inslot_lit_none id canonSep_id "![".toList w2 z d h1 h2 hd
      (by simp [closeChars, aposChar]) (Or.inl ⟨'[', by simp, by simp [markupChars]⟩)]
  shape := fun m s hs => by
    obtain ⟨m1, r, m3, m4, m5, h1, h2, h3, h4, h5, rfl⟩ := siteMd_some u m s hs
    obtain ⟨l1, e1, k1⟩ := stripLit_some id _ _ _ h1
    have e2 := splitAtChar_some ']' m1 r.1 r.2 h2
    obtain ⟨l3, e3, k3⟩ := stripLit_some id _ _ _ h3
    obtain ⟨l4, e4, k4⟩ := stripLit_some id _ _ _ h4
    obtain ⟨l5, e5, k5⟩ := stripLit_some id _ _ _ h5
    rw [map_id_eq _ _ k1] at e1
    rw [map_id_eq _ _ k3] at e3
    rw [map_id_eq _ _ k4] at e4
    rw [map_id_eq _ _ k5] at e5
    refine ⟨?_, rfl, ⟨.ch '!' :: .ch '[' :: (r.1 ++ [.ch ']']), '(', by simp, by simp [openChars]⟩,
      ⟨')', [], rfl, by simp [closeChars]⟩⟩
    rw [e1, e2, e3, e4, e5]
    simp [plainItems]

theorem litMatch_append_lit (cn : Char → Char) :
    ∀ (a b inp : Str), litMatch cn (a ++ b) inp = (litMatch cn a inp).bind (litMatch cn b)
  | [], b, inp => by simp [litMatch]
  | x :: a, b, [] => by simp [litMatch]
  | x :: a, b, ch :: inp => by
    rw [List.cons_append, litMatch, litMatch]
    split
    · exact litMatch_append_lit cn a b inp
    · rfl

theorem run_lit_lit {α : Type} (cn : Char → Char) (a b inp : Str) (c : Caps)
    (k : Str → Caps → Option α) :
    (Re.lit a).run cn inp c (fun rest c1 => (Re.lit b).run cn rest c1 k)
      = (Re.lit (a ++ b)).run cn inp c k := by
  rw [Re.run, Re.run, litMatch_append_lit]
  cases litMatch cn a inp with
  | none => rfl
  | some r => simp [Re.run]

theorem take_items (x y : List Item) : (x ++ y).take ((x ++ y).length - y.length) = x := by
  rw [List.length_append, Nat.add_sub_cancel, List.take_left]

theorem quoted_shape (cn : Char → Char) (hs : CanonSep cn) (u : Str) (m2 : List Item)
    (t : Char × Str × List Item) (h : quotedItems cn u m2 = some t) :
    m2 = .ch t.1 :: (plainItems t.2.1 ++ .ch t.1 :: t.2.2) ∧ t.2.1.map cn = u.map cn
      ∧ (t.1 = '"' ∨ t.1 = aposChar) := by
  cases m2 with
  | nil => simp [quotedItems] at h
  | cons it m3 =>
    cases it with
    | slot k x => simp [quotedItems] at h
    | ch q =>
      simp only [quotedItems] at h
      split at h
      · next hq =>
        split at h
        · cases h
        · next m4 h4 =>
          split at h
          · cases h
          · next m5 h5 =>
            simp only [Option.some.injEq] at h
            subst h
            obtain ⟨l1, e1, k1⟩ := stripLit_some cn _ _ _ h4
            obtain ⟨l2, e2, k2⟩ := stripLit_some cn _ _ _ h5
            have hl2 : l2 = [q] := by
              cases l2 with
              | nil => simp at k2
              | cons q2 l3 =>
                cases l3 with
                | nil =>
                  simp only [List.map_cons, List.map_nil, List.cons.injEq, and_true] at k2
                  have hqm : q ∈ markupChars := by
                    rcases hq with rfl | rfl <;> simp [markupChars]
                  rw [sep_markup cn hs q q2 hqm k2]
                | cons _ _ => simp at k2
            subst hl2
            refine ⟨?_, ?_, hq⟩
            · simp only
              rw [e1, take_items, proj_plainItems]
              conv_lhs => rw [e2]
              rfl
            · simp only
              rw [e1, take_items, proj_plainItems]
              exact k1
      · cases h

theorem quoted_lift {α : Type} (f : Bool → Str → Str) (cn : Char → Char) (hs : CanonSep cn)
    (u : Str) (hu : ∀ c ∈ u, c ∉ markupChars) (hne : u ≠ []) (m2 : List Item) (b : Bool)
    (hw : WF f cn u b m2) (hh : slotHead m2 = false) (c1 : Caps)
    (kX : Str → Caps → Option α) :
    (Re.group 2 (.cls false ['"', aposChar])).run cn (proj f m2) c1
        (fun r c => (Re.lit u).run cn r c (fun r2 c2 => (Re.backref 2).run cn r2 c2 kX))
      = match quotedItems cn u m2 with
        | some t => kX (proj f t.2.2) ((2, [t.1]) :: c1)
        | none => none := by
  rw [Re.run, run_cls_lift f cn hs m2 hh]
  cases m2 with
  | nil => rfl
  | cons it m3 =>
    cases it with
    | slot k x => simp [slotHead] at hh
    | ch q =>
      simp only [quotedItems]
      by_cases hq : q = '"' ∨ q = aposChar
      · rw [if_pos hq, if_pos hq]
        have hqm : q ∈ markupChars := by
          rcases hq with rfl | rfl <;> simp [markupChars]
        have hw3 : WF f cn u (decide (q ∈ openChars)) m3 := hw
        have ecap : (proj f (.ch q :: m3)).take
            ((proj f (.ch q :: m3)).length - (proj f m3).length) = [q] :=
          take_capture [q] (proj f m3)
        rw [ecap, run_key_lift f cn hs u hu m3 _ hw3]
        · cases h4 : stripLit cn u m3 with
          | none => rfl
          | some m4 =>
            obtain ⟨b4, hw4⟩ := WF_of_stripLit f cn u _ m3 m4 _ hw3 h4
            have hh4 := stripLit_head f cn hs u u m3 m4 _ hw3 hne
              (fun a ha ho => hu a ha (open_sub_markup a ho)) h4
            simp only
            have ecap2 : capture ((2, [q]) :: c1) 2 = [q] := by simp [capture, List.lookup]
            rw [Re.run, ecap2, lit_lift f cn hs u [q] m4 b4 trivial hw4 (Or.inl hh4)]
            cases stripLit cn [q] m4 with
            | none => rfl
            | some m5 => rfl
        · intro ch r hch
          have ecap2 : capture ((2, [q]) :: c1) 2 = [q] := by simp [capture, List.lookup]
          rw [Re.run, ecap2]
          have : litMatch cn [q] (ch :: r) = none := by
            rw [litMatch, if_neg]
            intro e
            have := sep_markup cn hs q ch hqm e.symm
            exact hch (this ▸ hqm)
          rw [this]
      · rw [if_neg hq, if_neg hq]

theorem vue_tail_lift (f : Bool → Str → Str) (cn : Char → Char) (hs : CanonSep cn)
    (u : Str) (hu : ∀ c ∈ u, c ∉ markupChars) (hne : u ≠ []) (m m2 : List Item) (l : Str)
    (hm : m = plainItems l ++ m2) (b2 : Bool) (hw2 : WF f cn u b2 m2)
    (hh2 : slotHead m2 = false) :
    (Re.seq (.group 2 (.cls false ['"', aposChar])) (.seq (.lit u) (.backref 2))).run cn
        (proj f m2) [(1, (proj f m).take ((proj f m).length - (proj f m2).length))]
        (fun rest c => some (rest, c))
      = (tailVue cn u m m2).map (fun s => (proj f s.rest, s.caps f)) := by
  have e := quoted_lift f cn hs u hu hne m2 b2 hw2 hh2
    [(1, (proj f m).take ((proj f m).length - (proj f m2).length))]
    (fun rest c => some (rest, c))
  rw [run_seq]
  refine e.trans ?_
  unfold tailVue
  cases quotedItems cn u m2 with
  | none => rfl
  | some t =>
    have e1 : (proj f m).take ((proj f m).length - (proj f m2).length) = l := by
      rw [hm, proj_append, proj_plainItems, take_capture]
    have e2 : m.take (m.length - m2.length) = plainItems l := by
      rw [hm, take_items]
    simp [Site.caps, e1, e2, proj_plainItems, proj]

theorem vue_branch_lift (f : Bool → Str → Str) (cn : Char → Char) (hs : CanonSep cn)
    (u : Str) (hu : ∀ c ∈ u, c ∉ markupChars) (hne : u ≠ []) (m : List Item) (b : Bool)
    (hw : WF f cn u b m) (hh : slotHead m = false) (a : Str) (hsafe : SlotSafe (a ++ "=".toList))
    (hopen : ∀ x ∈ a ++ "=".toList, x ∉ openChars) :
    (Re.lit a).run cn (proj f m) []
        (fun rest c1 => (Re.lit "=".toList).run cn rest c1
          (fun rest c1 => (Re.seq (.group 2 (.cls false ['"', aposChar]))
              (.seq (.lit u) (.backref 2))).run cn rest
            ((1, (proj f m).take ((proj f m).length - rest.length)) :: c1)
            (fun rest c => some (rest, c))))
      = match stripLit cn (a ++ "=".toList) m with
        | some m2 => (tailVue cn u m m2).map (fun s => (proj f s.rest, s.caps f))
        | none => none := by
  rw [run_lit_lit, run_lit_lift f cn hs u _ m b hsafe hw (Or.inl hh)]
  cases h2 : stripLit cn (a ++ "=".toList) m with
  | none => rfl
  | some m2 =>
    obtain ⟨b2, hw2⟩ := WF_of_stripLit f cn u _ m m2 b hw h2
    have hh2 := stripLit_head f cn hs u _ m m2 b hw (by simp) hopen h2
    obtain ⟨l, hm, _⟩ := stripLit_some cn _ _ _ h2
    exact vue_tail_lift f cn hs u hu hne m m2 l hm b2 hw2 hh2

theorem vue_lift (f : Bool → Str → Str) (cn : Char → Char) (hs : CanonSep cn)
    (u : Str) (hu : ∀ c ∈ u, c ∉ markupChars) (hne : u ≠ [])
    (m : List Item) (b : Bool) (hw : WF f cn u b m) (hh : slotHead m = false) :
    (vueBindingImgRegex (escapeRegExp u)).matchAt cn (proj f m)
      = (siteVue cn u m).map (fun s => (proj f s.rest, s.caps f)) := by
  simp only [vueBindingImgRegex, Re.cat, patternChars_escapeRegExp, Re.matchAt]
  rw [run_seq, Re.run, run_seq, Re.run]
  rw [vue_branch_lift f cn hs u hu hne m b hw hh ":src".toList
      (by simp [SlotSafe, openChars, aposChar]) (by simp [openChars, aposChar]),
    vue_branch_lift f cn hs u hu hne m b hw hh "v-bind:src".toList
      (by simp [SlotSafe, openChars, aposChar]) (by simp [openChars, aposChar])]
  unfold siteVue
  have eA : ":src".toList ++ "=".toList = ":src=".toList := rfl
  have eB : "v-bind:src".toList ++ "=".toList = "v-bind:src=".toList := rfl
  rw [eA, eB]
  cases stripLit cn ":src=".toList m with
  | none =>
    cases stripLit cn "v-bind:src=".toList m with
    | none => rfl
    | some m2 => simp only
  | some m2 =>
    simp only
    cases tailVue cn u m m2 with
    | some s => rfl
    | none =>
      cases stripLit cn "v-bind:src=".toList m with
      | none => rfl
      | some m3 => simp only [Option.map_none']

theorem siteVue_some (cn : Char → Char) (u : Str) (m : List Item) (s : Site)
    (h : siteVue cn u m = some s) :
    ∃ l m2 t, m = plainItems l ++ m2 ∧ quotedItems cn u m2 = some t
      ∧ s = { pre := plainItems l ++ [.ch t.1], url := t.2.1, post := [.ch t.1],
              groups := [(2, [.ch t.1]), (1, plainItems l)], rest := t.2.2 } := by
  have tail : ∀ a m2, stripLit cn a m = some m2 → tailVue cn u m m2 = some s →
      ∃ l m2 t, m = plainItems l ++ m2 ∧ quotedItems cn u m2 = some t
        ∧ s = { pre := plainItems l ++ [.ch t.1], url := t.2.1, post := [.ch t.1],
                groups := [(2, [.ch t.1]), (1, plainItems l)], rest := t.2.2 } := by
    intro a m2 h2 ht
    obtain ⟨l, hm, _⟩ := stripLit_some cn _ _ _ h2
    unfold tailVue at ht
    split at ht
    · cases ht
    · next t hq =>
      simp only [Option.some.injEq] at ht
      have e2 : m.take (m.length - m2.length) = plainItems l := by rw [hm, take_items]
      rw [e2] at ht
      exact ⟨l, m2, t, hm, hq, ht.symm⟩
  unfold siteVue at h
  cases hA : stripLit cn ":src=".toList m with
  | some m2 =>
    rw [hA] at h
    simp only at h
    cases hT : tailVue cn u m m2 with
    | some s2 =>
      rw [hT] at h
      simp only [Option.some.injEq] at h
      subst h
      exact tail _ m2 hA hT
    | none =>
      rw [hT] at h
      simp only at h
      cases hB : stripLit cn "v-bind:src=".toList m with
      | some m3 =>
        rw [hB] at h
        exact tail _ m3 hB h
      | none => rw [hB] at h; cases h
  | none =>
    rw [hA] at h
    simp only at h
    cases hB : stripLit cn "v-bind:src=".toList m with
    | some m3 =>
      rw [hB] at h
      exact tail _ m3 hB h
    | none => rw [hB] at h; cases h

theorem quote_open (q : Char) (h : q = '"' ∨ q = aposChar) : q ∈ openChars := by
  rcases h with rfl | rfl <;> simp [openChars]

theorem quote_close (q : Char) (h : q = '"' ∨ q = aposChar) : q ∈ closeChars := by
  rcases h with rfl | rfl <;> simp [closeChars]

theorem vue_spec (cn : Char → Char) (hs : CanonSep cn) (u p : Str) (hu : WordOk cn u)
    (hp : '$' ∉ p) (hpne : p ≠ []) :
    SiteSpec cn (vueBindingImgRegex (escapeRegExp u)) 2
      ("$1$2".toList ++ p ++ "$2".toList) (siteVue cn u) u p where
  lift := fun f m b hw hh => vue_lift f cn hs u hu.2.1 hu.1 m b hw hh
  subst := fun f m s ma be af h => by
    obtain ⟨l, m2, t, _, _, rfl⟩ := siteVue_some cn u m s h
    rw [subst_vue _ _ _ _ _ hp hpne]
    simp [Site.caps, capture, List.lookup, proj_append, proj]
  inslot := fun w1 w2 z d hne hw hd => by
    obtain ⟨h1, h2⟩ := wordOk_suffix cn w1 w2 hw
    simp only [vueBindingImgRegex, Re.cat, Re.matchAt]
    rw [run_seq, Re.run, run_seq, Re.run, run_lit_lit, run_lit_lit, Re.run, Re.run,
      inslot_lit_none cn hs (":src".toList ++ "=".toList) w2 z d h1 h2 hd
        (by simp [closeChars, aposChar]) (Or.inr ⟨[':'].map cn, [], by simp [srcEq]⟩),
      inslot_lit_none cn hs ("v-bind:src".toList ++ "=".toList) w2 z d h1 h2 hd
        (by simp [closeChars, aposChar])
        (Or.inr ⟨"v-bind:".toList.map cn, [], by simp [srcEq]⟩)]
  shape := fun m s h => by
    obtain ⟨l, m2, t, hm, hq, rfl⟩ := siteVue_some cn u m s h
    obtain ⟨e, hu2, hquote⟩ := quoted_shape cn hs u m2 t hq
    refine ⟨?_, hu2, ⟨plainItems l, t.1, rfl, quote_open _ hquote⟩,
      ⟨t.1, [], rfl, quote_close _ hquote⟩⟩
    rw [hm]
    conv_lhs => rw [e]
    simp

/-! ### The `<img>` pattern -/

theorem starItems_map {α β : Type} (p : Char → Bool) (g : α → β) :
    ∀ (m : List Item) (k : List Item → Option α),
      (starItems p m k).map g = starItems p m (fun m2 => (k m2).map g)
  | [], _ => rfl
  | .ch c :: t, k => by
    rw [starItems, starItems]
    split
    · rw [← starItems_map p g t k]
      cases starItems p t k <;> rfl
    · rfl
  | .slot _ _ :: t, k => by
    rw [starItems, starItems]
    exact starItems_map p g t k

theorem starItems_congr {α : Type} (p : Char → Bool) (k1 k2 : List Item → Option α) :
    ∀ (m : List Item), (∀ l m2, m = l ++ m2 → slotHead m2 = false → k1 m2 = k2 m2) →
      starItems p m k1 = starItems p m k2
  | [], h => h [] [] rfl rfl
  | .ch c :: t, h => by
    have ih := starItems_congr p k1 k2 t (fun l m2 e hh => h (.ch c :: l) m2 (by rw [e]; rfl) hh)
    have h0 := h [] (.ch c :: t) rfl rfl
    rw [starItems, starItems, ih, h0]
  | .slot k x :: t, h => by
    rw [starItems, starItems]
    exact starItems_congr p k1 k2 t (fun l m2 e hh => h (.slot k x :: l) m2 (by rw [e]; rfl) hh)

theorem starItems_some {α : Type} (p : Char → Bool) (k : List Item → Option α) (s : α) :
    ∀ (m : List Item), starItems p m k = some s →
      ∃ l m2, m = l ++ m2 ∧ slotHead m2 = false ∧ k m2 = some s
  | [], h => ⟨[], [], rfl, rfl, h⟩
  | .ch c :: t, h => by
    rw [starItems] at h
    split at h
    · cases hr : starItems p t k with
      | some r =>
        rw [hr] at h
        simp only [Option.some.injEq] at h
        subst h
        obtain ⟨l, m2, e, hh, hk⟩ := starItems_some p k r t hr
        exact ⟨.ch c :: l, m2, by rw [e]; rfl, hh, hk⟩
      | none =>
        rw [hr] at h
        exact ⟨[], .ch c :: t, rfl, rfl, h⟩
    · exact ⟨[], .ch c :: t, rfl, rfl, h⟩
  | .slot k0 x :: t, h => by
    rw [starItems] at h
    obtain ⟨l, m2, e, hh, hk⟩ := starItems_some p k s t h
    exact ⟨.slot k0 x :: l, m2, by rw [e]; rfl, hh, hk⟩

theorem html_tail_lift (f : Bool → Str → Str) (cn : Char → Char) (hs : CanonSep cn)
    (u : Str) (hu : ∀ c ∈ u, c ∉ markupChars) (hne : u ≠ []) (m g m3 : List Item)
    (hm : m = g ++ m3) (b3 : Bool) (hw3 : WF f cn u b3 m3) (hh3 : slotHead m3 = false) :
    (Re.seq (.group 2 (.cls false ['"', aposChar]))
        (.seq (.lit u) (.seq (.backref 2)
          (.group 3 (.seq (.star true ['>']) (.lit ">".toList)))))).run cn
        (proj f m3) [(1, (proj f m).take ((proj f m).length - (proj f m3).length))]
        (fun rest c => some (rest, c))
      = (tailHtml cn u m m3).map (fun s => (proj f s.rest, s.caps f)) := by
  have e := quoted_lift f cn hs u hu hne m3 b3 hw3 hh3
    [(1, (proj f m).take ((proj f m).length - (proj f m3).length))]
    (fun r3 c3 => (Re.group 3 (.seq (.star true ['>']) (.lit ">".toList))).run cn r3 c3
      (fun rest c => some (rest, c)))
  refine Eq.trans ?_ (e.trans ?_)
  · rfl
  unfold tailHtml
  cases hq : quotedItems cn u m3 with
  | none => rfl
  | some t =>
    obtain ⟨e3, _, _⟩ := quoted_shape cn hs u m3 t hq
    have hw5 : ∃ b5, WF f cn u b5 t.2.2 := by
      have h := hw3
      rw [e3] at h
      have e5 : Item.ch t.1 :: (plainItems t.2.1 ++ Item.ch t.1 :: t.2.2)
          = (Item.ch t.1 :: (plainItems t.2.1 ++ [Item.ch t.1])) ++ t.2.2 := by simp
      rw [e5] at h
      exact WF_tail f cn u _ _ _ h
    obtain ⟨b5, hw5⟩ := hw5
    have e1 : (proj f m).take ((proj f m).length - (proj f m3).length) = proj f g := by
      rw [hm, proj_append, take_capture]
    have e2 : m.take (m.length - m3.length) = g := by
      rw [hm, take_items]
    simp only
    rw [Re.run, run_seq, Re.run]
    rw [star_stop_lift f cn hs u '>' (by simp [markupChars]) t.2.2 b5 hw5]
    · have hsp := split_proj f cn u '>' (by simp [markupChars]) t.2.2 b5 hw5
      cases h2 : splitAtChar '>' t.2.2 with
      | none => rfl
      | some r =>
        rw [h2] at hsp
        have e4 : proj f t.2.2 = (proj f r.1 ++ ['>']) ++ proj f r.2 := by
          rw [hsp.1]; simp
        have e6 : litMatch cn ">".toList ('>' :: proj f r.2) = some (proj f r.2) := by
          simp [litMatch]
        simp only
        rw [Re.run, e6]
        simp only
        rw [e4, take_capture, e1, e2]
        simp [Site.caps, proj_append, proj]
    · intro y r1 hy
      have : litMatch cn ">".toList (y :: r1) = none := by
        have hne2 : ¬ cn '>' = cn y := fun e =>
          hy (sep_markup cn hs '>' y (by simp [markupChars]) e.symm)
        simp [litMatch, hne2]
      rw [Re.run, this]
    · rw [Re.run]
      rfl

theorem html_lift (f : Bool → Str → Str) (cn : Char → Char) (hs : CanonSep cn)
    (u : Str) (hu : ∀ c ∈ u, c ∉ markupChars) (hne : u ≠ [])
    (m : List Item) (b : Bool) (hw : WF f cn u b m) (hh : slotHead m = false) :
    (htmlImgRegex (escapeRegExp u)).matchAt cn (proj f m)
      = (siteHtml cn u m).map (fun s => (proj f s.rest, s.caps f)) := by
  simp only [htmlImgRegex, Re.cat, patternChars_escapeRegExp, Re.matchAt]
  unfold siteHtml
  rw [run_seq, Re.run, run_seq,
    run_lit_lift f cn hs u _ m b (by simp [SlotSafe, openChars, aposChar]) hw (Or.inl hh)]
  cases h1 : stripLit cn "<img".toList m with
  | none => rfl
  | some m1 =>
    obtain ⟨b1, hw1⟩ := WF_of_stripLit f cn u _ m m1 b hw h1
    obtain ⟨l0, hm0, _⟩ := stripLit_some cn _ _ _ h1
    simp only
    rw [run_seq, Re.run]
    rw [star_items_lift f cn hs u '>' (by simp [markupChars]) _ ?_ m1 b1 hw1, starItems_map]
    · apply starItems_congr
      intro l m2 e hh2
      have hw2 : ∃ b2, WF f cn u b2 m2 := by
        have h := hw1
        rw [e] at h
        exact WF_tail f cn u _ _ _ h
      obtain ⟨b2, hw2⟩ := hw2
      rw [run_lit_lift f cn hs u _ m2 b2 (by simp [SlotSafe, openChars, aposChar]) hw2
        (Or.inl hh2)]
      cases h3 : stripLit cn "src=".toList m2 with
      | none => rfl
      | some m3 =>
        obtain ⟨b3, hw3⟩ := WF_of_stripLit f cn u _ m2 m3 b2 hw2 h3
        have hh3 := stripLit_head f cn hs u _ m2 m3 b2 hw2 (by simp)
          (by simp [openChars, aposChar]) h3
        obtain ⟨l2, hm2, _⟩ := stripLit_some cn _ _ _ h3
        have hm : m = (plainItems l0 ++ l ++ plainItems l2) ++ m3 := by
          rw [hm0, e, hm2]; simp
        exact html_tail_lift f cn hs u hu hne m _ m3 hm b3 hw3 hh3
    · intro w z d hw0 hwm hsrc hd
      rw [Re.run, inslot_lit_none cn hs "src=".toList w z d hwm hsrc hd
        (by simp [closeChars, aposChar]) (Or.inr (List.infix_refl _))]

theorem siteHtml_some (cn : Char → Char) (u : Str) (m : List Item) (s : Site)
    (h : siteHtml cn u m = some s) :
    ∃ g m3 t r, m = g ++ m3 ∧ quotedItems cn u m3 = some t ∧ splitAtChar '>' t.2.2 = some r
      ∧ s = { pre := g ++ [.ch t.1], url := t.2.1, post := .ch t.1 :: (r.1 ++ [.ch '>']),
              groups := [(3, r.1 ++ [.ch '>']), (2, [.ch t.1]), (1, g)], rest := r.2 } := by
  unfold siteHtml at h
  split at h
  · cases h
  · next m1 h1 =>
    obtain ⟨l0, hm0, _⟩ := stripLit_some cn _ _ _ h1
    obtain ⟨l, m2, e, _, hk⟩ := starItems_some _ _ s m1 h
    split at hk
    · next m3 h3 =>
      obtain ⟨l2, hm2, _⟩ := stripLit_some cn _ _ _ h3
      have hm : m = (plainItems l0 ++ l ++ plainItems l2) ++ m3 := by
        rw [hm0, e, hm2]; simp
      unfold tailHtml at hk
      split at hk
      · cases hk
      · next t hq =>
        split at hk
        · cases hk
        · next r hr =>
          simp only [Option.some.injEq] at hk
          have e2 : m.take (m.length - m3.length) = plainItems l0 ++ l ++ plainItems l2 := by
            conv_lhs => rw [hm]
            exact take_items _ _
          rw [e2] at hk
          exact ⟨_, m3, t, r, hm, hq, hr, hk.symm⟩
    · cases hk

theorem html_spec (cn : Char → Char) (hs : CanonSep cn) (u p : Str) (hu : WordOk cn u)
    (hp : '$' ∉ p) (hpne : p ≠ []) :
    SiteSpec cn (htmlImgRegex (escapeRegExp u)) 3
      ("$1$2".toList ++ p ++ "$2$3".toList) (siteHtml cn u) u p where
  lift := fun f m b hw hh => html_lift f cn hs u hu.2.1 hu.1 m b hw hh
  subst := fun f m s ma be af h => by
    obtain ⟨g, m3, t, r, _, _, _, rfl⟩ := siteHtml_some cn u m s h
    rw [subst_html _ _ _ _ _ hp hpne]
    simp [Site.caps, capture, List.lookup, proj_append, proj]
  inslot := fun w1 w2 z d hne hw hd => by
    obtain ⟨h1, h2⟩ := wordOk_suffix cn w1 w2 hw
    simp only [htmlImgRegex, Re.cat, Re.matchAt]
    rw [run_seq, Re.run, run_seq, Re.run,
      inslot_lit_none cn hs "<img".toList w2 z d h1 h2 hd
        (by simp [closeChars, aposChar]) (Or.inl ⟨'<', by simp, by simp [markupChars]⟩)]
  shape := fun m s h => by
    obtain ⟨g, m3, t, r, hm, hq, hr, rfl⟩ := siteHtml_some cn u m s h
    obtain ⟨e, hu2, hquote⟩ := quoted_shape cn hs u m3 t hq
    have e5 := splitAtChar_some '>' t.2.2 r.1 r.2 hr
    refine ⟨?_, hu2, ⟨g, t.1, rfl, quote_open _ hquote⟩,
      ⟨t.1, r.1 ++ [.ch '>'], rfl, quote_close _ hquote⟩⟩
    rw [hm]
    conv_lhs => rw [e, e5]
    simp

/-! ### The replacements of two entries commute -/

theorem canonSep_asciiUpper : CanonSep asciiUpper := by
  have key : ∀ n, 97 ≤ n → n ≤ 122 →
      ∀ d ∈ '/' :: markupChars, Char.ofNat (n - 32) ≠ asciiUpper d := by
    intro n h1 h2
    interval_cases n <;> decide
  have dfix : ∀ d ∈ '/' :: markupChars, asciiUpper d = d := by decide
  intro d hd c h
  by_cases hc : 97 ≤ c.toNat ∧ c.toNat ≤ 122
  · have e : asciiUpper c = Char.ofNat (c.toNat - 32) := if_pos hc
    rw [e] at h
    exact absurd h (key _ hc.1 hc.2 d hd)
  · have e : asciiUpper c = c := if_neg hc
    rw [e, dfix d hd] at h
    exact h

theorem entryOk_of_plain (cn : Char → Char) (e : Str × Str) (h : PlainEntry cn e) :
    EntryOk cn e.1 e.2 := by
  obtain ⟨h1, h2, h3, h4, h5, h6⟩ := h
  have hk : ∃ t, e.1 = 'h' :: t := by
    cases he : e.1 with
    | nil => rw [he] at h1; simp [isHttpUrl, startsWith] at h1
    | cons c t =>
      rw [he] at h1
      refine ⟨t, ?_⟩
      simp only [isHttpUrl, startsWith, Bool.or_eq_true] at h1
      rcases h1 with h1 | h1
      · have : c = 'h' := by
          simp [String.toList, List.isPrefixOf] at h1
          exact h1.1.symm
        rw [this]
      · have : c = 'h' := by
          simp [String.toList, List.isPrefixOf] at h1
          exact h1.1.symm
        rw [this]
  have hpth : ∃ t, e.2 = '/' :: t := by
    cases he : e.2 with
    | nil => rw [he] at h2; simp [startsWith] at h2
    | cons c t =>
      rw [he] at h2
      refine ⟨t, ?_⟩
      have : c = '/' := by
        simp [startsWith, String.toList, List.isPrefixOf] at h2
        exact h2.symm
      rw [this]
  refine ⟨⟨?_, fun c hc => h3 c (List.mem_append_left _ hc), h4⟩,
    ⟨?_, fun c hc => h3 c (List.mem_append_right _ hc), h5⟩, hk, hpth, h6⟩
  · obtain ⟨t, ht⟩ := hk
    rw [ht]; simp
  · obtain ⟨t, ht⟩ := hpth
    rw [ht]; simp

theorem entry_lifted (cn : Char → Char) (hs : CanonSep cn) (u p : Str) (h : EntryOk cn u p)
    (own : Bool) :
    (∃ mk, Lifted id own u p (replaceAll id (markdownImgRegex (escapeRegExp u)) 1
        ("![$1](".toList ++ p ++ ")".toList)) mk)
      ∧ (∃ mk, Lifted cn own u p (replaceAll cn (htmlImgRegex (escapeRegExp u)) 3
        ("$1$2".toList ++ p ++ "$2$3".toList)) mk)
      ∧ (∃ mk, Lifted cn own u p (replaceAll cn (vueBindingImgRegex (escapeRegExp u)) 2
        ("$1$2".toList ++ p ++ "$2".toList)) mk) :=
  ⟨⟨_, lifted_of_spec (md_spec u p (wordOk_refines id cn (refines_id cn) u h.key) h.noDollar)
      own⟩,
    ⟨_, lifted_of_spec (html_spec cn hs u p h.key h.noDollar h.path.1) own⟩,
    ⟨_, lifted_of_spec (vue_spec cn hs u p h.key h.noDollar h.path.1) own⟩⟩

theorem rewriteEntry_comm (cn : Char → Char) (hs : CanonSep cn) (a b p q : Str)
    (ea : EntryOk cn a p) (eb : EntryOk cn b q) (hab : a.map cn ≠ b.map cn) (s : Str) :
    rewriteEntry cn (rewriteEntry cn s b q) a p = rewriteEntry cn (rewriteEntry cn s a p) b q := by
  obtain ⟨⟨mMa, Ma⟩, ⟨mHa, Ha⟩, ⟨mVa, Va⟩⟩ := entry_lifted cn hs a p ea true
  obtain ⟨⟨mMb, Mb⟩, ⟨mHb, Hb⟩, ⟨mVb, Vb⟩⟩ := entry_lifted cn hs b q eb false
  have ri := refines_id cn
  have rs := refines_self cn
  have cMM := ops_commute cn id id ri ri hs a b p q ea eb hab _ _ _ _ Ma Mb
  have cMH := ops_commute cn id cn ri rs hs a b p q ea eb hab _ _ _ _ Ma Hb
  have cMV := ops_commute cn id cn ri rs hs a b p q ea eb hab _ _ _ _ Ma Vb
  have cHM := ops_commute cn cn id rs ri hs a b p q ea eb hab _ _ _ _ Ha Mb
  have cHH := ops_commute cn cn cn rs rs hs a b p q ea eb hab _ _ _ _ Ha Hb
  have cHV := ops_commute cn cn cn rs rs hs a b p q ea eb hab _ _ _ _ Ha Vb
  have cVM := ops_commute cn cn id rs ri hs a b p q ea eb hab _ _ _ _ Va Mb
  have cVH := ops_commute cn cn cn rs rs hs a b p q ea eb hab _ _ _ _ Va Hb
  have cVV := ops_commute cn cn cn rs rs hs a b p q ea eb hab _ _ _ _ Va Vb
  simp only [rewriteEntry]
  rw [cMV, cMH, cMM, cHV, cHH, cHM, cVV, cVH, cVM]

/-- C10, amended.  When Canonicalize keeps the slash, the brackets and the
quotes apart from every other character, and every entry of the mapping has
an http(s) URL as key and a path beginning with `/`, neither holding one of
`[ ] ( ) < > " '` nor `src=` in any letter case, the path without `$`, and
the keys differ pairwise even when compared ignoring case, then the body
that the rewrite loop produces is the same for every order of the
entries. -/
theorem body_rewrite_order_independent (canon : Char → Char) (hs : CanonSep canon)
    (bodyContent : Str) (m1 m2 : UrlMap) (hperm : m1.Perm m2)
    (hok : ∀ e ∈ m1, PlainEntry canon e)
    (hdis : m1.Pairwise (fun e1 e2 => e1.1.map canon ≠ e2.1.map canon)) :
    (updateBody canon bodyContent m1).1 = (updateBody canon bodyContent m2).1 := by
  unfold updateBody
  rw [updateBody_fst, updateBody_fst]
  apply List.Perm.foldl_eq' hperm
  intro x hx y hy z
  by_cases hxy : x = y
  · rw [hxy]
  · have hne := hdis.forall (fun _ _ h => Ne.symm h) hx hy hxy
    exact rewriteEntry_comm canon hs y.1 x.1 y.2 x.2 (entryOk_of_plain canon y (hok y hy))
      (entryOk_of_plain canon x (hok x hx)) (Ne.symm hne) z

set_option maxRecDepth 100000 in
/-- The amended C10 at a body with an image, an `<img>` tag and a bound
`src`, for a mapping of three entries in two orders. -/
theorem body_rewrite_order_independent_witness :
    (updateBody asciiUpper
        "![a](https://x/a.png) <img src='HTTPS://X/B.PNG'> :src=\"https://x/a.png?v=2\"".toList
        [("https://x/a.png".toList, "/img/1.webp".toList),
          ("https://x/b.png".toList, "/img/2.webp".toList),
          ("https://x/a.png?v=2".toList, "/img/3.webp".toList)]).1
      = (updateBody asciiUpper
        "![a](https://x/a.png) <img src='HTTPS://X/B.PNG'> :src=\"https://x/a.png?v=2\"".toList
        [("https://x/a.png?v=2".toList, "/img/3.webp".toList),
          ("https://x/b.png".toList, "/img/2.webp".toList),
          ("https://x/a.png".toList, "/img/1.webp".toList)]).1 :=
  body_rewrite_order_independent asciiUpper canonSep_asciiUpper _ _ _
    (by decide) (by decide) (by decide)

end FetchRemoteImages
